import Mathlib

/-!
# Verification of the microPROLOG logic core

Shallow embedding of the microPROLOG interpreter (terms, substitutions,
unification with occurs-check, clause database, SLD resolution engine,
built-in predicates, parser) together with proofs about the claims of the
specification.

Modelling conventions:
* Python `int` is modelled as `Int`, Python `float` as an exact rational
  (`Rat`).  All float values produced by the tokenizer are finite decimal
  fractions, and all comparisons performed by the interpreter on such
  values coincide with exact rational comparison.
* Python dictionaries of variable bindings are modelled as association
  lists with dictionary semantics (`find1` returns the unique entry).
* Functions of the source that can diverge on adversarial inputs
  (`Substitution.lookup`'s while loop, `Substitution.apply`, `unify`,
  `solve`) are modelled with an explicit fuel parameter; a `none` result
  means the fuel ran out, i.e. the source would still be running.
  All recursive calls pass the fuel decremented once at function entry.
-/

namespace MicroProlog

/-- Scalar payload of an `Atom`: a string symbol, an integer, or a real
(Python float, modelled as an exact rational). -/
inductive PyVal where
  | str (s : String)
  | int (n : Int)
  | float (q : Rat)
deriving DecidableEq, Repr

/-- Python `==` on atom payloads: numbers compare numerically across the
int/float distinction, strings compare as strings, and a string never
equals a number. -/
def PyVal.eqb : PyVal → PyVal → Bool
  | .str a, .str b => decide (a = b)
  | .int a, .int b => decide (a = b)
  | .int a, .float q => decide ((a : Rat) = q)
  | .float q, .int a => decide (q = (a : Rat))
  | .float a, .float b => decide (a = b)
  | _, _ => false

/-- microPROLOG terms (`terms.py`): atoms, variables, compound terms and
lists with an optional tail. -/
inductive Term where
  | atom (v : PyVal)
  | var (name : String)
  | comp (functor : String) (args : List Term)
  | list (elements : List Term) (tail : Option Term)
deriving Repr

mutual
def Term.deq : (a b : Term) → Decidable (a = b)
  | .atom x, .atom y =>
    match decEq x y with
    | isTrue h => isTrue (by rw [h])
    | isFalse h => isFalse (fun hh => h (by injection hh))
  | .var x, .var y =>
    match decEq x y with
    | isTrue h => isTrue (by rw [h])
    | isFalse h => isFalse (fun hh => h (by injection hh))
  | .comp f as, .comp g bs =>
    match decEq f g, Term.deqList as bs with
    | isTrue h1, isTrue h2 => isTrue (by rw [h1, h2])
    | isFalse h1, _ => isFalse (fun hh => h1 (by injection hh))
    | _, isFalse h2 => isFalse (fun hh => h2 (by injection hh))
  | .list es tl, .list fs tl2 =>
    match Term.deqList es fs, Term.deqOpt tl tl2 with
    | isTrue h1, isTrue h2 => isTrue (by rw [h1, h2])
    | isFalse h1, _ => isFalse (fun hh => h1 (by injection hh))
    | _, isFalse h2 => isFalse (fun hh => h2 (by injection hh))
  | .atom _, .var _ => isFalse (fun h => Term.noConfusion h)
  | .atom _, .comp _ _ => isFalse (fun h => Term.noConfusion h)
  | .atom _, .list _ _ => isFalse (fun h => Term.noConfusion h)
  | .var _, .atom _ => isFalse (fun h => Term.noConfusion h)
  | .var _, .comp _ _ => isFalse (fun h => Term.noConfusion h)
  | .var _, .list _ _ => isFalse (fun h => Term.noConfusion h)
  | .comp _ _, .atom _ => isFalse (fun h => Term.noConfusion h)
  | .comp _ _, .var _ => isFalse (fun h => Term.noConfusion h)
  | .comp _ _, .list _ _ => isFalse (fun h => Term.noConfusion h)
  | .list _ _, .atom _ => isFalse (fun h => Term.noConfusion h)
  | .list _ _, .var _ => isFalse (fun h => Term.noConfusion h)
  | .list _ _, .comp _ _ => isFalse (fun h => Term.noConfusion h)

def Term.deqList : (as bs : List Term) → Decidable (as = bs)
  | [], [] => isTrue rfl
  | [], _ :: _ => isFalse (fun h => List.noConfusion h)
  | _ :: _, [] => isFalse (fun h => List.noConfusion h)
  | a :: as, b :: bs =>
    match Term.deq a b, Term.deqList as bs with
    | isTrue h1, isTrue h2 => isTrue (by rw [h1, h2])
    | isFalse h1, _ => isFalse (fun hh => h1 (by injection hh))
    | _, isFalse h2 => isFalse (fun hh => h2 (by injection hh))

def Term.deqOpt : (a b : Option Term) → Decidable (a = b)
  | none, none => isTrue rfl
  | none, some _ => isFalse (fun h => Option.noConfusion h)
  | some _, none => isFalse (fun h => Option.noConfusion h)
  | some a, some b =>
    match Term.deq a b with
    | isTrue h => isTrue (by rw [h])
    | isFalse h => isFalse (fun hh => h (by injection hh))
end

instance : DecidableEq Term := Term.deq

mutual
/-- Python structural equality (`==` of the frozen dataclasses): same
variant, equal payloads; atom payloads compare with `PyVal.eqb`. -/
def Term.peq : Term → Term → Bool
  | .atom a, .atom b => PyVal.eqb a b
  | .var x, .var y => decide (x = y)
  | .comp f as, .comp g bs => decide (f = g) && Term.peqList as bs
  | .list es tl, .list fs tl2 => Term.peqList es fs && Term.peqOpt tl tl2
  | _, _ => false

def Term.peqList : List Term → List Term → Bool
  | [], [] => true
  | a :: as, b :: bs => Term.peq a b && Term.peqList as bs
  | _, _ => false

def Term.peqOpt : Option Term → Option Term → Bool
  | none, none => true
  | some a, some b => Term.peq a b
  | _, _ => false
end

/-- `isinstance(t, Variable) and t.name == x`. -/
def Term.isVarNamed (x : String) : Term → Bool
  | .var y => decide (x = y)
  | _ => false

/-- A substitution: the dictionary of `unification.py`'s `Substitution`,
as an association list with unique keys (later `bind`s of a fresh name
append at the end, so list order is binding order). -/
abbrev Subst := List (String × Term)

/-- Dictionary lookup (a single step, not the chain walk). -/
def find1 (σ : Subst) (x : String) : Option Term :=
  (σ.find? (fun p => decide (p.1 = x))).map (·.2)

/-- `Substitution.bind`: functional update of the dictionary — overwrite
an existing entry for `x`, otherwise append the new binding. -/
def bindS (σ : Subst) (x : String) (t : Term) : Subst :=
  if σ.any (fun p => decide (p.1 = x)) then
    σ.map (fun p => if p.1 = x then (x, t) else p)
  else
    σ ++ [(x, t)]

/-- The while loop inside `Substitution.lookup`: follow the chain of
variable-to-variable bindings starting from `t`.  `none` = the loop is
still running after `fuel` iterations. -/
def walkChain (σ : Subst) : Nat → Term → Option Term
  | 0, _ => none
  | fuel + 1, t =>
    match t with
    | .var y =>
      match find1 σ y with
      | some t2 => walkChain σ fuel t2
      | none => some t
    | t => some t

/-- `Substitution.lookup`: `none` (outer) = divergence; `some none` =
unbound; `some (some t)` = the walked binding. -/
def lookupS (σ : Subst) (fuel : Nat) (x : String) : Option (Option Term) :=
  match find1 σ x with
  | none => some none
  | some t => (walkChain σ fuel t).map some

/-- `Substitution.apply`: deep rewrite of a term under the bindings.
`none` = the source function would diverge within the given fuel. -/
def applyN (σ : Subst) : Nat → Term → Option Term
  | 0, _ => none
  | _ + 1, .atom v => some (.atom v)
  | fuel + 1, .var x =>
    match lookupS σ fuel x with
    | none => none
    | some none => some (.var x)
    | some (some b) => applyN σ fuel b
  | fuel + 1, .comp f args =>
    (args.mapM (applyN σ fuel)).map (fun as => .comp f as)
  | fuel + 1, .list es tl =>
    match es.mapM (applyN σ fuel) with
    | none => none
    | some es2 =>
      match tl with
      | none => some (.list es2 none)
      | some t =>
        match applyN σ fuel t with
        | none => none
        | some t2 => some (.list es2 (some t2))

mutual
/-- `occurs_check var term subst`: does the variable occur in the term
after applying the substitution? -/
def occursN (σ : Subst) : Nat → String → Term → Option Bool
  | 0, _, _ => none
  | fuel + 1, v, t =>
    match applyN σ fuel t with
    | none => none
    | some t2 =>
      match t2 with
      | .var y => some (decide (v = y))
      | .comp _ args => occursAnyN σ fuel v args
      | .list es tl =>
        match occursAnyN σ fuel v es with
        | none => none
        | some true => some true
        | some false =>
          match tl with
          | some tt => occursN σ fuel v tt
          | none => some false
      | _ => some false

/-- The `any(...)`/element loop of `occurs_check` over a list of terms. -/
def occursAnyN (σ : Subst) : Nat → String → List Term → Option Bool
  | 0, _, _ => none
  | _ + 1, _, [] => some false
  | fuel + 1, v, t :: ts =>
    match occursN σ fuel v t with
    | none => none
    | some true => some true
    | some false => occursAnyN σ fuel v ts
end

/-- Reconstruction of a residual tail in the list case of `unify`: the
remaining elements (beyond the shorter list's length) keep the original
tail; with no remaining elements the original tail is used directly, or
the empty list if there is none. -/
def mkTail (rem : List Term) (tl : Option Term) : Term :=
  if rem.isEmpty then
    match tl with
    | some u => u
    | none => Term.list [] none
  else Term.list rem tl

mutual
/-- `unify term1 term2 subst` of `unification.py`.  Result: `none` =
fuel ran out; `some none` = unification fails; `some (some σ2)` = success
with the refined substitution. -/
def unifyN : Nat → Subst → Term → Term → Option (Option Subst)
  | 0, _, _, _ => none
  | fuel + 1, σ, t1, t2 =>
    match applyN σ fuel t1 with
    | none => none
    | some a1 =>
      match applyN σ fuel t2 with
      | none => none
      | some a2 =>
        match a1, a2 with
        | .atom v1, .atom v2 =>
          some (if PyVal.eqb v1 v2 then some σ else none)
        | .var x, b =>
          if Term.isVarNamed x b then some (some σ)
          else
            match occursN σ fuel x b with
            | none => none
            | some true => some none
            | some false => some (some (bindS σ x b))
        | a, .var y =>
          match occursN σ fuel y a with
          | none => none
          | some true => some none
          | some false => some (some (bindS σ y a))
        | .comp f as, .comp g bs =>
          if f = g then
            if as.length = bs.length then unifyArgsN fuel σ as bs
            else some none
          else some none
        | .list es1 tl1, .list es2 tl2 =>
          if es1.isEmpty && tl1.isNone && es2.isEmpty && tl2.isNone then
            some (some σ)
          else if (es1.isEmpty && tl1.isNone) || (es2.isEmpty && tl2.isNone) then
            some none
          else
            match unifyArgsN fuel σ es1 es2 with
            | none => none
            | some none => some none
            | some (some σ2) =>
              let m := min es1.length es2.length
              unifyN fuel σ2 (mkTail (es1.drop m) tl1) (mkTail (es2.drop m) tl2)
        | _, _ => some none

/-- The argument loop of `unify` on compounds (also the element loop of
the list case: like Python's `zip`, it stops at the shorter list and
returns the current substitution). -/
def unifyArgsN : Nat → Subst → List Term → List Term → Option (Option Subst)
  | 0, _, _, _ => none
  | _ + 1, σ, [], _ => some (some σ)
  | _ + 1, σ, _, [] => some (some σ)
  | fuel + 1, σ, a :: as, b :: bs =>
    match unifyN fuel σ a b with
    | none => none
    | some none => some none
    | some (some σ2) => unifyArgsN fuel σ2 as bs
end

/-! ### Arithmetic and built-in predicates (`builtin_predicates.py`) -/

/-- A Python number: an `int` or a `float` (modelled exactly). -/
inductive PyNum where
  | int (n : Int)
  | float (q : Rat)
deriving DecidableEq, Repr

/-- The rational value of a number. -/
def PyNum.toRat : PyNum → Rat
  | .int n => (n : Rat)
  | .float q => q

/-- Back into an atom payload. -/
def PyNum.toVal : PyNum → PyVal
  | .int n => .int n
  | .float q => .float q

/-- Python `+` on numbers: int stays int, float is contagious. -/
def PyNum.add : PyNum → PyNum → PyNum
  | .int a, .int b => .int (a + b)
  | a, b => .float (a.toRat + b.toRat)

/-- Python `-` on numbers. -/
def PyNum.sub : PyNum → PyNum → PyNum
  | .int a, .int b => .int (a - b)
  | a, b => .float (a.toRat - b.toRat)

/-- Python `*` on numbers. -/
def PyNum.mul : PyNum → PyNum → PyNum
  | .int a, .int b => .int (a * b)
  | a, b => .float (a.toRat * b.toRat)

/-- Python `/` on numbers: true division, always a float. -/
def PyNum.divF (a b : PyNum) : PyNum := .float (a.toRat / b.toRat)

/-- `right == 0` in the division guard. -/
def PyNum.isZero (a : PyNum) : Bool := decide (a.toRat = 0)

/-- `_eval_arithmetic expr subst`: reduce a term to a number.  Outer
`none` = fuel ran out; `some none` = a `ValueError` was raised
(non-number atom, unbound variable, unknown operator, wrong arity,
division by zero); `some (some v)` = the numeric value. -/
def evalArithN (σ : Subst) : Nat → Term → Option (Option PyNum)
  | 0, _ => none
  | fuel + 1, e =>
    match applyN σ fuel e with
    | none => none
    | some e2 =>
      match e2 with
      | .atom (.int n) => some (some (.int n))
      | .atom (.float q) => some (some (.float q))
      | .atom (.str _) => some none
      | .comp f args =>
        match args with
        | [a, b] =>
          if f = "+" then
            match evalArithN σ fuel a with
            | none => none
            | some none => some none
            | some (some va) =>
              match evalArithN σ fuel b with
              | none => none
              | some none => some none
              | some (some vb) => some (some (va.add vb))
          else if f = "-" then
            match evalArithN σ fuel a with
            | none => none
            | some none => some none
            | some (some va) =>
              match evalArithN σ fuel b with
              | none => none
              | some none => some none
              | some (some vb) => some (some (va.sub vb))
          else if f = "*" then
            match evalArithN σ fuel a with
            | none => none
            | some none => some none
            | some (some va) =>
              match evalArithN σ fuel b with
              | none => none
              | some none => some none
              | some (some vb) => some (some (va.mul vb))
          else if f = "/" then
            match evalArithN σ fuel a with
            | none => none
            | some none => some none
            | some (some va) =>
              match evalArithN σ fuel b with
              | none => none
              | some none => some none
              | some (some vb) =>
                if vb.isZero then some none
                else some (some (va.divF vb))
          else some none
        | _ => some none
      | _ => some none

/-- `_unify_builtin`: `(= X Y)`. -/
def unifyBuiltinN : Nat → List Term → Subst → Option (List Subst)
  | 0, _, _ => none
  | fuel + 1, args, σ =>
    match args with
    | [a, b] =>
      match unifyN fuel σ a b with
      | none => none
      | some none => some []
      | some (some σ2) => some [σ2]
    | _ => some []

/-- `_arithmetic_eval`: `(is X Expr)`.  The whole body runs inside
`try`/`except`, so an evaluation error yields no solutions. -/
def arithmeticEvalN : Nat → List Term → Subst → Option (List Subst)
  | 0, _, _ => none
  | fuel + 1, args, σ =>
    match args with
    | [t, e] =>
      match applyN σ fuel e with
      | none => none
      | some expr =>
        match evalArithN σ fuel expr with
        | none => none
        | some none => some []
        | some (some v) =>
          match unifyN fuel σ t (Term.atom v.toVal) with
          | none => none
          | some none => some []
          | some (some σ2) => some [σ2]
    | _ => some []

/-- `_not_unifiable`: `(/= X Y)` succeeds (with the unchanged
substitution) iff the two arguments do not unify. -/
def notUnifiableN : Nat → List Term → Subst → Option (List Subst)
  | 0, _, _ => none
  | fuel + 1, args, σ =>
    match args with
    | [a, b] =>
      match unifyN fuel σ a b with
      | none => none
      | some none => some [σ]
      | some (some _) => some []
    | _ => some []

/-- `_is_atom`: `(atom X)` — a string-valued atom after applying σ. -/
def isAtomN : Nat → List Term → Subst → Option (List Subst)
  | 0, _, _ => none
  | fuel + 1, args, σ =>
    match args with
    | [a] =>
      match applyN σ fuel a with
      | none => none
      | some (.atom (.str _)) => some [σ]
      | some _ => some []
    | _ => some []

/-- `_is_number`: `(number X)`. -/
def isNumberN : Nat → List Term → Subst → Option (List Subst)
  | 0, _, _ => none
  | fuel + 1, args, σ =>
    match args with
    | [a] =>
      match applyN σ fuel a with
      | none => none
      | some (.atom (.int _)) => some [σ]
      | some (.atom (.float _)) => some [σ]
      | some _ => some []
    | _ => some []

/-- `_is_var`: `(var X)`. -/
def isVarN : Nat → List Term → Subst → Option (List Subst)
  | 0, _, _ => none
  | fuel + 1, args, σ =>
    match args with
    | [a] =>
      match applyN σ fuel a with
      | none => none
      | some (.var _) => some [σ]
      | some _ => some []
    | _ => some []

/-- `_is_nonvar`: `(nonvar X)`. -/
def isNonvarN : Nat → List Term → Subst → Option (List Subst)
  | 0, _, _ => none
  | fuel + 1, args, σ =>
    match args with
    | [a] =>
      match applyN σ fuel a with
      | none => none
      | some (.var _) => some []
      | some _ => some [σ]
    | _ => some []

/-- The four arithmetic comparisons and `<>`: evaluate both sides, then
succeed iff the comparison holds; failures are silent. -/
def comparisonN (cmp : PyNum → PyNum → Bool) :
    Nat → List Term → Subst → Option (List Subst)
  | 0, _, _ => none
  | fuel + 1, args, σ =>
    match args with
    | [a, b] =>
      match evalArithN σ fuel a with
      | none => none
      | some none => some []
      | some (some va) =>
        match evalArithN σ fuel b with
        | none => none
        | some none => some []
        | some (some vb) => if cmp va vb then some [σ] else some []
    | _ => some []

/-- The keys of the `BuiltinRegistry` dispatch table. -/
def builtinNames : List String :=
  ["=", "is", "atom", "number", "var", "nonvar", "<", ">", "=<", ">=", "<>", "/="]

/-- `BuiltinRegistry.evaluate`: dispatch a goal to its handler; a
non-compound goal yields nothing. -/
def evalBuiltinN : Nat → Term → Subst → Option (List Subst)
  | 0, _, _ => none
  | fuel + 1, goal, σ =>
    match goal with
    | .comp f args =>
      if f = "=" then unifyBuiltinN fuel args σ
      else if f = "is" then arithmeticEvalN fuel args σ
      else if f = "atom" then isAtomN fuel args σ
      else if f = "number" then isNumberN fuel args σ
      else if f = "var" then isVarN fuel args σ
      else if f = "nonvar" then isNonvarN fuel args σ
      else if f = "<" then comparisonN (fun a b => decide (a.toRat < b.toRat)) fuel args σ
      else if f = ">" then comparisonN (fun a b => decide (b.toRat < a.toRat)) fuel args σ
      else if f = "=<" then comparisonN (fun a b => decide (a.toRat ≤ b.toRat)) fuel args σ
      else if f = ">=" then comparisonN (fun a b => decide (b.toRat ≤ a.toRat)) fuel args σ
      else if f = "<>" then comparisonN (fun a b => decide (¬ a.toRat = b.toRat)) fuel args σ
      else if f = "/=" then notUnifiableN fuel args σ
      else some []
    | _ => some []

/-! ### Clause database (`database.py`) -/

/-- A fact or rule: head term plus (possibly empty) body. -/
structure Clause where
  head : Term
  body : List Term
deriving DecidableEq, Repr

/-- `Database._get_functor`. -/
def getFunctor : Term → Option String
  | .comp f _ => some f
  | _ => none

/-- `Database.get_clauses`: the functor-indexed bucket in insertion
order, or the full clause list when the goal has no (truthy) functor or
the functor is not indexed.  (`_update_index` skips clauses whose head
functor is the empty string, and `if functor:` is false for `""`.) -/
def getClauses (db : List Clause) (goal : Term) : List Clause :=
  match getFunctor goal with
  | some f =>
    if f = "" then db
    else
      match db.filter (fun c => decide (getFunctor c.head = some f)) with
      | [] => db
      | bucket => bucket
  | none => db

/-! ### Renamer and resolution engine (`inference.py`) -/

mutual
/-- The inner `rename_term` of `_rename_variables`: every variable gets
the fresh suffix appended (the memo table of the source stores exactly
`name + suffix` for each `name`, so it is observationally this map). -/
def renameTerm (suffix : String) : Term → Term
  | .atom v => .atom v
  | .var x => .var (x ++ suffix)
  | .comp f args => .comp f (renameTermList suffix args)
  | .list es tl =>
    .list (renameTermList suffix es)
      (match tl with
       | some t => some (renameTerm suffix t)
       | none => none)

/-- Renaming of each element of a tuple of terms. -/
def renameTermList (suffix : String) : List Term → List Term
  | [] => []
  | t :: ts => renameTerm suffix t :: renameTermList suffix ts
end

/-- Digit-by-digit decimal writer (structural on a fuel that is always
sufficient at `fuel = n + 1`, since `n / 10 < n`). -/
def natDecAux : Nat → Nat → List Char
  | 0, _ => []
  | fuel + 1, n =>
    if n < 10 then [Char.ofNat (48 + n)]
    else natDecAux fuel (n / 10) ++ [Char.ofNat (48 + n % 10)]

/-- The decimal representation of a natural number, digit characters
only (the model of Python's `str(int)` / f-string interpolation for the
nonnegative counter). -/
def natDec (n : Nat) : List Char := natDecAux (n + 1) n

/-- `_rename_variables`: increment the counter, build the suffix
`"_k"`, rename head and body. -/
def renameClause (c : Clause) (ctr : Nat) : Clause × Nat :=
  let k := ctr + 1
  let suffix := "_" ++ String.mk (natDec k)
  (⟨renameTerm suffix c.head, c.body.map (renameTerm suffix)⟩, k)

/-- `isinstance(goal, Compound) and self.builtins.is_builtin(goal.functor)`. -/
def isBuiltinGoal : Term → Bool
  | .comp f _ => builtinNames.contains f
  | _ => false

mutual
/-- `InferenceEngine.solve`: SLD resolution with backtracking.  The lazy
generator is modelled as the full (finite) list of solutions it yields,
in order, paired with the final renaming counter.  Outer `none` = fuel
ran out. -/
def solveN (db : List Clause) (limit : Nat) :
    Nat → List Term → Subst → Nat → Nat → Option (List Subst × Nat)
  | 0, _, _, _, _ => none
  | fuel + 1, goals, σ, depth, ctr =>
    if limit < depth then some ([], ctr)
    else
      match goals with
      | [] => some ([σ], ctr)
      | g0 :: rest =>
        match applyN σ fuel g0 with
        | none => none
        | some g =>
          if isBuiltinGoal g then
            match evalBuiltinN fuel g σ with
            | none => none
            | some subs => solveSubsN db limit fuel rest subs (depth + 1) ctr
          else
            solveClausesN db limit fuel g rest σ depth (getClauses db g) ctr
termination_by structural fuel _ _ _ _ => fuel

/-- The built-in branch: continue with the remaining goals for each
substitution the handler yielded. -/
def solveSubsN (db : List Clause) (limit : Nat) :
    Nat → List Term → List Subst → Nat → Nat → Option (List Subst × Nat)
  | 0, _, _, _, _ => none
  | _ + 1, _, [], _, ctr => some ([], ctr)
  | fuel + 1, rest, σ1 :: σs, depth, ctr =>
    match solveN db limit fuel rest σ1 depth ctr with
    | none => none
    | some (sols, ctr2) =>
      match solveSubsN db limit fuel rest σs depth ctr2 with
      | none => none
      | some (sols2, ctr3) => some (sols ++ sols2, ctr3)
termination_by structural fuel _ _ _ _ => fuel

/-- The clause branch: for each retrieved clause in insertion order,
rename it, unify the goal with its head, and on success solve the body
prepended to the remaining goals. -/
def solveClausesN (db : List Clause) (limit : Nat) :
    Nat → Term → List Term → Subst → Nat → List Clause → Nat →
    Option (List Subst × Nat)
  | 0, _, _, _, _, _, _ => none
  | _ + 1, _, _, _, _, [], ctr => some ([], ctr)
  | fuel + 1, g, rest, σ, depth, c :: cs, ctr =>
    let rc := renameClause c ctr
    match unifyN fuel σ g rc.1.head with
    | none => none
    | some none => solveClausesN db limit fuel g rest σ depth cs rc.2
    | some (some σ2) =>
      match solveN db limit fuel (rc.1.body ++ rest) σ2 (depth + 1) rc.2 with
      | none => none
      | some (sols, ctr2) =>
        match solveClausesN db limit fuel g rest σ depth cs ctr2 with
        | none => none
        | some (sols2, ctr3) => some (sols ++ sols2, ctr3)
termination_by structural fuel _ _ _ _ _ _ => fuel
end

/-- `InferenceEngine.query goal`: solve `[goal]` from the empty
substitution at depth 0; the engine's depth limit is 1000 and its
renaming counter starts at 0. -/
def queryN (db : List Clause) (fuel : Nat) (goal : Term) :
    Option (List Subst × Nat) :=
  solveN db 1000 fuel [goal] [] 0 0

/-! ### Auxiliary notions used in the statements and proofs -/

mutual
/-- The names of the variables occurring in a term, in order. -/
def Term.vars : Term → List String
  | .atom _ => []
  | .var x => [x]
  | .comp _ args => Term.varsList args
  | .list es tl =>
    Term.varsList es ++ (match tl with
                         | some t => Term.vars t
                         | none => [])

/-- Variables of a tuple of terms. -/
def Term.varsList : List Term → List String
  | [] => []
  | t :: ts => Term.vars t ++ Term.varsList ts
end

/-- Variables of a clause (head and body). -/
def Clause.vars (c : Clause) : List String :=
  Term.vars c.head ++ Term.varsList c.body

/-- Prepend elements to the spine of a normalized term: merging into a
list term, or wrapping any other term as the tail. -/
def consSpine (es : List Term) : Term → Term
  | .list es2 tl2 => .list (es ++ es2) tl2
  | u => .list es (some u)

mutual
/-- List-spine normalization: a `List` whose tail is itself a `List`
is flattened by appending the tail's elements.  Two terms denote the
same Prolog value iff their normal forms are structurally equal. -/
def Term.norm : Term → Term
  | .atom v => .atom v
  | .var x => .var x
  | .comp f args => .comp f (Term.normList args)
  | .list es none => .list (Term.normList es) none
  | .list es (some tl) => consSpine (Term.normList es) (Term.norm tl)

/-- Normalization of each element of a tuple of terms. -/
def Term.normList : List Term → List Term
  | [] => []
  | t :: ts => Term.norm t :: Term.normList ts
end

/-- Structural equality up to list-spine normalization (and Python
numeric equality at the atoms). -/
def Term.eqv (a b : Term) : Bool := Term.peq a.norm b.norm

/-- `Substitution.apply` terminates on `t` with result `r` (for some
fuel, hence — by monotonicity — for all larger fuels). -/
def ApplyR (σ : Subst) (t r : Term) : Prop := ∃ n, applyN σ n t = some r

/-- `unify t1 t2 σ` terminates with result `res` (`none` = failure,
`some σ2` = success). -/
def UnifyR (σ : Subst) (a b : Term) (res : Option Subst) : Prop :=
  ∃ n, unifyN n σ a b = some res

/-- Lift of `ApplyR` to the optional tail of a list term. -/
def ApplyROpt (σ : Subst) : Option Term → Option Term → Prop
  | none, none => True
  | some t, some r => ApplyR σ t r
  | _, _ => False

/-- Well-formedness invariant maintained by the unifier, starting from
the empty substitution: keys are distinct, and the binding stored at
position `i` mentions a bound variable `y` (bound at position `j`) only
when `y` was bound strictly later (`i < j`).  This is the triangular
shape obtained by always binding a currently-unbound variable to a
fully-applied term. -/
def keysS (σ : Subst) : List String := σ.map Prod.fst

/-- Well-formedness invariant maintained by the unifier, starting from
the empty substitution: keys are distinct, and every binding's target
only mentions variables that were unbound at the moment the binding was
appended (i.e. not among the keys stored before it, nor the new key
itself).  This is the triangular shape obtained by always binding a
currently-unbound variable to a fully-applied term. -/
def Good (σ : Subst) : Prop :=
  (keysS σ).Nodup ∧
  ∀ ρ x t0 τ, σ = ρ ++ (x, t0) :: τ →
    ∀ y ∈ Term.vars t0, y ∉ keysS ρ ∧ y ≠ x

/-- The tail of a list term as a term (the empty list when absent),
normalized; `Term.norm` of a list is `consSpine` of this. -/
def normTailOpt : Option Term → Term
  | some u => Term.norm u
  | none => Term.list [] none

/-- Shorthand for a symbolic atom. -/
def atomS (s : String) : Term := .atom (.str s)

/-- Shorthand for an integer atom. -/
def atomI (n : Int) : Term := .atom (.int n)

/-- The database of scenario S3: the four `parent` facts and the
`grandparent` rule, in insertion order. -/
def dbS3 : List Clause :=
  [⟨.comp "parent" [atomS "tom", atomS "bob"], []⟩,
   ⟨.comp "parent" [atomS "bob", atomS "ann"], []⟩,
   ⟨.comp "grandparent" [.var "X", .var "Z"],
     [.comp "parent" [.var "X", .var "Y"], .comp "parent" [.var "Y", .var "Z"]]⟩,
   ⟨.comp "parent" [atomS "tom", atomS "mary"], []⟩,
   ⟨.comp "parent" [atomS "bob", atomS "jane"], []⟩]

/-- A database holding the same fact twice: `Database.add_clause`
keeps duplicates, and `get_clauses` returns them both, in insertion
order. -/
def dbDup : List Clause :=
  [⟨.comp "parent" [atomS "tom", atomS "bob"], []⟩,
   ⟨.comp "parent" [atomS "tom", atomS "bob"], []⟩]

/-- Numeric value of a digit character. -/
def digitVal (c : Char) : Nat := c.toNat - 48

/-- Value of a decimal digit string (most significant digit first). -/
def digitsToNat (l : List Char) : Nat :=
  l.foldl (fun acc c => acc * 10 + digitVal c) 0

/-- Arithmetic evaluation as a pure function of an already-applied term
(the declarative content of `_eval_arithmetic`): numeric atoms evaluate
to themselves; compounds `+`, `-`, `*`, `/` of arity 2 evaluate both
children and apply the operation, with division by zero failing; every
other shape fails. -/
def evalPure : Term → Option PyNum
  | .atom (.int n) => some (.int n)
  | .atom (.float q) => some (.float q)
  | .comp f args =>
    match args with
    | [a, b] =>
      if f = "+" then
        match evalPure a, evalPure b with
        | some va, some vb => some (va.add vb)
        | _, _ => none
      else if f = "-" then
        match evalPure a, evalPure b with
        | some va, some vb => some (va.sub vb)
        | _, _ => none
      else if f = "*" then
        match evalPure a, evalPure b with
        | some va, some vb => some (va.mul vb)
        | _, _ => none
      else if f = "/" then
        match evalPure a, evalPure b with
        | some va, some vb =>
          if vb.isZero then none else some (va.divF vb)
        | _, _ => none
      else none
    | _ => none
  | _ => none

/-! ### Tokenizer, parser and printer (`parser.py`, `terms.py`)

The tokenizer and parser work on `List Char` (the character data of a
Python `str`); character classes (`isspace`, `isdigit`, `isalpha`,
`isalnum`) are modelled by their ASCII restrictions, which is exact on
every string the printer can produce. -/

/-- A token of `parser.py`.  The trailing `EOF` token of the source is
modelled by the end of the token list. -/
inductive Token where
  | lparen
  | rparen
  | lbracket
  | rbracket
  | pipe
  | atomT (s : List Char)
  | varT (s : List Char)
  | numT (v : PyNum)
deriving Repr, DecidableEq

/-- `int(num_str)` / `float(num_str)` on the digit-and-dot string read
by `read_number` (the float value is the exact decimal rational, e.g.
`float("1.") = 1.0`, `int("007") = 7`). -/
def numTokOf (acc : List Char) : Token :=
  if acc.contains '.' then
    let intPart := acc.takeWhile (fun c => decide (c ≠ '.'))
    let fracPart := (acc.dropWhile (fun c => decide (c ≠ '.'))).drop 1
    .numT (.float (mkRat (digitsToNat (intPart ++ fracPart))
      (10 ^ fracPart.length)))
  else
    .numT (.int (digitsToNat acc))

/-- The VARIABLE/ATOM decision of `read_identifier`: a variable iff the
first character is uppercase or an underscore. -/
def identTokOf (acc : List Char) : Token :=
  match acc with
  | c :: _ => if c.isUpper || c = '_' then .varT acc else .atomT acc
  | [] => .atomT []

mutual
/-- The `tokenize` loop of `parser.py`, fused with `read_number` and
`read_identifier` into a single pass; `none` models a raised
`SyntaxError` ("Unexpected character"). -/
def tokMain : List Char → Option (List Token)
  | [] => some []
  | c :: cs =>
    if c.isWhitespace then tokMain cs
    else if c = '%' then tokComment cs
    else if c = '(' then (tokMain cs).map (.lparen :: ·)
    else if c = ')' then (tokMain cs).map (.rparen :: ·)
    else if c = '[' then (tokMain cs).map (.lbracket :: ·)
    else if c = ']' then (tokMain cs).map (.rbracket :: ·)
    else if c = '|' then (tokMain cs).map (.pipe :: ·)
    else if c.isDigit then tokNum [c] false cs
    else if c.isAlpha || c = '_' then tokIdent [c] cs
    else none

/-- `skip_comment`: drop everything up to and including the newline. -/
def tokComment : List Char → Option (List Token)
  | [] => some []
  | c :: cs => if c = '\n' then tokMain cs else tokComment cs

/-- `read_number`, accumulating digits and at most one dot, then
resuming the main loop on the first non-number character. -/
def tokNum (acc : List Char) (hasDot : Bool) : List Char → Option (List Token)
  | [] => some [numTokOf acc]
  | c :: cs =>
    if c.isDigit then tokNum (acc ++ [c]) hasDot cs
    else if c = '.' && !hasDot then tokNum (acc ++ ['.']) true cs
    else if c.isWhitespace then (tokMain cs).map (numTokOf acc :: ·)
    else if c = '%' then (tokComment cs).map (numTokOf acc :: ·)
    else if c = '(' then
      (tokMain cs).map (fun ts => numTokOf acc :: .lparen :: ts)
    else if c = ')' then
      (tokMain cs).map (fun ts => numTokOf acc :: .rparen :: ts)
    else if c = '[' then
      (tokMain cs).map (fun ts => numTokOf acc :: .lbracket :: ts)
    else if c = ']' then
      (tokMain cs).map (fun ts => numTokOf acc :: .rbracket :: ts)
    else if c = '|' then
      (tokMain cs).map (fun ts => numTokOf acc :: .pipe :: ts)
    else if c.isAlpha || c = '_' then (tokIdent [c] cs).map (numTokOf acc :: ·)
    else none

/-- `read_identifier`, accumulating alphanumeric/underscore characters,
then resuming the main loop. -/
def tokIdent (acc : List Char) : List Char → Option (List Token)
  | [] => some [identTokOf acc]
  | c :: cs =>
    if c.isAlphanum || c = '_' then tokIdent (acc ++ [c]) cs
    else if c.isWhitespace then (tokMain cs).map (identTokOf acc :: ·)
    else if c = '%' then (tokComment cs).map (identTokOf acc :: ·)
    else if c = '(' then
      (tokMain cs).map (fun ts => identTokOf acc :: .lparen :: ts)
    else if c = ')' then
      (tokMain cs).map (fun ts => identTokOf acc :: .rparen :: ts)
    else if c = '[' then
      (tokMain cs).map (fun ts => identTokOf acc :: .lbracket :: ts)
    else if c = ']' then
      (tokMain cs).map (fun ts => identTokOf acc :: .rbracket :: ts)
    else if c = '|' then
      (tokMain cs).map (fun ts => identTokOf acc :: .pipe :: ts)
    else none
end

mutual
/-- `Parser.parse_term` on the token list.  Outer `none` = fuel ran
out; `some none` = a raised `SyntaxError`; `some (some (t, rest))` =
parsed `t`, leaving the unconsumed tokens `rest`. -/
def parseTermN : Nat → List Token → Option (Option (Term × List Token))
  | 0, _ => none
  | fuel + 1, toks =>
    match toks with
    | .atomT s :: rest => some (some (.atom (.str (String.mk s)), rest))
    | .varT s :: rest => some (some (.var (String.mk s), rest))
    | .numT v :: rest => some (some (.atom v.toVal, rest))
    | .lparen :: rest =>
      match rest with
      | .rparen :: _ => some none
      | .lparen :: _ =>
        match parseTermN fuel rest with
        | none => none
        | some none => some none
        | some (some (t1, rest2)) =>
          match parseArgsN fuel rest2 with
          | none => none
          | some none => some none
          | some (some (args, rest3)) =>
            some (some (.comp "" (t1 :: args), rest3))
      | .atomT f :: rest2 =>
        match parseArgsN fuel rest2 with
        | none => none
        | some none => some none
        | some (some (args, rest3)) =>
          some (some (.comp (String.mk f) args, rest3))
      | _ => some none
    | .lbracket :: rest =>
      match rest with
      | .rbracket :: rest2 => some (some (.list [] none, rest2))
      | _ =>
        match parseElemsN fuel rest with
        | none => none
        | some none => some none
        | some (some (es, tl, rest2)) => some (some (.list es tl, rest2))
    | _ => some none

/-- The argument loop of compound parsing: terms until the closing
`RPAREN` (consumed); `EOF` inside is an error. -/
def parseArgsN : Nat → List Token → Option (Option (List Term × List Token))
  | 0, _ => none
  | fuel + 1, toks =>
    match toks with
    | .rparen :: rest => some (some ([], rest))
    | [] => some none
    | _ =>
      match parseTermN fuel toks with
      | none => none
      | some none => some none
      | some (some (t, rest)) =>
        match parseArgsN fuel rest with
        | none => none
        | some none => some none
        | some (some (ts, rest2)) => some (some (t :: ts, rest2))

/-- The element loop of list parsing: elements until `RBRACKET`, or a
`PIPE` followed by the tail term and the closing `RBRACKET`. -/
def parseElemsN :
    Nat → List Token → Option (Option (List Term × Option Term × List Token))
  | 0, _ => none
  | fuel + 1, toks =>
    match toks with
    | .rbracket :: rest => some (some ([], none, rest))
    | .pipe :: rest =>
      match parseTermN fuel rest with
      | none => none
      | some none => some none
      | some (some (t, rest2)) =>
        match rest2 with
        | .rbracket :: rest3 => some (some ([], some t, rest3))
        | _ => some none
    | _ =>
      match parseTermN fuel toks with
      | none => none
      | some none => some none
      | some (some (t, rest)) =>
        match parseElemsN fuel rest with
        | none => none
        | some none => some none
        | some (some (es, tl, rest2)) => some (some (t :: es, tl, rest2))
end

/-- `parse_text`: tokenize, parse one term, require the tokens to be
exhausted.  Outer `none` = fuel ran out; `some none` = `SyntaxError`. -/
def parseTextN (fuel : Nat) (s : List Char) : Option (Option Term) :=
  match tokMain s with
  | none => some none
  | some toks =>
    match parseTermN fuel toks with
    | none => none
    | some none => some none
    | some (some (t, rest)) =>
      if rest = [] then some (some t) else some none

/-- `parse_text s` terminates and returns the term `t`. -/
def ParseTextR (s : List Char) (t : Term) : Prop :=
  ∃ n, parseTextN n s = some (some t)

/-- Multiplicity of `p` in `n` (first argument is fuel, called with
`n` itself, which always suffices). -/
def multOf (p : Nat) : Nat → Nat → Nat
  | 0, _ => 0
  | fuel + 1, n => if n % p == 0 && n != 0 && p > 1 then
      multOf p fuel (n / p) + 1
    else 0

/-- Split the trailing zeros off a positive number: `n = m · 10^z`. -/
def stripZeros : Nat → Nat → Nat × Nat
  | 0, n => (n, 0)
  | fuel + 1, n =>
    if n % 10 == 0 && n != 0 then
      let mz := stripZeros fuel (n / 10)
      (mz.1, mz.2 + 1)
    else (n, 0)

/-- CPython `str()` of a positive float whose value is the exact
decimal rational `q` (every float the parser can build is one): the
shortest digit string, in fixed notation when the decimal exponent `E`
satisfies `-4 ≤ E < 16` and in scientific notation (`d.dddde±XX`, at
least two exponent digits) otherwise. -/
def strFloatPos (q : Rat) : List Char :=
  let den := q.den
  let a := multOf 2 den den
  let b := multOf 5 den den
  let k := max a b
  let bigN := q.num.toNat * 2 ^ (k - a) * 5 ^ (k - b)
  let mz := stripZeros bigN bigN
  let ds := natDec mz.1
  let L := ds.length
  let E : Int := (L : Int) - 1 + (mz.2 : Int) - (k : Int)
  if -4 ≤ E ∧ E < 16 then
    if (k : Int) ≤ (mz.2 : Int) then
      ds ++ List.replicate (mz.2 - k) '0' ++ ['.', '0']
    else
      let f := k - mz.2
      if L ≤ f then
        '0' :: '.' :: List.replicate (f - L) '0' ++ ds
      else
        ds.take (L - f) ++ '.' :: ds.drop (L - f)
  else
    let mant := match ds with
      | [d] => [d]
      | d :: rest => d :: '.' :: rest
      | [] => []
    let esign := if E < 0 then '-' else '+'
    let eabs := E.natAbs
    let edigits := if eabs < 10 then '0' :: natDec eabs else natDec eabs
    mant ++ 'e' :: esign :: edigits

/-- CPython `str()` of a float (exact-rational model). -/
def strFloat (q : Rat) : List Char :=
  if q = 0 then ['0', '.', '0']
  else if q < 0 then '-' :: strFloatPos (-q)
  else strFloatPos q

/-- `Atom.__str__`: `str(self.value)`. -/
def printVal : PyVal → List Char
  | .str s => s.data
  | .int n => if n < 0 then '-' :: natDec (-n).toNat else natDec n.toNat
  | .float q => strFloat q

mutual
/-- `__str__` of the four term dataclasses of `terms.py`. -/
def printTerm : Term → List Char
  | .atom v => printVal v
  | .var x => x.data
  | .comp f [] => '(' :: f.data ++ [')']
  | .comp f (a :: as) =>
    '(' :: f.data ++ ' ' :: printTermList (a :: as) ++ [')']
  | .list [] none => ['[', ']']
  | .list es (some tl) =>
    '[' :: printTermList es ++ ' ' :: '|' :: ' ' :: printTerm tl ++ [']']
  | .list (e :: es) none => '[' :: printTermList (e :: es) ++ [']']

/-- `" ".join(str(x) for x in xs)`. -/
def printTermList : List Term → List Char
  | [] => []
  | [t] => printTerm t
  | t :: ts => printTerm t ++ ' ' :: printTermList ts
end

mutual
/-- The token sequence of the printed form of a (well-formed,
float-free) term. -/
def tokensOf : Term → List Token
  | .atom (.str s) => [.atomT s.data]
  | .atom (.int n) => [.numT (.int n)]
  | .atom (.float _) => []
  | .var x => [.varT x.data]
  | .comp f args =>
    .lparen :: (if f = "" then [] else [.atomT f.data]) ++
      tokensList args ++ [.rparen]
  | .list es tl =>
    .lbracket :: tokensList es ++
      (match tl with
       | some t => .pipe :: tokensOf t
       | none => []) ++ [.rbracket]

def tokensList : List Term → List Token
  | [] => []
  | t :: ts => tokensOf t ++ tokensList ts
end

/-- A valid printed atom name: nonempty, lowercase first letter, then
alphanumerics and underscores (what `read_identifier` classifies as an
`ATOM`). -/
def validAtomName : List Char → Bool
  | [] => false
  | c :: cs => c.isLower && cs.all (fun d => d.isAlphanum || d = '_')

/-- A valid printed variable name: nonempty, uppercase or underscore
first, then alphanumerics and underscores. -/
def validVarName : List Char → Bool
  | [] => false
  | c :: cs => (c.isUpper || c = '_') && cs.all (fun d => d.isAlphanum || d = '_')

mutual
/-- The parser's output invariant: the term shapes `parse_term` can
produce (valid identifier names, nonnegative integers, and the
empty-functor compound only with a compound first argument). -/
def wfTerm : Term → Bool
  | .atom (.str s) => validAtomName s.data
  | .atom (.int n) => decide (0 ≤ n)
  | .atom (.float _) => true
  | .var x => validVarName x.data
  | .comp f args =>
    (if f = "" then
      (match args with
       | Term.comp _ _ :: _ => true
       | _ => false)
     else validAtomName f.data) && wfTermList args
  | .list es tl =>
    wfTermList es &&
      (match tl with
       | some t => wfTerm t
       | none => true)

def wfTermList : List Term → Bool
  | [] => true
  | t :: ts => wfTerm t && wfTermList ts
end

mutual
/-- No float atom anywhere in the term. -/
def noFloat : Term → Bool
  | .atom (.float _) => false
  | .atom _ => true
  | .var _ => true
  | .comp _ args => noFloatList args
  | .list es tl =>
    noFloatList es &&
      (match tl with
       | some t => noFloat t
       | none => true)

def noFloatList : List Term → Bool
  | [] => true
  | t :: ts => noFloat t && noFloatList ts
end

/-- The next character (if any) ends an identifier or number run: a
space or one of the five special characters, exactly what the printer
puts after a subterm. -/
def sepHead : List Char → Bool
  | [] => true
  | c :: _ => c = ' ' || c = '(' || c = ')' || c = '[' || c = ']' || c = '|'

/-- Well-formedness of a produced token: identifier tokens hold valid
names, integer tokens are nonnegative. -/
def tokWF : Token → Bool
  | .atomT s => validAtomName s
  | .varT s => validVarName s
  | .numT (.int n) => decide (0 ≤ n)
  | _ => true

/-- The term is a Compound (of either functor kind). -/
def isCompShape : Term → Bool
  | .comp _ _ => true
  | _ => false

/-- Invariant of the `read_identifier` accumulator: nonempty, first
character alphabetic or underscore, rest alphanumeric or underscore. -/
def identAccOk : List Char → Bool
  | [] => false
  | c :: cs => (c.isAlpha || c = '_') && cs.all (fun d => d.isAlphanum || d = '_')

/-! ## Fuel monotonicity and determinism -/

theorem mono_le {α : Type} {f : Nat → Option α}
    (hf : ∀ n r, f n = some r → f (n + 1) = some r) :
    ∀ {n m : Nat} {r : α}, n ≤ m → f n = some r → f m = some r := by
  intro n m r hnm h
  induction m, hnm using Nat.le_induction with
  | base => exact h
  | succ m _ ih => exact hf m r ih

theorem walkChain_mono {σ : Subst} :
    ∀ {n t r}, walkChain σ n t = some r → walkChain σ (n + 1) t = some r := by
  intro n
  induction n with
  | zero => intro t r h; simp [walkChain] at h
  | succ k ih =>
    intro t r h
    cases t with
    | var y =>
      rw [walkChain] at h ⊢
      cases hf : find1 σ y with
      | none => rw [hf] at h; exact h
      | some t2 => rw [hf] at h; exact ih h
    | atom v => exact h
    | comp f as => exact h
    | list es tl => exact h

theorem lookupS_mono {σ : Subst} {n : Nat} {x : String} {r : Option Term}
    (h : lookupS σ n x = some r) : lookupS σ (n + 1) x = some r := by
  rw [lookupS] at h ⊢
  cases hf : find1 σ x with
  | none => rw [hf] at h; exact h
  | some t =>
    rw [hf] at h
    simp only [] at h ⊢
    cases hw : walkChain σ n t with
    | none => rw [hw] at h; simp at h
    | some u => rw [hw] at h; rw [walkChain_mono hw]; exact h

theorem optionMapM_mono {α β : Type} {f g : α → Option β}
    (hfg : ∀ a r, f a = some r → g a = some r) :
    ∀ {as : List α} {rs : List β}, as.mapM f = some rs → as.mapM g = some rs := by
  intro as
  induction as with
  | nil => intro rs h; simpa using h
  | cons a as ih =>
    intro rs h
    rw [List.mapM_cons] at h ⊢
    cases ha : f a with
    | none => rw [ha] at h; simp at h
    | some b =>
      rw [ha] at h
      rw [hfg a b ha]
      cases has : as.mapM f with
      | none => rw [has] at h; simp at h
      | some bs => rw [has] at h; rw [ih has]; exact h

theorem applyN_mono {σ : Subst} :
    ∀ {n t r}, applyN σ n t = some r → applyN σ (n + 1) t = some r := by
  intro n
  induction n with
  | zero => intro t r h; simp [applyN] at h
  | succ k ih =>
    intro t r h
    cases t with
    | atom v => exact h
    | var x =>
      rw [applyN] at h ⊢
      cases hl : lookupS σ k x with
      | none => rw [hl] at h; simp at h
      | some o =>
        rw [hl] at h
        rw [lookupS_mono hl]
        cases o with
        | none => exact h
        | some b => exact ih h
    | comp f args =>
      rw [applyN] at h ⊢
      cases hm : args.mapM (applyN σ k) with
      | none => rw [hm] at h; simp at h
      | some as2 =>
        rw [hm] at h
        rw [optionMapM_mono (fun a r hh => ih hh) hm]
        exact h
    | list es tl =>
      rw [applyN] at h ⊢
      cases hm : es.mapM (applyN σ k) with
      | none => rw [hm] at h; simp at h
      | some es2 =>
        rw [hm] at h
        rw [optionMapM_mono (fun a r hh => ih hh) hm]
        cases tl with
        | none => exact h
        | some t =>
          simp only [] at h ⊢
          cases ht : applyN σ k t with
          | none => rw [ht] at h; simp at h
          | some t2 => rw [ht] at h; rw [ih ht]; exact h

theorem applyN_mono_le {σ : Subst} {n m : Nat} {t r : Term}
    (hnm : n ≤ m) (h : applyN σ n t = some r) : applyN σ m t = some r :=
  mono_le (f := fun n => applyN σ n t) (fun _ _ hh => applyN_mono hh) hnm h

theorem occurs_mono :
    ∀ n, (∀ {σ : Subst} {v t r}, occursN σ n v t = some r →
            occursN σ (n + 1) v t = some r) ∧
         (∀ {σ : Subst} {v ts r}, occursAnyN σ n v ts = some r →
            occursAnyN σ (n + 1) v ts = some r) := by
  intro n
  induction n with
  | zero =>
    constructor
    · intro σ v t r h; simp [occursN] at h
    · intro σ v ts r h; simp [occursAnyN] at h
  | succ k ih =>
    obtain ⟨ihO, ihA⟩ := ih
    constructor
    · intro σ v t r h
      rw [occursN] at h ⊢
      cases ha : applyN σ k t with
      | none => rw [ha] at h; simp at h
      | some t2 =>
        rw [ha] at h
        rw [applyN_mono ha]
        cases t2 with
        | var y => exact h
        | atom w => exact h
        | comp f args => exact ihA h
        | list es tl =>
          simp only [] at h ⊢
          cases he : occursAnyN σ k v es with
          | none => rw [he] at h; simp at h
          | some b =>
            rw [he] at h
            rw [ihA he]
            cases b with
            | true => exact h
            | false =>
              cases tl with
              | none => exact h
              | some tt => exact ihO h
    · intro σ v ts r h
      cases ts with
      | nil => exact h
      | cons t ts =>
        rw [occursAnyN] at h ⊢
        cases ho : occursN σ k v t with
        | none => rw [ho] at h; simp at h
        | some b =>
          rw [ho] at h
          rw [ihO ho]
          cases b with
          | true => exact h
          | false => exact ihA h

theorem occursN_mono {σ : Subst} {n : Nat} {v : String} {t : Term} {r : Bool}
    (h : occursN σ n v t = some r) : occursN σ (n + 1) v t = some r :=
  (occurs_mono n).1 h

theorem unify_mono :
    ∀ n, (∀ {σ : Subst} {t1 t2 r}, unifyN n σ t1 t2 = some r →
            unifyN (n + 1) σ t1 t2 = some r) ∧
         (∀ {σ : Subst} {as bs r}, unifyArgsN n σ as bs = some r →
            unifyArgsN (n + 1) σ as bs = some r) := by
  intro n
  induction n with
  | zero =>
    constructor
    · intro σ t1 t2 r h; simp [unifyN] at h
    · intro σ as bs r h; simp [unifyArgsN] at h
  | succ k ih =>
    obtain ⟨ihU, ihA⟩ := ih
    constructor
    · intro σ t1 t2 r h
      rw [unifyN] at h ⊢
      cases h1 : applyN σ k t1 with
      | none => rw [h1] at h; simp at h
      | some a1 =>
        rw [h1] at h
        rw [applyN_mono h1]
        cases h2 : applyN σ k t2 with
        | none => rw [h2] at h; simp at h
        | some a2 =>
          rw [h2] at h
          rw [applyN_mono h2]
          cases a1 with
          | atom v1 =>
            cases a2 with
            | atom v2 => exact h
            | var y =>
              simp only [] at h ⊢
              cases ho : occursN σ k y (Term.atom v1) with
              | none => rw [ho] at h; simp at h
              | some b => rw [ho] at h; rw [occursN_mono ho]; exact h
            | comp g bs => exact h
            | list es tl => exact h
          | var x =>
            by_cases hv : Term.isVarNamed x a2 = true
            · simp only [hv, if_true] at h ⊢; exact h
            · simp only [Bool.not_eq_true] at hv
              simp only [hv, Bool.false_eq_true, if_false] at h ⊢
              cases ho : occursN σ k x a2 with
              | none => rw [ho] at h; simp at h
              | some b => rw [ho] at h; rw [occursN_mono ho]; exact h
          | comp f as =>
            cases a2 with
            | atom v2 => exact h
            | var y =>
              simp only [] at h ⊢
              cases ho : occursN σ k y (Term.comp f as) with
              | none => rw [ho] at h; simp at h
              | some b => rw [ho] at h; rw [occursN_mono ho]; exact h
            | comp g bs =>
              by_cases hf : f = g
              · simp only [hf, if_true] at h ⊢
                by_cases hl : as.length = bs.length
                · simp only [hl, if_true] at h ⊢; exact ihA h
                · simp only [hl, if_false] at h ⊢; exact h
              · simp only [hf, if_false] at h ⊢; exact h
            | list es tl => exact h
          | list es1 tl1 =>
            cases a2 with
            | atom v2 => exact h
            | var y =>
              simp only [] at h ⊢
              cases ho : occursN σ k y (Term.list es1 tl1) with
              | none => rw [ho] at h; simp at h
              | some b => rw [ho] at h; rw [occursN_mono ho]; exact h
            | comp g bs => exact h
            | list es2 tl2 =>
              by_cases hb : (es1.isEmpty && tl1.isNone && es2.isEmpty && tl2.isNone) = true
              · simp only [hb, if_true] at h ⊢; exact h
              · simp only [hb, Bool.false_eq_true, if_false] at h ⊢
                by_cases hb2 : ((es1.isEmpty && tl1.isNone) || (es2.isEmpty && tl2.isNone)) = true
                · simp only [hb2, if_true] at h ⊢; exact h
                · simp only [hb2, Bool.false_eq_true, if_false] at h ⊢
                  cases hu : unifyArgsN k σ es1 es2 with
                  | none => rw [hu] at h; simp at h
                  | some o =>
                    rw [hu] at h
                    rw [ihA hu]
                    cases o with
                    | none => exact h
                    | some σ2 => exact ihU h
    · intro σ as bs r h
      cases as with
      | nil =>
        have e : unifyArgsN (k + 1) σ [] bs = some (some σ) := by
          rw [unifyArgsN]
        have e2 : unifyArgsN (k + 1 + 1) σ [] bs = some (some σ) := by
          rw [unifyArgsN]
        rw [e] at h
        rw [e2]
        exact h
      | cons a as =>
        cases bs with
        | nil =>
          have e : unifyArgsN (k + 1) σ (a :: as) [] = some (some σ) := by
            rw [unifyArgsN]
            exact fun hh => List.noConfusion hh
          have e2 : unifyArgsN (k + 1 + 1) σ (a :: as) [] = some (some σ) := by
            rw [unifyArgsN]
            exact fun hh => List.noConfusion hh
          rw [e] at h
          rw [e2]
          exact h
        | cons b bs =>
          rw [unifyArgsN] at h ⊢
          cases hu : unifyN k σ a b with
          | none => rw [hu] at h; simp at h
          | some o =>
            rw [hu] at h
            rw [ihU hu]
            cases o with
            | none => exact h
            | some σ2 => exact ihA h

theorem unifyN_mono {σ : Subst} {n : Nat} {t1 t2 : Term} {r : Option Subst}
    (h : unifyN n σ t1 t2 = some r) : unifyN (n + 1) σ t1 t2 = some r :=
  (unify_mono n).1 h

theorem unifyN_mono_le {σ : Subst} {n m : Nat} {t1 t2 : Term} {r : Option Subst}
    (hnm : n ≤ m) (h : unifyN n σ t1 t2 = some r) : unifyN m σ t1 t2 = some r :=
  mono_le (f := fun n => unifyN n σ t1 t2) (fun _ _ hh => unifyN_mono hh) hnm h

theorem applyN_det {σ : Subst} {n m : Nat} {t r1 r2 : Term}
    (h1 : applyN σ n t = some r1) (h2 : applyN σ m t = some r2) : r1 = r2 := by
  have e1 := applyN_mono_le (Nat.le_max_left n m) h1
  have e2 := applyN_mono_le (Nat.le_max_right n m) h2
  rw [e1] at e2
  exact Option.some.inj e2

theorem unifyN_det {σ : Subst} {n m : Nat} {t1 t2 : Term} {r1 r2 : Option Subst}
    (h1 : unifyN n σ t1 t2 = some r1) (h2 : unifyN m σ t1 t2 = some r2) : r1 = r2 := by
  have e1 := unifyN_mono_le (Nat.le_max_left n m) h1
  have e2 := unifyN_mono_le (Nat.le_max_right n m) h2
  rw [e1] at e2
  exact Option.some.inj e2

theorem ApplyR_det {σ : Subst} {t r1 r2 : Term}
    (h1 : ApplyR σ t r1) (h2 : ApplyR σ t r2) : r1 = r2 := by
  obtain ⟨n, hn⟩ := h1
  obtain ⟨m, hm⟩ := h2
  exact applyN_det hn hm

theorem UnifyR_det {σ : Subst} {a b : Term} {r1 r2 : Option Subst}
    (h1 : UnifyR σ a b r1) (h2 : UnifyR σ a b r2) : r1 = r2 := by
  obtain ⟨n, hn⟩ := h1
  obtain ⟨m, hm⟩ := h2
  exact unifyN_det hn hm

theorem find1_cons (p : String × Term) (σ : Subst) (x : String) :
    find1 (p :: σ) x = if p.1 = x then some p.2 else find1 σ x := by
  by_cases hp : p.1 = x
  · simp [find1, List.find?, hp]
  · simp [find1, List.find?, hp]

theorem find1_overwrite (σ : Subst) (x : String) (t : Term)
    (hc : σ.any (fun p => decide (p.1 = x)) = true) :
    find1 (σ.map (fun p => if p.1 = x then (x, t) else p)) x = some t := by
  induction σ with
  | nil => simp at hc
  | cons p σ ih =>
    rw [List.map_cons]
    by_cases hp : p.1 = x
    · rw [if_pos hp, find1_cons]
      simp
    · rw [if_neg hp, find1_cons, if_neg hp]
      apply ih
      simpa [List.any_cons, hp] using hc

theorem find1_overwrite_ne (σ : Subst) (x y : String) (t : Term) (hxy : y ≠ x) :
    find1 (σ.map (fun p => if p.1 = x then (x, t) else p)) y = find1 σ y := by
  induction σ with
  | nil => rfl
  | cons p σ ih =>
    rw [List.map_cons]
    by_cases hp : p.1 = x
    · rw [if_pos hp, find1_cons, find1_cons, hp]
      have hx : ¬ x = y := fun hh => hxy hh.symm
      rw [if_neg hx, if_neg hx]
      exact ih
    · rw [if_neg hp, find1_cons, find1_cons]
      by_cases hpy : p.1 = y
      · rw [if_pos hpy, if_pos hpy]
      · rw [if_neg hpy, if_neg hpy]
        exact ih

theorem find1_append_one (σ : Subst) (x : String) (t : Term)
    (hc : σ.any (fun p => decide (p.1 = x)) = false) :
    find1 (σ ++ [(x, t)]) x = some t := by
  induction σ with
  | nil => simp [find1_cons]
  | cons p σ ih =>
    rw [List.cons_append, find1_cons]
    have hp : ¬ p.1 = x := by
      intro hh
      simp [List.any_cons, hh] at hc
    rw [if_neg hp]
    apply ih
    simpa [List.any_cons, hp] using hc

theorem find1_append_one_ne (σ : Subst) (x y : String) (t : Term) (hxy : y ≠ x) :
    find1 (σ ++ [(x, t)]) y = find1 σ y := by
  induction σ with
  | nil =>
    have hx : ¬ x = y := fun hh => hxy hh.symm
    simp [find1_cons, hx, find1]
  | cons p σ ih =>
    rw [List.cons_append, find1_cons, find1_cons]
    by_cases hpy : p.1 = y
    · rw [if_pos hpy, if_pos hpy]
    · rw [if_neg hpy, if_neg hpy]
      exact ih

/-! ## Decimal suffixes and renaming -/

theorem natDecAux_no_underscore :
    ∀ fuel n, ∀ ch ∈ natDecAux fuel n, ch ≠ '_' := by
  intro fuel
  induction fuel with
  | zero => intro n ch hch; simp [natDecAux] at hch
  | succ k ih =>
    intro n ch hch
    rw [natDecAux] at hch
    by_cases hn : n < 10
    · rw [if_pos hn] at hch
      simp only [List.mem_singleton] at hch
      subst hch
      have hd : ∀ m, m < 10 → Char.ofNat (48 + m) ≠ '_' := by decide
      exact hd n hn
    · rw [if_neg hn] at hch
      rcases List.mem_append.mp hch with h1 | h2
      · exact ih (n / 10) ch h1
      · simp only [List.mem_singleton] at h2
        subst h2
        have hd : ∀ m, m < 10 → Char.ofNat (48 + m) ≠ '_' := by decide
        exact hd (n % 10) (Nat.mod_lt n (by omega))

theorem natDecAux_val :
    ∀ fuel n, n < fuel → digitsToNat (natDecAux fuel n) = n := by
  intro fuel
  induction fuel with
  | zero => intro n hn; omega
  | succ k ih =>
    intro n hn
    rw [natDecAux]
    by_cases h10 : n < 10
    · rw [if_pos h10]
      have hd : ∀ m, m < 10 → digitsToNat [Char.ofNat (48 + m)] = m := by decide
      exact hd n h10
    · rw [if_neg h10]
      have hdiv : n / 10 < k := by omega
      have hrec := ih (n / 10) hdiv
      have happ : digitsToNat (natDecAux k (n / 10) ++ [Char.ofNat (48 + n % 10)]) =
          digitsToNat (natDecAux k (n / 10)) * 10 + digitVal (Char.ofNat (48 + n % 10)) := by
        rw [digitsToNat, digitsToNat, List.foldl_append]
        rfl
      rw [happ, hrec]
      have hdig : ∀ m, m < 10 → digitVal (Char.ofNat (48 + m)) = m := by decide
      rw [hdig (n % 10) (Nat.mod_lt n (by omega))]
      omega

theorem natDec_inj {m n : Nat} (h : natDec m = natDec n) : m = n := by
  have hm := natDecAux_val (m + 1) m (Nat.lt_succ_self m)
  have hn := natDecAux_val (n + 1) n (Nat.lt_succ_self n)
  rw [natDec, natDec] at h
  rw [h] at hm
  rw [hn] at hm
  exact hm.symm

theorem natDec_no_underscore (n : Nat) : ∀ ch ∈ natDec n, ch ≠ '_' :=
  natDecAux_no_underscore (n + 1) n

/-- Splitting a string at its last underscore is unambiguous when the
part after the underscore is underscore-free. -/
theorem underscore_split :
    ∀ (a b d1 d2 : List Char),
      (∀ ch ∈ d1, ch ≠ '_') → (∀ ch ∈ d2, ch ≠ '_') →
      a ++ '_' :: d1 = b ++ '_' :: d2 → a = b ∧ d1 = d2 := by
  intro a
  induction a with
  | nil =>
    intro b d1 d2 h1 h2 heq
    cases b with
    | nil =>
      simp only [List.nil_append] at heq
      exact ⟨rfl, List.cons.inj heq |>.2⟩
    | cons c b2 =>
      simp only [List.nil_append, List.cons_append] at heq
      obtain ⟨hc, htail⟩ := List.cons.inj heq
      exfalso
      have : '_' ∈ d1 := by
        rw [htail]
        exact List.mem_append.mpr (Or.inr (List.mem_cons_self _ _))
      exact h1 '_' this rfl
  | cons c a2 ih =>
    intro b d1 d2 h1 h2 heq
    cases b with
    | nil =>
      simp only [List.nil_append, List.cons_append] at heq
      obtain ⟨hc, htail⟩ := List.cons.inj heq
      exfalso
      have : '_' ∈ d2 := by
        rw [← htail]
        exact List.mem_append.mpr (Or.inr (List.mem_cons_self _ _))
      exact h2 '_' this rfl
    | cons c2 b2 =>
      simp only [List.cons_append] at heq
      obtain ⟨hc, htail⟩ := List.cons.inj heq
      obtain ⟨hab, hd⟩ := ih b2 d1 d2 h1 h2 htail
      exact ⟨by rw [hc, hab], hd⟩

mutual
/-- The variables of a renamed term are the original variables with the
suffix appended. -/
theorem vars_renameTerm (suf : String) :
    (t : Term) → Term.vars (renameTerm suf t) = (Term.vars t).map (· ++ suf)
  | .atom v => rfl
  | .var x => rfl
  | .comp f args => by
    show Term.varsList (renameTermList suf args) =
      List.map (fun x => x ++ suf) (Term.varsList args)
    exact vars_renameTermList suf args
  | .list es tl => by
    cases tl with
    | none =>
      show Term.varsList (renameTermList suf es) ++ [] =
        List.map (fun x => x ++ suf) (Term.varsList es ++ [])
      rw [vars_renameTermList suf es, List.append_nil, List.append_nil]
    | some t =>
      show Term.varsList (renameTermList suf es) ++ Term.vars (renameTerm suf t) =
        List.map (fun x => x ++ suf) (Term.varsList es ++ Term.vars t)
      rw [vars_renameTermList suf es, vars_renameTerm suf t, List.map_append]

theorem vars_renameTermList (suf : String) :
    (ts : List Term) →
      Term.varsList (renameTermList suf ts) = (Term.varsList ts).map (· ++ suf)
  | [] => rfl
  | t :: ts => by
    show Term.vars (renameTerm suf t) ++ Term.varsList (renameTermList suf ts) =
      List.map (fun x => x ++ suf) (Term.vars t ++ Term.varsList ts)
    rw [vars_renameTerm suf t, vars_renameTermList suf ts, List.map_append]
end

/-- The variables of a renamed clause are the original variables with
the suffix appended. -/
theorem vars_renameClause (c : Clause) (ctr : Nat) :
    Clause.vars (renameClause c ctr).1 =
      (Clause.vars c).map (· ++ ("_" ++ String.mk (natDec (ctr + 1)))) := by
  rw [renameClause, Clause.vars, Clause.vars, List.map_append,
      vars_renameTerm]
  have hb : ∀ (bs : List Term),
      Term.varsList (bs.map (renameTerm ("_" ++ String.mk (natDec (ctr + 1))))) =
        (Term.varsList bs).map (· ++ ("_" ++ String.mk (natDec (ctr + 1)))) := by
    intro bs
    induction bs with
    | nil => rfl
    | cons b bs ih =>
      rw [List.map_cons, Term.varsList, Term.varsList, List.map_append,
          vars_renameTerm, ih]
  rw [hb]

/-- Data of a name produced by renaming with counter value `k`. -/
theorem rename_name_data (w : String) (k : Nat) :
    (w ++ ("_" ++ String.mk (natDec k))).data = w.data ++ '_' :: natDec k := by
  rw [String.data_append, String.data_append]
  rfl

/-- Two renamed names are equal iff the counter values and the original
names are equal. -/
theorem rename_name_inj {w1 w2 : String} {k1 k2 : Nat}
    (h : w1 ++ ("_" ++ String.mk (natDec k1)) = w2 ++ ("_" ++ String.mk (natDec k2))) :
    w1 = w2 ∧ k1 = k2 := by
  have hdata := congrArg String.data h
  rw [rename_name_data, rename_name_data] at hdata
  obtain ⟨hw, hd⟩ := underscore_split w1.data w2.data (natDec k1) (natDec k2)
    (natDec_no_underscore k1) (natDec_no_underscore k2) hdata
  refine ⟨?_, natDec_inj hd⟩
  cases w1 with
  | mk d1 =>
    cases w2 with
    | mk d2 =>
      have hdd : d1 = d2 := by simpa using hw
      rw [hdd]

/-! ## Soundness of unification: substitution well-formedness -/

theorem find1_eq_none_iff {σ : Subst} {x : String} :
    find1 σ x = none ↔ x ∉ keysS σ := by
  induction σ with
  | nil => simp [find1, keysS]
  | cons p σ ih =>
    rw [find1_cons, keysS, List.map_cons]
    by_cases hp : p.1 = x
    · simp [hp]
    · simp only [if_neg hp, List.mem_cons]
      rw [ih]
      constructor
      · intro h hmem
        rcases hmem with h1 | h2
        · exact hp h1.symm
        · exact h h2
      · intro h hmem
        exact h (Or.inr hmem)

theorem find1_append_left {σ Δ : Subst} {x : String} {t : Term}
    (h : find1 σ x = some t) : find1 (σ ++ Δ) x = some t := by
  induction σ with
  | nil => simp [find1] at h
  | cons p σ ih =>
    rw [List.cons_append, find1_cons]
    rw [find1_cons] at h
    by_cases hp : p.1 = x
    · rw [if_pos hp] at h ⊢; exact h
    · rw [if_neg hp] at h ⊢; exact ih h

theorem bindS_fresh {σ : Subst} {x : String} (t : Term)
    (h : x ∉ keysS σ) : bindS σ x t = σ ++ [(x, t)] := by
  rw [bindS, if_neg]
  intro hany
  rw [List.any_eq_true] at hany
  obtain ⟨p, hp, hpx⟩ := hany
  rw [decide_eq_true_eq] at hpx
  exact h (hpx ▸ List.mem_map.mpr ⟨p, hp, rfl⟩)

theorem Good_nil : Good [] := by
  constructor
  · simp [keysS]
  · intro ρ x t0 τ h
    exact absurd h (by simp)

theorem keysS_cons (p : String × Term) (σ : Subst) :
    keysS (p :: σ) = p.1 :: keysS σ := rfl

theorem keysS_append (σ Δ : Subst) :
    keysS (σ ++ Δ) = keysS σ ++ keysS Δ := by
  rw [keysS, keysS, keysS, List.map_append]

theorem Good_snoc {σ : Subst} {x : String} {t : Term} (hG : Good σ)
    (hx : x ∉ keysS σ) (ht : ∀ y ∈ Term.vars t, y ∉ keysS σ ∧ y ≠ x) :
    Good (σ ++ [(x, t)]) := by
  obtain ⟨hnd, hdec⟩ := hG
  constructor
  · rw [keysS_append, List.nodup_append]
    refine ⟨hnd, List.nodup_singleton x, ?_⟩
    intro a ha hb
    have hax : a = x := by simpa [keysS] using hb
    subst hax
    exact hx ha
  · intro ρ z t0 τ hdecomp y hy
    rcases τ.eq_nil_or_concat with hτ | ⟨τ0, e, hτ⟩
    · subst hτ
      obtain ⟨hσρ, hent⟩ := List.append_inj' hdecomp rfl
      have hent2 : (x, t) = (z, t0) := by simpa using hent
      have hxz : x = z := congrArg Prod.fst hent2
      have htt : t = t0 := congrArg Prod.snd hent2
      subst hσρ
      rw [← htt] at hy
      rw [← hxz]
      exact ht y hy
    · subst hτ
      have hre : σ ++ [(x, t)] = (ρ ++ (z, t0) :: τ0) ++ [e] := by
        rw [hdecomp]
        simp
      exact hdec ρ z t0 τ0 (List.append_inj' hre rfl).1 y hy

theorem find1_append_cons_fresh :
    ∀ (ρ : Subst) (x : String) (t0 : Term) (τ : Subst), x ∉ keysS ρ →
      find1 (ρ ++ (x, t0) :: τ) x = some t0 := by
  intro ρ
  induction ρ with
  | nil => intro x t0 τ _; simp [find1_cons]
  | cons p ρ ih =>
    intro x t0 τ hx
    have hp : ¬ p.1 = x := fun hp => hx (keysS_cons p ρ ▸ hp ▸ List.mem_cons_self _ _)
    rw [List.cons_append, find1_cons, if_neg hp]
    exact ih x t0 τ (fun hmem => hx (keysS_cons p ρ ▸ List.mem_cons_of_mem _ hmem))

theorem Good_find1_of_decomp {σ ρ τ : Subst} {x : String} {t0 : Term}
    (hG : Good σ) (hdecomp : σ = ρ ++ (x, t0) :: τ) :
    find1 σ x = some t0 := by
  obtain ⟨hnd, _⟩ := hG
  subst hdecomp
  have hxρ : x ∉ keysS ρ := by
    rw [keysS_append, List.nodup_append] at hnd
    intro hmem
    exact hnd.2.2 hmem (by simp [keysS])
  exact find1_append_cons_fresh ρ x t0 τ hxρ

/-! ## Structural equality and normalization lemmas -/

theorem PyVal.eqb_refl (v : PyVal) : PyVal.eqb v v = true := by
  cases v <;> simp [PyVal.eqb]

mutual
theorem peq_refl : (t : Term) → Term.peq t t = true
  | .atom v => PyVal.eqb_refl v
  | .var x => by
    show decide (x = x) = true
    simp
  | .comp f as => by
    show (decide (f = f) && Term.peqList as as) = true
    rw [peqList_refl as]
    simp
  | .list es tl => by
    show (Term.peqList es es && Term.peqOpt tl tl) = true
    rw [peqList_refl es]
    cases tl with
    | none => rfl
    | some t =>
      show (true && Term.peq t t) = true
      rw [peq_refl t]
      rfl

theorem peqList_refl : (ts : List Term) → Term.peqList ts ts = true
  | [] => rfl
  | t :: ts => by
    show (Term.peq t t && Term.peqList ts ts) = true
    rw [peq_refl t, peqList_refl ts]
    rfl
end

theorem normList_eq_map : ∀ ts, Term.normList ts = ts.map Term.norm
  | [] => rfl
  | t :: ts => by
    show Term.norm t :: Term.normList ts = Term.norm t :: ts.map Term.norm
    rw [normList_eq_map ts]

theorem norm_list_eq (es : List Term) (tl : Option Term) :
    Term.norm (.list es tl) = consSpine (Term.normList es) (normTailOpt tl) := by
  cases tl with
  | some t => rfl
  | none =>
    show Term.list (Term.normList es) none =
      consSpine (Term.normList es) (Term.list [] none)
    show Term.list (Term.normList es) none =
      Term.list (Term.normList es ++ []) none
    rw [List.append_nil]

theorem consSpine_append (a b : List Term) (t : Term) :
    consSpine (a ++ b) t = consSpine a (consSpine b t) := by
  cases t <;> simp [consSpine, List.append_assoc]

theorem peqList_append :
    ∀ {A1 A2 B1 B2 : List Term}, Term.peqList A1 A2 = true →
      Term.peqList B1 B2 = true →
      Term.peqList (A1 ++ B1) (A2 ++ B2) = true := by
  intro A1
  induction A1 with
  | nil =>
    intro A2 B1 B2 h1 h2
    cases A2 with
    | nil => exact h2
    | cons a A2 => simp [Term.peqList] at h1
  | cons a A1 ih =>
    intro A2 B1 B2 h1 h2
    cases A2 with
    | nil => simp [Term.peqList] at h1
    | cons b A2 =>
      have h1' : (Term.peq a b && Term.peqList A1 A2) = true := h1
      rw [Bool.and_eq_true] at h1'
      show (Term.peq a b && Term.peqList (A1 ++ B1) (A2 ++ B2)) = true
      rw [h1'.1, ih h1'.2 h2]
      rfl

theorem consSpine_peq {A1 A2 : List Term} {T1 T2 : Term}
    (hA : Term.peqList A1 A2 = true) (hT : Term.peq T1 T2 = true) :
    Term.peq (consSpine A1 T1) (consSpine A2 T2) = true := by
  cases T1 with
  | list es1 tl1 =>
    cases T2 with
    | list es2 tl2 =>
      have hT' : (Term.peqList es1 es2 && Term.peqOpt tl1 tl2) = true := hT
      rw [Bool.and_eq_true] at hT'
      show (Term.peqList (A1 ++ es1) (A2 ++ es2) && Term.peqOpt tl1 tl2) = true
      rw [peqList_append hA hT'.1, hT'.2]
      rfl
    | atom v => simp [Term.peq] at hT
    | var x => simp [Term.peq] at hT
    | comp f as => simp [Term.peq] at hT
  | atom v1 =>
    cases T2 with
    | atom v2 =>
      show (Term.peqList A1 A2 && Term.peqOpt (some (.atom v1)) (some (.atom v2))) = true
      rw [hA]
      show (true && Term.peq (Term.atom v1) (Term.atom v2)) = true
      rw [hT]
      rfl
    | var x => simp [Term.peq] at hT
    | comp f as => simp [Term.peq] at hT
    | list es tl => simp [Term.peq] at hT
  | var x1 =>
    cases T2 with
    | var x2 =>
      show (Term.peqList A1 A2 && Term.peqOpt (some (.var x1)) (some (.var x2))) = true
      rw [hA]
      show (true && Term.peq (Term.var x1) (Term.var x2)) = true
      rw [hT]
      rfl
    | atom v => simp [Term.peq] at hT
    | comp f as => simp [Term.peq] at hT
    | list es tl => simp [Term.peq] at hT
  | comp f1 as1 =>
    cases T2 with
    | comp f2 as2 =>
      show (Term.peqList A1 A2 && Term.peqOpt (some (.comp f1 as1)) (some (.comp f2 as2))) = true
      rw [hA]
      show (true && Term.peq (Term.comp f1 as1) (Term.comp f2 as2)) = true
      rw [hT]
      rfl
    | atom v => simp [Term.peq] at hT
    | var x => simp [Term.peq] at hT
    | list es tl => simp [Term.peq] at hT

/-! ## Characterizations of substitution application -/

theorem ApplyR_atom (σ : Subst) (v : PyVal) : ApplyR σ (.atom v) (.atom v) :=
  ⟨1, rfl⟩

theorem ApplyR_var_unbound {σ : Subst} {x : String} (h : find1 σ x = none) :
    ApplyR σ (.var x) (.var x) := by
  refine ⟨1, ?_⟩
  rw [applyN, lookupS, h]

theorem walkChain_nonvar {σ : Subst} {n : Nat} {t : Term}
    (h : ∀ y, t ≠ .var y) : walkChain σ (n + 1) t = some t := by
  cases t with
  | var y => exact absurd rfl (h y)
  | atom v => rfl
  | comp f as => rfl
  | list es tl => rfl

/-- Introducing a bound variable: if `x` is bound to `t` and applying
`t` gives `r`, then applying `Variable x` gives `r` as well. -/
theorem applyN_var_intro {σ : Subst} {x : String} {t r : Term} {n : Nat}
    (hf : find1 σ x = some t) (h : applyN σ n t = some r) :
    applyN σ (n + 1) (.var x) = some r := by
  cases n with
  | zero => simp [applyN] at h
  | succ m =>
    rw [applyN, lookupS, hf]
    simp only []
    cases t with
    | atom v =>
      rw [walkChain_nonvar (fun y => by simp)]
      exact h
    | comp f as =>
      rw [walkChain_nonvar (fun y => by simp)]
      exact h
    | list es tl =>
      rw [walkChain_nonvar (fun y => by simp)]
      exact h
    | var z =>
      rw [applyN, lookupS] at h
      cases hz : find1 σ z with
      | none =>
        rw [hz] at h
        have hr : some (Term.var z) = some r := h
        rw [walkChain, hz]
        have hgoal : applyN σ (m + 1) (Term.var z) = some r := by
          rw [applyN, lookupS, hz]
          exact hr
        exact hgoal
      | some t2 =>
        rw [hz] at h
        simp only [] at h
        rw [walkChain, hz]
        simp only []
        cases hw : walkChain σ m t2 with
        | none => rw [hw] at h; simp at h
        | some u =>
          rw [hw] at h
          simp only [Option.map_some'] at h
          simp only [Option.map_some']
          exact applyN_mono h

theorem ApplyR_var_intro {σ : Subst} {x : String} {t r : Term}
    (hf : find1 σ x = some t) (h : ApplyR σ t r) : ApplyR σ (.var x) r := by
  obtain ⟨n, hn⟩ := h
  exact ⟨n + 1, applyN_var_intro hf hn⟩

/-- A walked chain composes with application: if the chain from `t`
ends at `u` and applying `u` gives `r`, then applying `t` gives `r`. -/
theorem walkChain_apply {σ : Subst} :
    ∀ {n : Nat} {t u r : Term} {m : Nat},
      walkChain σ n t = some u → applyN σ m u = some r → ApplyR σ t r := by
  intro n
  induction n with
  | zero => intro t u r m hw; simp [walkChain] at hw
  | succ k ih =>
    intro t u r m hw happ
    cases t with
    | var z =>
      rw [walkChain] at hw
      cases hz : find1 σ z with
      | none =>
        rw [hz] at hw
        have hu : u = Term.var z := by simpa using hw.symm
        subst hu
        exact ⟨m, happ⟩
      | some t2 =>
        rw [hz] at hw
        obtain ⟨n2, hn2⟩ := ih hw happ
        exact ⟨n2 + 1, applyN_var_intro hz hn2⟩
    | atom v =>
      rw [walkChain_nonvar (fun y => by simp)] at hw
      have hu : u = Term.atom v := by simpa using hw.symm
      subst hu
      exact ⟨m, happ⟩
    | comp f as =>
      rw [walkChain_nonvar (fun y => by simp)] at hw
      have hu : u = Term.comp f as := by simpa using hw.symm
      subst hu
      exact ⟨m, happ⟩
    | list es tl =>
      rw [walkChain_nonvar (fun y => by simp)] at hw
      have hu : u = Term.list es tl := by simpa using hw.symm
      subst hu
      exact ⟨m, happ⟩

/-- Eliminating a bound variable: if `x` is bound to `t`, applying
`Variable x` factors through applying `t`. -/
theorem ApplyR_var_elim {σ : Subst} {x : String} {t r : Term}
    (hf : find1 σ x = some t) (h : ApplyR σ (.var x) r) : ApplyR σ t r := by
  obtain ⟨n, hn⟩ := h
  cases n with
  | zero => simp [applyN] at hn
  | succ m =>
    rw [applyN, lookupS, hf] at hn
    simp only [] at hn
    cases hw : walkChain σ m t with
    | none => rw [hw] at hn; simp at hn
    | some u =>
      rw [hw] at hn
      simp only [Option.map_some'] at hn
      exact walkChain_apply hw hn

theorem mapM_eq_some_iff {α β : Type} {f : α → Option β} :
    ∀ {as : List α} {rs : List β},
      as.mapM f = some rs ↔ List.Forall₂ (fun a r => f a = some r) as rs := by
  intro as
  induction as with
  | nil =>
    intro rs
    constructor
    · intro h
      have h0 : (some [] : Option (List β)) = some rs := h
      have hrs : rs = [] := (Option.some.inj h0).symm
      subst hrs
      exact List.Forall₂.nil
    · intro h
      cases h
      rfl
  | cons a as ih =>
    intro rs
    rw [List.mapM_cons]
    constructor
    · intro h
      cases ha : f a with
      | none => rw [ha] at h; simp at h
      | some b =>
        rw [ha] at h
        cases has : as.mapM f with
        | none => rw [has] at h; simp at h
        | some bs =>
          rw [has] at h
          have hrs : rs = b :: bs := by simpa using h.symm
          subst hrs
          exact List.Forall₂.cons ha (ih.mp has)
    · intro h
      cases h with
      | cons hab htail =>
        rw [hab, ih.mpr htail]
        rfl

theorem forall2_ApplyR_mapM {σ : Subst} :
    ∀ {as rs : List Term}, List.Forall₂ (ApplyR σ) as rs →
      ∃ n, as.mapM (applyN σ n) = some rs := by
  intro as rs h
  induction h with
  | nil => exact ⟨1, rfl⟩
  | cons hab htail ih =>
    obtain ⟨n1, h1⟩ := hab
    obtain ⟨n2, h2⟩ := ih
    refine ⟨max n1 n2, ?_⟩
    rw [List.mapM_cons, applyN_mono_le (Nat.le_max_left n1 n2) h1,
        optionMapM_mono (fun a r hr => applyN_mono_le (Nat.le_max_right n1 n2) hr) h2]
    rfl

theorem ApplyR_comp_iff {σ : Subst} {f : String} {as : List Term} {r : Term} :
    ApplyR σ (.comp f as) r ↔
      ∃ rs, r = .comp f rs ∧ List.Forall₂ (ApplyR σ) as rs := by
  constructor
  · rintro ⟨n, hn⟩
    cases n with
    | zero => simp [applyN] at hn
    | succ m =>
      rw [applyN] at hn
      cases hm : as.mapM (applyN σ m) with
      | none => rw [hm] at hn; simp at hn
      | some rs =>
        rw [hm] at hn
        refine ⟨rs, by simpa using hn.symm, ?_⟩
        exact (mapM_eq_some_iff.mp hm).imp (fun {a b} hr => ⟨m, hr⟩)
  · rintro ⟨rs, hr, h2⟩
    obtain ⟨n, hn⟩ := forall2_ApplyR_mapM h2
    refine ⟨n + 1, ?_⟩
    rw [applyN, hn, hr]
    rfl

theorem ApplyR_list_iff {σ : Subst} {es : List Term} {tl : Option Term} {r : Term} :
    ApplyR σ (.list es tl) r ↔
      ∃ res rtl, r = .list res rtl ∧ List.Forall₂ (ApplyR σ) es res ∧
        ApplyROpt σ tl rtl := by
  constructor
  · rintro ⟨n, hn⟩
    cases n with
    | zero => simp [applyN] at hn
    | succ m =>
      rw [applyN] at hn
      cases hm : es.mapM (applyN σ m) with
      | none => rw [hm] at hn; simp at hn
      | some res =>
        rw [hm] at hn
        cases tl with
        | none =>
          simp only [] at hn
          refine ⟨res, none, by simpa using hn.symm,
            (mapM_eq_some_iff.mp hm).imp (fun {a b} hr => ⟨m, hr⟩), trivial⟩
        | some t =>
          simp only [] at hn
          cases ht : applyN σ m t with
          | none => rw [ht] at hn; simp at hn
          | some t2 =>
            rw [ht] at hn
            exact ⟨res, some t2, by simpa using hn.symm,
              (mapM_eq_some_iff.mp hm).imp (fun {a b} hr => ⟨m, hr⟩), ⟨m, ht⟩⟩
  · rintro ⟨res, rtl, hr, h2, h3⟩
    obtain ⟨n, hn⟩ := forall2_ApplyR_mapM h2
    cases tl with
    | none =>
      cases rtl with
      | none =>
        refine ⟨n + 1, ?_⟩
        rw [applyN, hn, hr]
      | some u => exact absurd h3 (by simp [ApplyROpt])
    | some t =>
      cases rtl with
      | none => exact absurd h3 (by simp [ApplyROpt])
      | some u =>
        obtain ⟨n2, hn2⟩ := h3
        refine ⟨max n n2 + 1, ?_⟩
        rw [applyN,
            optionMapM_mono (fun a r hr => applyN_mono_le (Nat.le_max_left n n2) hr) hn]
        simp only []
        rw [applyN_mono_le (Nat.le_max_right n n2) hn2, hr]

/-- A term whose variables are all unbound is a fixpoint of `apply`. -/
theorem applyR_fix (σ : Subst) :
    ∀ t : Term, (∀ y ∈ Term.vars t, find1 σ y = none) → ApplyR σ t t := by
  refine @Term.rec
    (fun t => (∀ y ∈ Term.vars t, find1 σ y = none) → ApplyR σ t t)
    (fun ts => (∀ y ∈ Term.varsList ts, find1 σ y = none) →
      List.Forall₂ (ApplyR σ) ts ts)
    (fun tl => (∀ y ∈ (match tl with
        | some u => Term.vars u
        | none => []), find1 σ y = none) → ApplyROpt σ tl tl)
    ?atom ?var ?comp ?list ?nil ?cons ?none ?some
  case atom => intro v _; exact ApplyR_atom σ v
  case var =>
    intro x h
    exact ApplyR_var_unbound (h x (List.mem_singleton.mpr rfl))
  case comp =>
    intro f args ih h
    exact ApplyR_comp_iff.mpr ⟨args, rfl, ih (fun y hy => h y hy)⟩
  case list =>
    intro es tl ih1 ih2 h
    cases tl with
    | none =>
      refine ApplyR_list_iff.mpr ⟨es, none, rfl, ?_, trivial⟩
      exact ih1 (fun y hy => h y
        (show y ∈ Term.varsList es ++ ([] : List String) from
          List.mem_append.mpr (Or.inl hy)))
    | some u =>
      refine ApplyR_list_iff.mpr ⟨es, some u, rfl, ?_, ?_⟩
      · exact ih1 (fun y hy => h y
          (show y ∈ Term.varsList es ++ Term.vars u from
            List.mem_append.mpr (Or.inl hy)))
      · exact ih2 (fun y hy => h y
          (show y ∈ Term.varsList es ++ Term.vars u from
            List.mem_append.mpr (Or.inr hy)))
  case nil => intro _; exact List.Forall₂.nil
  case cons =>
    intro t ts ih1 ih2 h
    refine List.Forall₂.cons
      (ih1 (fun y hy => h y
        (show y ∈ Term.vars t ++ Term.varsList ts from
          List.mem_append.mpr (Or.inl hy))))
      (ih2 (fun y hy => h y
        (show y ∈ Term.vars t ++ Term.varsList ts from
          List.mem_append.mpr (Or.inr hy))))
  case none => intro _; trivial
  case some =>
    intro t ih h
    exact ih (fun y hy => h y hy)

/-- Builder: if every variable of `t` can be applied (with a result
whose variables are unbound), then so can `t` itself. -/
theorem applyR_build (σ : Subst) :
    ∀ t : Term,
      (∀ y ∈ Term.vars t,
        ∃ r, ApplyR σ (.var y) r ∧ ∀ z ∈ Term.vars r, z ∉ keysS σ) →
      ∃ r, ApplyR σ t r ∧ ∀ z ∈ Term.vars r, z ∉ keysS σ := by
  refine @Term.rec
    (fun t =>
      (∀ y ∈ Term.vars t,
        ∃ r, ApplyR σ (.var y) r ∧ ∀ z ∈ Term.vars r, z ∉ keysS σ) →
      ∃ r, ApplyR σ t r ∧ ∀ z ∈ Term.vars r, z ∉ keysS σ)
    (fun ts =>
      (∀ y ∈ Term.varsList ts,
        ∃ r, ApplyR σ (.var y) r ∧ ∀ z ∈ Term.vars r, z ∉ keysS σ) →
      ∃ rs, List.Forall₂ (ApplyR σ) ts rs ∧
        ∀ z ∈ Term.varsList rs, z ∉ keysS σ)
    (fun tl =>
      (∀ y ∈ (match tl with
          | some u => Term.vars u
          | none => []),
        ∃ r, ApplyR σ (.var y) r ∧ ∀ z ∈ Term.vars r, z ∉ keysS σ) →
      ∃ rtl, ApplyROpt σ tl rtl ∧
        ∀ z ∈ (match rtl with
            | some u => Term.vars u
            | none => []), z ∉ keysS σ)
    ?atomB ?varB ?compB ?listB ?nilB ?consB ?noneB ?someB
  case atomB =>
    intro v _
    exact ⟨.atom v, ApplyR_atom σ v, by intro z hz; simp [Term.vars] at hz⟩
  case varB =>
    intro x h
    exact h x (List.mem_singleton.mpr rfl)
  case compB =>
    intro f args ih h
    obtain ⟨rs, h1, h2⟩ := ih (fun y hy => h y hy)
    exact ⟨.comp f rs, ApplyR_comp_iff.mpr ⟨rs, rfl, h1⟩, fun z hz => h2 z hz⟩
  case listB =>
    intro es tl ih1 ih2 h
    cases tl with
    | none =>
      obtain ⟨rs, h1, h2⟩ := ih1 (fun y hy => h y
        (show y ∈ Term.varsList es ++ ([] : List String) from
          List.mem_append.mpr (Or.inl hy)))
      refine ⟨.list rs none, ApplyR_list_iff.mpr ⟨rs, none, rfl, h1, trivial⟩, ?_⟩
      intro z hz
      have hz2 : z ∈ Term.varsList rs ++ ([] : List String) := hz
      rcases List.mem_append.mp hz2 with hz3 | hz3
      · exact h2 z hz3
      · simp at hz3
    | some u =>
      obtain ⟨rs, h1, h2⟩ := ih1 (fun y hy => h y
        (show y ∈ Term.varsList es ++ Term.vars u from
          List.mem_append.mpr (Or.inl hy)))
      obtain ⟨rtl, h3, h4⟩ := ih2 (fun y hy => h y
        (show y ∈ Term.varsList es ++ Term.vars u from
          List.mem_append.mpr (Or.inr hy)))
      cases rtl with
      | none => exact absurd h3 (by simp [ApplyROpt])
      | some ru =>
        refine ⟨.list rs (some ru),
          ApplyR_list_iff.mpr ⟨rs, some ru, rfl, h1, h3⟩, ?_⟩
        intro z hz
        have hz2 : z ∈ Term.varsList rs ++ Term.vars ru := hz
        rcases List.mem_append.mp hz2 with hz3 | hz3
        · exact h2 z hz3
        · exact h4 z hz3
  case nilB =>
    intro _
    exact ⟨[], List.Forall₂.nil, by intro z hz; simp [Term.varsList] at hz⟩
  case consB =>
    intro t ts ih1 ih2 h0
    obtain ⟨r, h1, h2⟩ := ih1 (fun y hy => h0 y
      (show y ∈ Term.vars t ++ Term.varsList ts from
        List.mem_append.mpr (Or.inl hy)))
    obtain ⟨rs, h3, h4⟩ := ih2 (fun y hy => h0 y
      (show y ∈ Term.vars t ++ Term.varsList ts from
        List.mem_append.mpr (Or.inr hy)))
    refine ⟨r :: rs, List.Forall₂.cons h1 h3, ?_⟩
    intro z hz
    have hz2 : z ∈ Term.vars r ++ Term.varsList rs := hz
    rcases List.mem_append.mp hz2 with hz3 | hz3
    · exact h2 z hz3
    · exact h4 z hz3
  case noneB =>
    intro _
    exact ⟨none, trivial, by intro z hz; simp at hz⟩
  case someB =>
    intro u ih h0
    obtain ⟨r, h1, h2⟩ := ih (fun y hy => h0 y hy)
    exact ⟨some r, h1, fun z hz => h2 z hz⟩

/-- Under the unifier invariant, `apply` terminates on every term with
a result whose variables are all unbound. -/
theorem applyR_total_aux (σ : Subst) (hG : Good σ) :
    ∀ τ ρ : Subst, σ = ρ ++ τ →
      ∀ t : Term, (∀ y ∈ Term.vars t, y ∈ keysS σ → y ∈ keysS τ) →
      ∃ r, ApplyR σ t r ∧ ∀ z ∈ Term.vars r, z ∉ keysS σ := by
  intro τ
  induction τ with
  | nil =>
    intro ρ hρ t hcond
    have hub : ∀ y ∈ Term.vars t, find1 σ y = none := by
      intro y hy
      rw [find1_eq_none_iff]
      intro hk
      exact absurd (hcond y hy hk) (by simp [keysS])
    exact ⟨t, applyR_fix σ t hub,
      fun z hz => find1_eq_none_iff.mp (hub z hz)⟩
  | cons hd τ2 ih =>
    intro ρ hρ t hcond
    apply applyR_build σ t
    intro y hy
    by_cases hk : y ∈ keysS σ
    · have hmem : y ∈ keysS (hd :: τ2) := hcond y hy hk
      rw [keysS_cons] at hmem
      rcases List.mem_cons.mp hmem with hy1 | hyτ
      · -- y is the key at the head of the suffix
        have hdecomp : σ = ρ ++ (hd.1, hd.2) :: τ2 := by
          rw [hρ]
        have hfind : find1 σ y = some hd.2 := by
          rw [hy1]
          exact Good_find1_of_decomp hG hdecomp
        have htgt := hG.2 ρ hd.1 hd.2 τ2 hdecomp
        have hcond2 : ∀ y2 ∈ Term.vars hd.2, y2 ∈ keysS σ → y2 ∈ keysS τ2 := by
          intro y2 hy2 hk2
          obtain ⟨hnρ, hnh⟩ := htgt y2 hy2
          rw [hρ, keysS_append, keysS_cons] at hk2
          rcases List.mem_append.mp hk2 with h1 | h2
          · exact absurd h1 hnρ
          · rcases List.mem_cons.mp h2 with h3 | h4
            · exact absurd h3 hnh
            · exact h4
        obtain ⟨r, hr, hub⟩ := ih (ρ ++ [hd]) (by rw [hρ]; simp) hd.2 hcond2
        exact ⟨r, ApplyR_var_intro hfind hr, hub⟩
      · -- y is bound deeper in the suffix
        refine ih (ρ ++ [hd]) (by rw [hρ]; simp) (.var y) ?_
        intro y2 hmem2 _
        have hyy : y2 = y := List.mem_singleton.mp hmem2
        rw [hyy]
        exact hyτ
    · refine ⟨.var y, ApplyR_var_unbound (find1_eq_none_iff.mpr hk), ?_⟩
      intro z hz
      have hzy : z = y := List.mem_singleton.mp hz
      rw [hzy]
      exact hk

theorem applyR_total (σ : Subst) (hG : Good σ) (t : Term) :
    ∃ r, ApplyR σ t r ∧ ∀ z ∈ Term.vars r, z ∉ keysS σ :=
  applyR_total_aux σ hG σ [] rfl t (fun _ _ hk => hk)

/-- The result of a successful `apply` only mentions unbound variables. -/
theorem applyN_unbound {σ : Subst} {n : Nat} {t r : Term} (hG : Good σ)
    (h : applyN σ n t = some r) : ∀ z ∈ Term.vars r, z ∉ keysS σ := by
  obtain ⟨r2, h2, hub⟩ := applyR_total σ hG t
  have he : r = r2 := ApplyR_det ⟨n, h⟩ h2
  subst he
  exact hub

theorem forall2_mem_right {α β : Type} {R : α → β → Prop}
    {l1 : List α} {l2 : List β} (h : List.Forall₂ R l1 l2) :
    ∀ b ∈ l2, ∃ a ∈ l1, R a b := by
  induction h with
  | nil =>
    intro b hb
    simp at hb
  | cons hab htl ih =>
    intro b hb
    rcases List.mem_cons.mp hb with rfl | hb2
    · exact ⟨_, List.mem_cons_self _ _, hab⟩
    · obtain ⟨a, ha, hr⟩ := ih b hb2
      exact ⟨a, List.mem_cons_of_mem _ ha, hr⟩

theorem varsList_mem {y : String} :
    ∀ {ts : List Term}, y ∈ Term.varsList ts →
      ∃ a ∈ ts, y ∈ Term.vars a := by
  intro ts
  induction ts with
  | nil =>
    intro h
    simp [Term.varsList] at h
  | cons t ts ih =>
    intro h
    have h' : y ∈ Term.vars t ++ Term.varsList ts := h
    rcases List.mem_append.mp h' with h1 | h2
    · exact ⟨t, List.mem_cons_self _ _, h1⟩
    · obtain ⟨a, ha, hy⟩ := ih h2
      exact ⟨a, List.mem_cons_of_mem _ ha, hy⟩

/-- For every substitution — whether or not it satisfies the
triangular invariant — a successful `apply` returns a term whose
variables are all unbound: `apply` walks every chain to its end and
recurses into every binding it substitutes. -/
theorem applyN_unbound_any {σ : Subst} :
    ∀ {n : Nat} {t r : Term}, applyN σ n t = some r →
      ∀ y ∈ Term.vars r, find1 σ y = none := by
  intro n
  induction n with
  | zero =>
    intro t r h
    exact Option.noConfusion h
  | succ k ih =>
    intro t r h
    cases t with
    | atom v =>
      have h' : some (Term.atom v) = some r := h
      rw [← Option.some.inj h']
      intro y hy
      simp [Term.vars] at hy
    | var x =>
      rw [applyN] at h
      cases hl : lookupS σ k x with
      | none =>
        rw [hl] at h
        exact Option.noConfusion h
      | some o =>
        rw [hl] at h
        cases o with
        | none =>
          have h' : some (Term.var x) = some r := h
          rw [← Option.some.inj h']
          intro y hy
          have hyx : y = x := List.mem_singleton.mp hy
          subst hyx
          cases hf : find1 σ y with
          | none => rfl
          | some t2 =>
            rw [lookupS, hf] at hl
            simp only [] at hl
            cases hw : walkChain σ k t2 with
            | none =>
              rw [hw] at hl
              exact Option.noConfusion hl
            | some w =>
              rw [hw] at hl
              exact Option.noConfusion (Option.some.inj hl)
        | some b => exact ih h
    | comp f args =>
      rw [applyN] at h
      cases hm : args.mapM (applyN σ k) with
      | none =>
        rw [hm] at h
        exact Option.noConfusion h
      | some as =>
        rw [hm] at h
        have h' : some (Term.comp f as) = some r := h
        rw [← Option.some.inj h']
        intro y hy
        have hy2 : y ∈ Term.varsList as := hy
        obtain ⟨a, haa, hya⟩ := varsList_mem hy2
        obtain ⟨o, ho, heq⟩ := forall2_mem_right (mapM_eq_some_iff.mp hm) a haa
        exact ih heq y hya
    | list es tl =>
      rw [applyN] at h
      cases hm : es.mapM (applyN σ k) with
      | none =>
        rw [hm] at h
        exact Option.noConfusion h
      | some es2 =>
        rw [hm] at h
        simp only [] at h
        cases tl with
        | none =>
          have h' : some (Term.list es2 none) = some r := h
          rw [← Option.some.inj h']
          intro y hy
          have hy2 : y ∈ Term.varsList es2 ++ ([] : List String) := hy
          rw [List.append_nil] at hy2
          obtain ⟨a, haa, hya⟩ := varsList_mem hy2
          obtain ⟨o, ho, heq⟩ :=
            forall2_mem_right (mapM_eq_some_iff.mp hm) a haa
          exact ih heq y hya
        | some tt =>
          simp only [] at h
          cases ht : applyN σ k tt with
          | none =>
            rw [ht] at h
            exact Option.noConfusion h
          | some t2 =>
            rw [ht] at h
            have h' : some (Term.list es2 (some t2)) = some r := h
            rw [← Option.some.inj h']
            intro y hy
            have hy2 : y ∈ Term.varsList es2 ++ Term.vars t2 := hy
            rcases List.mem_append.mp hy2 with h1 | h2
            · obtain ⟨a, haa, hya⟩ := varsList_mem h1
              obtain ⟨o, ho, heq⟩ :=
                forall2_mem_right (mapM_eq_some_iff.mp hm) a haa
              exact ih heq y hya
            · exact ih ht y h2

theorem occursAnyN_mono_le {σ : Subst} {n m : Nat} {v : String}
    {ts : List Term} {r : Bool} (hnm : n ≤ m)
    (h : occursAnyN σ n v ts = some r) : occursAnyN σ m v ts = some r :=
  mono_le (f := fun n => occursAnyN σ n v ts)
    (fun k r hk => (occurs_mono k).2 hk) hnm h

theorem occursN_mono_le {σ : Subst} {n m : Nat} {v : String}
    {t : Term} {r : Bool} (hnm : n ≤ m)
    (h : occursN σ n v t = some r) : occursN σ m v t = some r :=
  mono_le (f := fun n => occursN σ n v t)
    (fun k r hk => (occurs_mono k).1 hk) hnm h

theorem occursN_det {σ : Subst} {n m : Nat} {v : String} {t : Term}
    {r1 r2 : Bool} (h1 : occursN σ n v t = some r1)
    (h2 : occursN σ m v t = some r2) : r1 = r2 := by
  have e1 := occursN_mono_le (Nat.le_max_left n m) h1
  have e2 := occursN_mono_le (Nat.le_max_right n m) h2
  rw [e1] at e2
  exact Option.some.inj e2

/-- On a term whose variables are all unbound, the occurs-check decides
membership of the variable in the term's variables. -/
theorem occursR_fix (σ : Subst) :
    ∀ u : Term, (∀ y ∈ Term.vars u, find1 σ y = none) → ∀ x : String,
      ∃ n, occursN σ n x u = some (decide (x ∈ Term.vars u)) := by
  refine @Term.rec
    (fun u => (∀ y ∈ Term.vars u, find1 σ y = none) → ∀ x : String,
      ∃ n, occursN σ n x u = some (decide (x ∈ Term.vars u)))
    (fun ts => (∀ y ∈ Term.varsList ts, find1 σ y = none) →
      ∀ x : String,
        ∃ n, occursAnyN σ n x ts = some (decide (x ∈ Term.varsList ts)))
    (fun tl => (∀ y ∈ (match tl with
        | some u2 => Term.vars u2
        | none => []), find1 σ y = none) →
      ∀ x : String,
        ∃ n, (match tl with
          | some u2 => occursN σ n x u2 = some (decide (x ∈ Term.vars u2))
          | none => True))
    ?atomO ?varO ?compO ?listO ?nilO ?consO ?noneO ?someO
  case atomO =>
    intro v _ x
    refine ⟨2, ?_⟩
    rw [occursN]
    rw [show applyN σ 1 (Term.atom v) = some (Term.atom v) from rfl]
    simp [Term.vars]
  case varO =>
    intro y h x
    obtain ⟨nf, hf⟩ := applyR_fix σ (.var y) h
    refine ⟨nf + 1, ?_⟩
    rw [occursN, hf]
    simp [Term.vars, List.mem_singleton]
  case compO =>
    intro f args ih h x
    obtain ⟨nf, hf⟩ := applyR_fix σ (.comp f args) h
    obtain ⟨na, ha⟩ := ih (fun y hy => h y hy) x
    refine ⟨max nf na + 1, ?_⟩
    rw [occursN, applyN_mono_le (Nat.le_max_left nf na) hf]
    exact occursAnyN_mono_le (Nat.le_max_right nf na) ha
  case listO =>
    intro es tl ih1 ih2 h x
    obtain ⟨nf, hf⟩ := applyR_fix σ (.list es tl) h
    cases tl with
    | none =>
      obtain ⟨na, ha⟩ := ih1 (fun y hy => h y
        (show y ∈ Term.varsList es ++ ([] : List String) from
          List.mem_append.mpr (Or.inl hy))) x
      refine ⟨max nf na + 1, ?_⟩
      rw [occursN, applyN_mono_le (Nat.le_max_left nf na) hf]
      simp only []
      rw [occursAnyN_mono_le (Nat.le_max_right nf na) ha]
      cases hb : decide (x ∈ Term.varsList es) with
      | true =>
        have : decide (x ∈ Term.vars (.list es none)) = true := by
          rw [decide_eq_true_eq] at hb ⊢
          exact List.mem_append.mpr (Or.inl hb)
        rw [this]
      | false =>
        have : decide (x ∈ Term.vars (.list es none)) = false := by
          rw [decide_eq_false_iff_not] at hb ⊢
          intro hmem
          have hmem2 : x ∈ Term.varsList es ++ ([] : List String) := hmem
          rcases List.mem_append.mp hmem2 with h1 | h1
          · exact hb h1
          · simp at h1
        rw [this]
    | some u =>
      obtain ⟨na, ha⟩ := ih1 (fun y hy => h y
        (show y ∈ Term.varsList es ++ Term.vars u from
          List.mem_append.mpr (Or.inl hy))) x
      obtain ⟨nt, ht⟩ := ih2 (fun y hy => h y
        (show y ∈ Term.varsList es ++ Term.vars u from
          List.mem_append.mpr (Or.inr hy))) x
      refine ⟨max nf (max na nt) + 1, ?_⟩
      rw [occursN, applyN_mono_le (Nat.le_max_left nf (max na nt)) hf]
      simp only []
      rw [occursAnyN_mono_le
        (le_trans (Nat.le_max_left na nt) (Nat.le_max_right nf (max na nt))) ha]
      cases hb : decide (x ∈ Term.varsList es) with
      | true =>
        have : decide (x ∈ Term.vars (.list es (some u))) = true := by
          rw [decide_eq_true_eq] at hb ⊢
          exact List.mem_append.mpr (Or.inl hb)
        rw [this]
      | false =>
        rw [occursN_mono_le
          (le_trans (Nat.le_max_right na nt) (Nat.le_max_right nf (max na nt))) ht]
        have : decide (x ∈ Term.vars (.list es (some u))) =
            decide (x ∈ Term.vars u) := by
          rw [decide_eq_false_iff_not] at hb
          rcases hdec : decide (x ∈ Term.vars u) with _ | _
          · rw [decide_eq_false_iff_not] at hdec ⊢
            intro hmem
            have hmem2 : x ∈ Term.varsList es ++ Term.vars u := hmem
            rcases List.mem_append.mp hmem2 with h1 | h1
            · exact hb h1
            · exact hdec h1
          · rw [decide_eq_true_eq] at hdec ⊢
            exact List.mem_append.mpr (Or.inr hdec)
        rw [this]
  case nilO =>
    intro _ x
    exact ⟨1, by rw [occursAnyN]; simp [Term.varsList]⟩
  case consO =>
    intro t ts ih1 ih2 h x
    obtain ⟨n1, h1⟩ := ih1 (fun y hy => h y
      (show y ∈ Term.vars t ++ Term.varsList ts from
        List.mem_append.mpr (Or.inl hy))) x
    obtain ⟨n2, h2⟩ := ih2 (fun y hy => h y
      (show y ∈ Term.vars t ++ Term.varsList ts from
        List.mem_append.mpr (Or.inr hy))) x
    refine ⟨max n1 n2 + 1, ?_⟩
    rw [occursAnyN, occursN_mono_le (Nat.le_max_left n1 n2) h1]
    cases hb : decide (x ∈ Term.vars t) with
    | true =>
      have : decide (x ∈ Term.varsList (t :: ts)) = true := by
        rw [decide_eq_true_eq] at hb ⊢
        exact List.mem_append.mpr (Or.inl hb)
      rw [this]
    | false =>
      rw [occursAnyN_mono_le (Nat.le_max_right n1 n2) h2]
      have : decide (x ∈ Term.varsList (t :: ts)) =
          decide (x ∈ Term.varsList ts) := by
        rw [decide_eq_false_iff_not] at hb
        rcases hdec : decide (x ∈ Term.varsList ts) with _ | _
        · rw [decide_eq_false_iff_not] at hdec ⊢
          intro hmem
          have hmem2 : x ∈ Term.vars t ++ Term.varsList ts := hmem
          rcases List.mem_append.mp hmem2 with hm | hm
          · exact hb hm
          · exact hdec hm
        · rw [decide_eq_true_eq] at hdec ⊢
          exact List.mem_append.mpr (Or.inr hdec)
      rw [this]
  case noneO =>
    intro _ x
    exact ⟨1, trivial⟩
  case someO =>
    intro u ih h x
    exact ih (fun y hy => h y hy) x

/-- What a `some false` occurs-check tells us on an applied term: the
variable does not occur. -/
theorem occursN_false_not_mem {σ : Subst} {n : Nat} {x : String} {u : Term}
    (hub : ∀ y ∈ Term.vars u, find1 σ y = none)
    (h : occursN σ n x u = some false) : x ∉ Term.vars u := by
  obtain ⟨m, hm⟩ := occursR_fix σ u hub x
  exact of_decide_eq_false (occursN_det hm h)

theorem forall2_comp {α β γ : Type} {R : α → β → Prop} {S : β → γ → Prop}
    {T : α → γ → Prop} (h : ∀ a b c, R a b → S b c → T a c) :
    ∀ {as : List α} {bs : List β} {cs : List γ},
      List.Forall₂ R as bs → List.Forall₂ S bs cs → List.Forall₂ T as cs := by
  intro as bs cs h1
  induction h1 generalizing cs with
  | nil =>
    intro h2
    cases h2
    exact List.Forall₂.nil
  | cons hab htail ih =>
    intro h2
    cases h2 with
    | cons hbc htail2 =>
      exact List.Forall₂.cons (h _ _ _ hab hbc) (ih htail2)

/-- Walking a chain in `σ` lifts to an extension `σ ++ Δ`: σ-bindings
are still found (left-biased dictionary search). -/
theorem walkChain_lift {σ Δ : Subst} :
    ∀ {n : Nat} {t u : Term}, walkChain σ n t = some u →
      ∀ {r2 : Term}, ApplyR (σ ++ Δ) u r2 → ApplyR (σ ++ Δ) t r2 := by
  intro n
  induction n with
  | zero => intro t u hw; simp [walkChain] at hw
  | succ k ih =>
    intro t u hw r2 h2
    cases t with
    | var z =>
      rw [walkChain] at hw
      cases hz : find1 σ z with
      | none =>
        rw [hz] at hw
        have hu : u = Term.var z := by simpa using hw.symm
        subst hu
        exact h2
      | some t2 =>
        rw [hz] at hw
        exact ApplyR_var_intro (find1_append_left hz) (ih hw h2)
    | atom v =>
      rw [walkChain_nonvar (fun y => by simp)] at hw
      have hu : u = Term.atom v := by simpa using hw.symm
      subst hu
      exact h2
    | comp f as =>
      rw [walkChain_nonvar (fun y => by simp)] at hw
      have hu : u = Term.comp f as := by simpa using hw.symm
      subst hu
      exact h2
    | list es tl =>
      rw [walkChain_nonvar (fun y => by simp)] at hw
      have hu : u = Term.list es tl := by simpa using hw.symm
      subst hu
      exact h2

/-- Extension: applying the extended substitution to an already
σ-applied term is the same as applying it to the original term. -/
theorem applyR_extend {σ Δ : Subst} :
    ∀ {n : Nat} {t r : Term}, applyN σ n t = some r →
      ∀ {r2 : Term}, ApplyR (σ ++ Δ) r r2 → ApplyR (σ ++ Δ) t r2 := by
  intro n
  induction n with
  | zero => intro t r h; simp [applyN] at h
  | succ m ih =>
    intro t r h r2 h2
    cases t with
    | atom v =>
      have h3 : some (Term.atom v) = some r := h
      obtain rfl := Option.some.inj h3
      exact h2
    | var x =>
      rw [applyN, lookupS] at h
      cases hx : find1 σ x with
      | none =>
        rw [hx] at h
        have h3 : some (Term.var x) = some r := h
        obtain rfl := Option.some.inj h3
        exact h2
      | some t0 =>
        rw [hx] at h
        simp only [] at h
        cases hw : walkChain σ m t0 with
        | none => rw [hw] at h; simp at h
        | some u =>
          rw [hw] at h
          simp only [Option.map_some'] at h
          exact ApplyR_var_intro (find1_append_left hx)
            (walkChain_lift hw (ih h h2))
    | comp f args =>
      rw [applyN] at h
      cases hm : args.mapM (applyN σ m) with
      | none => rw [hm] at h; simp at h
      | some rs =>
        rw [hm] at h
        have h3 : some (Term.comp f rs) = some r := h
        obtain rfl := Option.some.inj h3
        obtain ⟨rs2, hre, hf2⟩ := ApplyR_comp_iff.mp h2
        subst hre
        refine ApplyR_comp_iff.mpr ⟨rs2, rfl, ?_⟩
        exact forall2_comp
          (R := fun a b => applyN σ m a = some b)
          (S := ApplyR (σ ++ Δ)) (T := ApplyR (σ ++ Δ))
          (fun a b c hab hbc => ih hab hbc)
          (mapM_eq_some_iff.mp hm) hf2
    | list es tl =>
      rw [applyN] at h
      cases hm : es.mapM (applyN σ m) with
      | none => rw [hm] at h; simp at h
      | some rs =>
        rw [hm] at h
        cases tl with
        | none =>
          have h3 : some (Term.list rs none) = some r := h
          obtain rfl := Option.some.inj h3
          obtain ⟨rs2, rtl2, hre, hf2, hopt⟩ := ApplyR_list_iff.mp h2
          subst hre
          cases rtl2 with
          | some u => exact absurd hopt (by simp [ApplyROpt])
          | none =>
            refine ApplyR_list_iff.mpr ⟨rs2, none, rfl, ?_, trivial⟩
            exact forall2_comp
              (R := fun a b => applyN σ m a = some b)
              (S := ApplyR (σ ++ Δ)) (T := ApplyR (σ ++ Δ))
              (fun a b c hab hbc => ih hab hbc)
              (mapM_eq_some_iff.mp hm) hf2
        | some t0 =>
          simp only [] at h
          cases ht : applyN σ m t0 with
          | none => rw [ht] at h; simp at h
          | some rt =>
            rw [ht] at h
            have h3 : some (Term.list rs (some rt)) = some r := h
            obtain rfl := Option.some.inj h3
            obtain ⟨rs2, rtl2, hre, hf2, hopt⟩ := ApplyR_list_iff.mp h2
            subst hre
            cases rtl2 with
            | none => exact absurd hopt (by simp [ApplyROpt])
            | some rt2 =>
              refine ApplyR_list_iff.mpr ⟨rs2, some rt2, rfl, ?_, ?_⟩
              · exact forall2_comp
                  (R := fun a b => applyN σ m a = some b)
                  (S := ApplyR (σ ++ Δ)) (T := ApplyR (σ ++ Δ))
                  (fun a b c hab hbc => ih hab hbc)
                  (mapM_eq_some_iff.mp hm) hf2
              · exact ih ht hopt

/-! ## Equality up to normalization -/

theorem eqv_refl (t : Term) : Term.eqv t t = true := peq_refl t.norm

theorem peqList_iff_forall2 : ∀ {as bs : List Term},
    Term.peqList as bs = true ↔
      List.Forall₂ (fun a b => Term.peq a b = true) as bs := by
  intro as
  induction as with
  | nil =>
    intro bs
    cases bs with
    | nil => simp [Term.peqList]
    | cons b bs => simp [Term.peqList]
  | cons a as ih =>
    intro bs
    cases bs with
    | nil => simp [Term.peqList]
    | cons b bs =>
      constructor
      · intro h
        have h' : (Term.peq a b && Term.peqList as bs) = true := h
        rw [Bool.and_eq_true] at h'
        exact List.Forall₂.cons h'.1 (ih.mp h'.2)
      · intro h
        cases h with
        | cons hab htail =>
          show (Term.peq a b && Term.peqList as bs) = true
          rw [hab, ih.mpr htail]
          rfl

theorem normList_append : ∀ (A B : List Term),
    Term.normList (A ++ B) = Term.normList A ++ Term.normList B := by
  intro A B
  rw [normList_eq_map, normList_eq_map, normList_eq_map, List.map_append]

theorem norm_list_append (A B : List Term) (tl : Option Term) :
    Term.norm (.list (A ++ B) tl) =
      consSpine (Term.normList A) (Term.norm (.list B tl)) := by
  rw [norm_list_eq, norm_list_eq, normList_append, consSpine_append]

/-- Structural equality is preserved by spine normalization. -/
theorem peq_norm :
    ∀ (a b : Term), Term.peq a b = true → Term.peq a.norm b.norm = true := by
  refine @Term.rec
    (fun a => ∀ b, Term.peq a b = true → Term.peq a.norm b.norm = true)
    (fun as => ∀ bs, Term.peqList as bs = true →
      Term.peqList (Term.normList as) (Term.normList bs) = true)
    (fun tl => ∀ tl2, Term.peqOpt tl tl2 = true →
      Term.peq (normTailOpt tl) (normTailOpt tl2) = true)
    ?atomN ?varN ?compN ?listN ?nilN ?consN ?noneN ?someN
  case atomN =>
    intro v b h
    cases b with
    | atom w => exact h
    | var x => simp [Term.peq] at h
    | comp g bs => simp [Term.peq] at h
    | list fs tl2 => simp [Term.peq] at h
  case varN =>
    intro x b h
    cases b with
    | var y => exact h
    | atom w => simp [Term.peq] at h
    | comp g bs => simp [Term.peq] at h
    | list fs tl2 => simp [Term.peq] at h
  case compN =>
    intro f as ih b h
    cases b with
    | comp g bs =>
      have h' : (decide (f = g) && Term.peqList as bs) = true := h
      rw [Bool.and_eq_true] at h'
      show (decide (f = g) && Term.peqList (Term.normList as) (Term.normList bs))
        = true
      rw [h'.1, ih bs h'.2]
      rfl
    | atom w => simp [Term.peq] at h
    | var x => simp [Term.peq] at h
    | list fs tl2 => simp [Term.peq] at h
  case listN =>
    intro es tl ih1 ih2 b h
    cases b with
    | list fs tl2 =>
      have h' : (Term.peqList es fs && Term.peqOpt tl tl2) = true := h
      rw [Bool.and_eq_true] at h'
      rw [norm_list_eq, norm_list_eq]
      exact consSpine_peq (ih1 fs h'.1) (ih2 tl2 h'.2)
    | atom w => simp [Term.peq] at h
    | var x => simp [Term.peq] at h
    | comp g bs => simp [Term.peq] at h
  case nilN =>
    intro bs h
    cases bs with
    | nil => rfl
    | cons b bs => simp [Term.peqList] at h
  case consN =>
    intro t ts ih1 ih2 bs h
    cases bs with
    | nil => simp [Term.peqList] at h
    | cons b bs =>
      have h' : (Term.peq t b && Term.peqList ts bs) = true := h
      rw [Bool.and_eq_true] at h'
      show (Term.peq t.norm b.norm &&
        Term.peqList (Term.normList ts) (Term.normList bs)) = true
      rw [ih1 b h'.1, ih2 bs h'.2]
      rfl
  case noneN =>
    intro tl2 h
    cases tl2 with
    | none => exact peq_refl (Term.list [] none)
    | some w => simp [Term.peqOpt] at h
  case someN =>
    intro u ih tl2 h
    cases tl2 with
    | some w => exact ih w h
    | none => simp [Term.peqOpt] at h

/-! ## More Forall₂ utilities -/

theorem forall2_eq_map {α β γ : Type} {f : α → γ} {g : β → γ} :
    ∀ {as : List α} {bs : List β}, List.Forall₂ (fun a b => f a = g b) as bs →
      as.map f = bs.map g := by
  intro as bs h
  induction h with
  | nil => rfl
  | cons hab _ ih => simp [List.map_cons, hab, ih]

theorem forall2_zip3 {α β γ δ : Type} {R : α → β → Prop} {P : α → γ → Prop}
    {S : γ → δ → Prop} {Q : β → δ → Prop}
    (h : ∀ a b c d, R a b → P a c → S c d → Q b d) :
    ∀ {as : List α} {bs : List β} {cs : List γ} {ds : List δ},
      List.Forall₂ R as bs → List.Forall₂ P as cs → List.Forall₂ S cs ds →
      List.Forall₂ Q bs ds := by
  intro as bs cs ds h1
  induction h1 generalizing cs ds with
  | nil =>
    intro h2 h3
    cases h2
    cases h3
    exact List.Forall₂.nil
  | cons hab htail ih =>
    intro h2 h3
    cases h2 with
    | cons hac htail2 =>
      cases h3 with
      | cons hcd htail3 =>
        exact List.Forall₂.cons (h _ _ _ _ hab hac hcd) (ih htail2 htail3)

theorem forall2_ApplyR_det {σ : Subst} :
    ∀ {as us vs : List Term}, List.Forall₂ (ApplyR σ) as us →
      List.Forall₂ (ApplyR σ) as vs → us = vs := by
  intro as us vs h1
  induction h1 generalizing vs with
  | nil =>
    intro h2
    cases h2
    rfl
  | cons hab htail ih =>
    intro h2
    cases h2 with
    | cons hab2 htail2 => rw [ApplyR_det hab hab2, ih htail2]

theorem ApplyROpt_det {σ : Subst} : ∀ {tl u v : Option Term},
    ApplyROpt σ tl u → ApplyROpt σ tl v → u = v := by
  intro tl u v h1 h2
  cases tl with
  | none =>
    cases u with
    | none =>
      cases v with
      | none => rfl
      | some b => exact absurd h2 (by simp [ApplyROpt])
    | some a => exact absurd h1 (by simp [ApplyROpt])
  | some t =>
    cases u with
    | none => exact absurd h1 (by simp [ApplyROpt])
    | some a =>
      cases v with
      | none => exact absurd h2 (by simp [ApplyROpt])
      | some b =>
        have h1' : ApplyR σ t a := h1
        have h2' : ApplyR σ t b := h2
        rw [ApplyR_det h1' h2']

theorem forall2_zip2 {α β γ : Type} {R : α → β → Prop} {P : α → γ → Prop}
    {Q : β → γ → Prop} (h : ∀ a b c, R a b → P a c → Q b c) :
    ∀ {as : List α} {bs : List β} {cs : List γ},
      List.Forall₂ R as bs → List.Forall₂ P as cs → List.Forall₂ Q bs cs := by
  intro as bs cs h1
  induction h1 generalizing cs with
  | nil =>
    intro h2
    cases h2
    exact List.Forall₂.nil
  | cons hab htail ih =>
    intro h2
    cases h2 with
    | cons hac htail2 => exact List.Forall₂.cons (h _ _ _ hab hac) (ih htail2)

/-- Structural equality of input terms is preserved by application: the
two results have identical shape with Python-equal atoms. -/
theorem peq_apply {σ : Subst} :
    ∀ {n : Nat} {p u : Term}, applyN σ n p = some u →
      ∀ {q v : Term}, Term.peq p q = true → ApplyR σ q v →
        Term.peq u v = true := by
  intro n
  induction n with
  | zero => intro p u h; simp [applyN] at h
  | succ m ih =>
    intro p u h q v hpq hqv
    cases p with
    | atom a =>
      cases q with
      | atom b =>
        have h3 : some (Term.atom a) = some u := h
        obtain rfl := Option.some.inj h3
        have hv : v = Term.atom b := ApplyR_det hqv (ApplyR_atom σ b)
        subst hv
        exact hpq
      | var x => simp [Term.peq] at hpq
      | comp g bs => simp [Term.peq] at hpq
      | list fs tl2 => simp [Term.peq] at hpq
    | var x =>
      cases q with
      | var y =>
        have hxy : x = y := by simpa [Term.peq] using hpq
        subst hxy
        have huv : u = v := ApplyR_det ⟨m + 1, h⟩ hqv
        rw [huv]
        exact peq_refl v
      | atom b => simp [Term.peq] at hpq
      | comp g bs => simp [Term.peq] at hpq
      | list fs tl2 => simp [Term.peq] at hpq
    | comp f as =>
      cases q with
      | comp g bs =>
        have hpq' : (decide (f = g) && Term.peqList as bs) = true := hpq
        rw [Bool.and_eq_true] at hpq'
        rw [applyN] at h
        cases hm : as.mapM (applyN σ m) with
        | none => rw [hm] at h; simp at h
        | some us =>
          rw [hm] at h
          have h3 : some (Term.comp f us) = some u := h
          obtain rfl := Option.some.inj h3
          obtain ⟨vs, rfl, hfv⟩ := ApplyR_comp_iff.mp hqv
          show (decide (f = g) && Term.peqList us vs) = true
          rw [hpq'.1]
          rw [peqList_iff_forall2.mpr
            (forall2_zip3
              (R := fun a u0 => applyN σ m a = some u0)
              (P := fun a b0 => Term.peq a b0 = true)
              (S := ApplyR σ)
              (Q := fun u0 v0 => Term.peq u0 v0 = true)
              (fun a u0 b0 v0 hR hP hS => ih hR hP hS)
              (mapM_eq_some_iff.mp hm) (peqList_iff_forall2.mp hpq'.2) hfv)]
          rfl
      | atom b => simp [Term.peq] at hpq
      | var y => simp [Term.peq] at hpq
      | list fs tl2 => simp [Term.peq] at hpq
    | list es tl =>
      cases q with
      | list fs tl2 =>
        have hpq' : (Term.peqList es fs && Term.peqOpt tl tl2) = true := hpq
        rw [Bool.and_eq_true] at hpq'
        rw [applyN] at h
        cases hm : es.mapM (applyN σ m) with
        | none => rw [hm] at h; simp at h
        | some us =>
          rw [hm] at h
          obtain ⟨vs, vtl, rfl, hfv, hoptv⟩ := ApplyR_list_iff.mp hqv
          have helems : Term.peqList us vs = true :=
            peqList_iff_forall2.mpr
              (forall2_zip3
                (R := fun a u0 => applyN σ m a = some u0)
                (P := fun a b0 => Term.peq a b0 = true)
                (S := ApplyR σ)
                (Q := fun u0 v0 => Term.peq u0 v0 = true)
                (fun a u0 b0 v0 hR hP hS => ih hR hP hS)
                (mapM_eq_some_iff.mp hm) (peqList_iff_forall2.mp hpq'.1) hfv)
          cases tl with
          | none =>
            have h3 : some (Term.list us none) = some u := h
            obtain rfl := Option.some.inj h3
            cases tl2 with
            | some z => simp [Term.peqOpt] at hpq'
            | none =>
              cases vtl with
              | some z => exact absurd hoptv (by simp [ApplyROpt])
              | none =>
                show (Term.peqList us vs && Term.peqOpt none none) = true
                rw [helems]
                rfl
          | some t0 =>
            simp only [] at h
            cases ht : applyN σ m t0 with
            | none => rw [ht] at h; simp at h
            | some ut =>
              rw [ht] at h
              have h3 : some (Term.list us (some ut)) = some u := h
              obtain rfl := Option.some.inj h3
              cases tl2 with
              | none => simp [Term.peqOpt] at hpq'
              | some t20 =>
                cases vtl with
                | none => exact absurd hoptv (by simp [ApplyROpt])
                | some vt =>
                  have htt : Term.peq t0 t20 = true := hpq'.2
                  have hvt : ApplyR σ t20 vt := hoptv
                  show (Term.peqList us vs &&
                    Term.peqOpt (some ut) (some vt)) = true
                  rw [helems]
                  show (true && Term.peq ut vt) = true
                  rw [ih ht htt hvt]
                  rfl
      | atom b => simp [Term.peq] at hpq
      | var y => simp [Term.peq] at hpq
      | comp g bs => simp [Term.peq] at hpq

/-- Decomposing an application of a `consSpine`: the prefix and the
spine tail are applied separately, and the result's normal form is the
`consSpine` of the two normalized results. -/
theorem applyR_consSpine {σ : Subst} {A : List Term} {T w : Term}
    (h : ApplyR σ (consSpine A T) w) :
    ∃ wsA wT, List.Forall₂ (ApplyR σ) A wsA ∧ ApplyR σ T wT ∧
      Term.norm w = consSpine (Term.normList wsA) (Term.norm wT) := by
  cases T with
  | list es2 tl2 =>
    have h' : ApplyR σ (.list (A ++ es2) tl2) w := h
    obtain ⟨ws, wtl, rfl, hf, hopt⟩ := ApplyR_list_iff.mp h'
    have hA : List.Forall₂ (ApplyR σ) A (ws.take A.length) := by
      have h2 := List.forall₂_take A.length hf
      rwa [List.take_left] at h2
    have hB : List.Forall₂ (ApplyR σ) es2 (ws.drop A.length) := by
      have h2 := List.forall₂_drop A.length hf
      rwa [List.drop_left] at h2
    refine ⟨ws.take A.length, .list (ws.drop A.length) wtl, hA,
      ApplyR_list_iff.mpr ⟨ws.drop A.length, wtl, rfl, hB, hopt⟩, ?_⟩
    conv_lhs => rw [← List.take_append_drop A.length ws]
    exact norm_list_append _ _ _
  | atom v =>
    have h' : ApplyR σ (.list A (some (.atom v))) w := h
    obtain ⟨ws, wtl, rfl, hf, hopt⟩ := ApplyR_list_iff.mp h'
    cases wtl with
    | none => exact absurd hopt (by simp [ApplyROpt])
    | some wt =>
      have hopt' : ApplyR σ (.atom v) wt := hopt
      exact ⟨ws, wt, hf, hopt', rfl⟩
  | var x =>
    have h' : ApplyR σ (.list A (some (.var x))) w := h
    obtain ⟨ws, wtl, rfl, hf, hopt⟩ := ApplyR_list_iff.mp h'
    cases wtl with
    | none => exact absurd hopt (by simp [ApplyROpt])
    | some wt =>
      have hopt' : ApplyR σ (.var x) wt := hopt
      exact ⟨ws, wt, hf, hopt', rfl⟩
  | comp f as =>
    have h' : ApplyR σ (.list A (some (.comp f as))) w := h
    obtain ⟨ws, wtl, rfl, hf, hopt⟩ := ApplyR_list_iff.mp h'
    cases wtl with
    | none => exact absurd hopt (by simp [ApplyROpt])
    | some wt =>
      have hopt' : ApplyR σ (.comp f as) wt := hopt
      exact ⟨ws, wt, hf, hopt', rfl⟩

theorem normList_ptwise {σ : Subst} {m : Nat}
    (ih : ∀ {r u : Term}, applyN σ m r = some u →
      ∀ {w : Term}, ApplyR σ (Term.norm r) w → Term.norm w = Term.norm u)
    {as us ws : List Term}
    (hm : List.Forall₂ (fun a u => applyN σ m a = some u) as us)
    (hw : List.Forall₂ (ApplyR σ) (Term.normList as) ws) :
    Term.normList ws = Term.normList us := by
  rw [normList_eq_map] at hw
  have hw2 : List.Forall₂ (fun a w => ApplyR σ (Term.norm a) w) as ws :=
    List.forall₂_map_left_iff.mp hw
  have h3 : List.Forall₂ (fun w u => Term.norm w = Term.norm u) ws us :=
    forall2_zip2
      (R := fun a w => ApplyR σ (Term.norm a) w)
      (P := fun a u => applyN σ m a = some u)
      (Q := fun w u => Term.norm w = Term.norm u)
      (fun a w u hR hP => ih hP hR) hw2 hm
  rw [normList_eq_map, normList_eq_map]
  exact forall2_eq_map h3

/-- Application commutes with spine normalization, up to normalization:
applying the normal form of `r` gives a term with the same normal form
as the application of `r`. -/
theorem norm_apply {σ : Subst} :
    ∀ {n : Nat} {r u : Term}, applyN σ n r = some u →
      ∀ {w : Term}, ApplyR σ (Term.norm r) w → Term.norm w = Term.norm u := by
  intro n
  induction n with
  | zero => intro r u h; simp [applyN] at h
  | succ m ih =>
    intro r u h w hw
    cases r with
    | atom a =>
      have h3 : some (Term.atom a) = some u := h
      obtain rfl := Option.some.inj h3
      have hw' : ApplyR σ (.atom a) w := hw
      have hwa : w = Term.atom a := ApplyR_det hw' (ApplyR_atom σ a)
      rw [hwa]
    | var x =>
      have hwu : w = u := ApplyR_det hw ⟨m + 1, h⟩
      rw [hwu]
    | comp f as =>
      rw [applyN] at h
      cases hm : as.mapM (applyN σ m) with
      | none => rw [hm] at h; simp at h
      | some us =>
        rw [hm] at h
        have h3 : some (Term.comp f us) = some u := h
        obtain rfl := Option.some.inj h3
        have hw' : ApplyR σ (.comp f (Term.normList as)) w := hw
        obtain ⟨ws, rfl, hf⟩ := ApplyR_comp_iff.mp hw'
        show Term.comp f (Term.normList ws) = Term.comp f (Term.normList us)
        rw [normList_ptwise ih (mapM_eq_some_iff.mp hm) hf]
    | list es tl =>
      rw [applyN] at h
      cases hm : es.mapM (applyN σ m) with
      | none => rw [hm] at h; simp at h
      | some us =>
        rw [hm] at h
        cases tl with
        | none =>
          have h3 : some (Term.list us none) = some u := h
          obtain rfl := Option.some.inj h3
          have hw' : ApplyR σ (.list (Term.normList es) none) w := hw
          obtain ⟨ws, wtl, rfl, hf, hopt⟩ := ApplyR_list_iff.mp hw'
          cases wtl with
          | some z => exact absurd hopt (by simp [ApplyROpt])
          | none =>
            show Term.list (Term.normList ws) none =
              Term.list (Term.normList us) none
            rw [normList_ptwise ih (mapM_eq_some_iff.mp hm) hf]
        | some t0 =>
          simp only [] at h
          cases ht : applyN σ m t0 with
          | none => rw [ht] at h; simp at h
          | some ut =>
            rw [ht] at h
            have h3 : some (Term.list us (some ut)) = some u := h
            obtain rfl := Option.some.inj h3
            have hw' : ApplyR σ (consSpine (Term.normList es) (Term.norm t0)) w :=
              hw
            obtain ⟨wsA, wT, hA, hT, hnw⟩ := applyR_consSpine hw'
            rw [hnw]
            show consSpine (Term.normList wsA) (Term.norm wT) =
              consSpine (Term.normList us) (Term.norm ut)
            rw [normList_ptwise ih (mapM_eq_some_iff.mp hm) hA, ih ht hT]

/-- Equality up to normalization is preserved by application under a
well-formed substitution. -/
theorem eqv_apply {σ : Subst} (hG : Good σ) {p q p2 q2 : Term}
    (hpq : Term.eqv p q = true) (hp : ApplyR σ p p2) (hq : ApplyR σ q q2) :
    Term.eqv p2 q2 = true := by
  obtain ⟨A, hA, _⟩ := applyR_total σ hG p.norm
  obtain ⟨B, hB, _⟩ := applyR_total σ hG q.norm
  obtain ⟨np, hnp⟩ := hp
  obtain ⟨nq, hnq⟩ := hq
  have hpq' : Term.peq p.norm q.norm = true := hpq
  have hAB : Term.peq A B = true := by
    obtain ⟨na, hna⟩ := hA
    exact peq_apply hna hpq' hB
  have h1 : Term.norm A = Term.norm p2 := norm_apply hnp hA
  have h2 : Term.norm B = Term.norm q2 := norm_apply hnq hB
  have h3 := peq_norm A B hAB
  rw [h1, h2] at h3
  exact h3

theorem applyR_lift {σ Δ : Subst} (hG : Good (σ ++ Δ)) {t u : Term}
    (h : ApplyR σ t u) : ∃ u2, ApplyR (σ ++ Δ) t u2 ∧ ApplyR (σ ++ Δ) u u2 := by
  obtain ⟨n, hn⟩ := h
  obtain ⟨u2, hu2, _⟩ := applyR_total (σ ++ Δ) hG u
  exact ⟨u2, applyR_extend hn hu2, hu2⟩

theorem forall2_lift {σ Δ : Subst} (hG : Good (σ ++ Δ)) :
    ∀ {as us : List Term}, List.Forall₂ (ApplyR σ) as us →
      ∃ us2, List.Forall₂ (ApplyR (σ ++ Δ)) as us2 ∧
        List.Forall₂ (ApplyR (σ ++ Δ)) us us2 := by
  intro as us h
  induction h with
  | nil => exact ⟨[], List.Forall₂.nil, List.Forall₂.nil⟩
  | cons hab htail ih =>
    obtain ⟨u2, h1, h2⟩ := applyR_lift hG hab
    obtain ⟨us2, h3, h4⟩ := ih
    exact ⟨u2 :: us2, List.Forall₂.cons h1 h3, List.Forall₂.cons h2 h4⟩

/-- Recombination in the list case of `unify`: the normal form of the
applied list is the `consSpine` of the applied zipped prefix and the
applied reconstructed tail. -/
theorem list_recombine {σ : Subst} {es : List Term} {tl : Option Term}
    {m : Nat} {u : Term} {P : List Term} {w : Term}
    (hu : ApplyR σ (.list es tl) u)
    (hP : List.Forall₂ (ApplyR σ) (es.take m) P)
    (hw : ApplyR σ (mkTail (es.drop m) tl) w) :
    Term.norm u = consSpine (Term.normList P) (Term.norm w) := by
  obtain ⟨U, utl, rfl, hfU, hoptU⟩ := ApplyR_list_iff.mp hu
  have hU1 : List.Forall₂ (ApplyR σ) (es.take m) (U.take m) :=
    List.forall₂_take m hfU
  have hU2 : List.Forall₂ (ApplyR σ) (es.drop m) (U.drop m) :=
    List.forall₂_drop m hfU
  have hPU : P = U.take m := forall2_ApplyR_det hP hU1
  subst hPU
  cases hrem : es.drop m with
  | nil =>
    have hlen : es.length ≤ m := by
      have := congrArg List.length hrem
      simp only [List.length_drop, List.length_nil] at this
      omega
    have hUlen : U.length ≤ m := hfU.length_eq ▸ hlen
    have hUt : U.take m = U := List.take_of_length_le hUlen
    rw [hrem] at hw
    cases tl with
    | some t0 =>
      have hw' : ApplyR σ t0 w := by
        have he : mkTail [] (some t0) = t0 := rfl
        rwa [he] at hw
      cases utl with
      | none => exact absurd hoptU (by simp [ApplyROpt])
      | some ut =>
        have hut : ApplyR σ t0 ut := hoptU
        have hwu : w = ut := ApplyR_det hw' hut
        subst hwu
        rw [hUt]
        rfl
    | none =>
      have hw' : ApplyR σ (.list [] none) w := by
        have he : mkTail [] none = Term.list [] none := rfl
        rwa [he] at hw
      obtain ⟨ws, wtl, rfl, hfw, hoptw⟩ := ApplyR_list_iff.mp hw'
      cases hfw
      cases wtl with
      | some z => exact absurd hoptw (by simp [ApplyROpt])
      | none =>
        cases utl with
        | some z => exact absurd hoptU (by simp [ApplyROpt])
        | none =>
          rw [hUt]
          show Term.list (Term.normList U) none =
            consSpine (Term.normList U) (Term.list (Term.normList []) none)
          show Term.list (Term.normList U) none =
            Term.list (Term.normList U ++ []) none
          rw [List.append_nil]
  | cons r rs =>
    rw [hrem] at hw
    have hw' : ApplyR σ (.list (r :: rs) tl) w := by
      have he : mkTail (r :: rs) tl = Term.list (r :: rs) tl := rfl
      rwa [he] at hw
    obtain ⟨W, wtl, rfl, hfw, hoptw⟩ := ApplyR_list_iff.mp hw'
    rw [hrem] at hU2
    have hWU : W = U.drop m := forall2_ApplyR_det hfw hU2
    have htlw : wtl = utl := ApplyROpt_det hoptw hoptU
    subst hWU
    subst htlw
    conv_lhs => rw [← List.take_append_drop m U]
    exact norm_list_append _ _ _

/-- Core of the variable-on-the-left branch of `unify`: the applied
left term is an unbound variable `x`, the applied right term `b` is
fully applied; the branch either succeeds trivially (same variable) or
binds `x` to `b` after the occurs-check. -/
theorem unify_var_core {σ : Subst} {fuel : Nat} {x : String} {b : Term}
    {σ2 : Subst} (hG : Good σ)
    (hxub : x ∉ keysS σ)
    (hbub : ∀ y ∈ Term.vars b, y ∉ keysS σ)
    (h : (if Term.isVarNamed x b then some (some σ)
          else
            match occursN σ fuel x b with
            | none => none
            | some true => some none
            | some false => some (some (bindS σ x b))) = some (some σ2)) :
    Good σ2 ∧ (∃ Δ, σ2 = σ ++ Δ) ∧
      ∃ u v, ApplyR σ2 (.var x) u ∧ ApplyR σ2 b v ∧ Term.eqv u v = true := by
  cases hvn : Term.isVarNamed x b with
  | true =>
    rw [hvn, if_pos rfl] at h
    have hσ : σ = σ2 := Option.some.inj (Option.some.inj h)
    subst hσ
    have hb : b = .var x := by
      cases b with
      | var z =>
        have hz : decide (x = z) = true := hvn
        rw [decide_eq_true_eq] at hz
        rw [hz]
      | atom v => simp [Term.isVarNamed] at hvn
      | comp f as => simp [Term.isVarNamed] at hvn
      | list es tl => simp [Term.isVarNamed] at hvn
    subst hb
    have hx : ApplyR σ (.var x) (.var x) :=
      ApplyR_var_unbound (find1_eq_none_iff.mpr hxub)
    exact ⟨hG, ⟨[], (List.append_nil σ).symm⟩, .var x, .var x, hx, hx,
      eqv_refl (Term.var x)⟩
  | false =>
    rw [hvn, if_neg Bool.false_ne_true] at h
    cases hocc : occursN σ fuel x b with
    | none => rw [hocc] at h; simp at h
    | some bv =>
      rw [hocc] at h
      cases bv with
      | true => simp at h
      | false =>
        have hσ2 : bindS σ x b = σ2 := Option.some.inj (Option.some.inj h)
        subst hσ2
        have hbub' : ∀ y ∈ Term.vars b, find1 σ y = none :=
          fun y hy => find1_eq_none_iff.mpr (hbub y hy)
        have hxb : x ∉ Term.vars b := occursN_false_not_mem hbub' hocc
        have hbind : bindS σ x b = σ ++ [(x, b)] := bindS_fresh b hxub
        rw [hbind]
        have hG2 : Good (σ ++ [(x, b)]) :=
          Good_snoc hG hxub (fun y hy => ⟨hbub y hy, fun hyx => hxb (hyx ▸ hy)⟩)
        have hfb : find1 (σ ++ [(x, b)]) x = some b :=
          find1_append_cons_fresh σ x b [] hxub
        have hbb : ApplyR (σ ++ [(x, b)]) b b := by
          apply applyR_fix
          intro y hy
          rw [find1_eq_none_iff, keysS_append]
          intro hmem
          rcases List.mem_append.mp hmem with h1 | h1
          · exact hbub y hy h1
          · have hyx : y = x := by simpa [keysS] using h1
            exact hxb (hyx ▸ hy)
        exact ⟨hG2, ⟨[(x, b)], rfl⟩, b, b, ApplyR_var_intro hfb hbb, hbb,
          eqv_refl b⟩

/-- Core of the variable-on-the-right branch of `unify` (left term not
a variable): bind `y` to `a` after the occurs-check. -/
theorem unify_var_right_core {σ : Subst} {fuel : Nat} {y : String} {a : Term}
    {σ2 : Subst} (hG : Good σ)
    (hyub : y ∉ keysS σ)
    (haub : ∀ z ∈ Term.vars a, z ∉ keysS σ)
    (h : (match occursN σ fuel y a with
          | none => none
          | some true => some none
          | some false => some (some (bindS σ y a))) = some (some σ2)) :
    Good σ2 ∧ (∃ Δ, σ2 = σ ++ Δ) ∧
      ∃ u v, ApplyR σ2 a u ∧ ApplyR σ2 (.var y) v ∧ Term.eqv u v = true := by
  cases hocc : occursN σ fuel y a with
  | none => rw [hocc] at h; simp at h
  | some bv =>
    rw [hocc] at h
    cases bv with
    | true => simp at h
    | false =>
      have hσ2 : bindS σ y a = σ2 := Option.some.inj (Option.some.inj h)
      subst hσ2
      have haub' : ∀ z ∈ Term.vars a, find1 σ z = none :=
        fun z hz => find1_eq_none_iff.mpr (haub z hz)
      have hya : y ∉ Term.vars a := occursN_false_not_mem haub' hocc
      have hbind : bindS σ y a = σ ++ [(y, a)] := bindS_fresh a hyub
      rw [hbind]
      have hG2 : Good (σ ++ [(y, a)]) :=
        Good_snoc hG hyub (fun z hz => ⟨haub z hz, fun hzy => hya (hzy ▸ hz)⟩)
      have hfa : find1 (σ ++ [(y, a)]) y = some a :=
        find1_append_cons_fresh σ y a [] hyub
      have haa : ApplyR (σ ++ [(y, a)]) a a := by
        apply applyR_fix
        intro z hz
        rw [find1_eq_none_iff, keysS_append]
        intro hmem
        rcases List.mem_append.mp hmem with h1 | h1
        · exact haub z hz h1
        · have hzy : z = y := by simpa [keysS] using h1
          exact hya (hzy ▸ hz)
      exact ⟨hG2, ⟨[(y, a)], rfl⟩, a, a, haa, ApplyR_var_intro hfa haa,
        eqv_refl a⟩

/-- Soundness of `unify`, by induction on fuel: starting from a
well-formed substitution, a successful unification returns a well-formed
extension under which the two terms apply to results that are equal up
to spine normalization (with Python numeric equality at atoms); and the
corresponding statement for the argument loop (which, like `zip`, only
constrains the common prefix of the two argument lists). -/
theorem unify_sound_main : ∀ n : Nat,
    (∀ σ s t σ2, Good σ → unifyN n σ s t = some (some σ2) →
      Good σ2 ∧ (∃ Δ, σ2 = σ ++ Δ) ∧
      ∃ u v, ApplyR σ2 s u ∧ ApplyR σ2 t v ∧ Term.eqv u v = true) ∧
    (∀ σ as bs σ2, Good σ → unifyArgsN n σ as bs = some (some σ2) →
      Good σ2 ∧ (∃ Δ, σ2 = σ ++ Δ) ∧
      ∃ us vs,
        List.Forall₂ (ApplyR σ2) (as.take (min as.length bs.length)) us ∧
        List.Forall₂ (ApplyR σ2) (bs.take (min as.length bs.length)) vs ∧
        Term.peqList (Term.normList us) (Term.normList vs) = true) := by
  intro n
  induction n with
  | zero =>
    constructor
    · intro σ s t σ2 hG h
      simp [unifyN] at h
    · intro σ as bs σ2 hG h
      simp [unifyArgsN] at h
  | succ fuel ih =>
    obtain ⟨ihU, ihA⟩ := ih
    constructor
    · intro σ s t σ2 hG h
      rw [unifyN] at h
      cases ha1 : applyN σ fuel s with
      | none => rw [ha1] at h; simp at h
      | some a1 =>
        rw [ha1] at h
        simp only [] at h
        cases ha2 : applyN σ fuel t with
        | none => rw [ha2] at h; simp at h
        | some a2 =>
          rw [ha2] at h
          simp only [] at h
          suffices hcore : Good σ2 ∧ (∃ Δ, σ2 = σ ++ Δ) ∧
              ∃ u v, ApplyR σ2 a1 u ∧ ApplyR σ2 a2 v ∧ Term.eqv u v = true by
            obtain ⟨hG2, ⟨Δ, hΔ⟩, u, v, hu, hv, he⟩ := hcore
            subst hΔ
            exact ⟨hG2, ⟨Δ, rfl⟩, u, v, applyR_extend ha1 hu,
              applyR_extend ha2 hv, he⟩
          have hub1 := applyN_unbound hG ha1
          have hub2 := applyN_unbound hG ha2
          cases a1 with
          | var x =>
            cases a2 with
            | atom v2 =>
              have h' : (if Term.isVarNamed x (Term.atom v2) then some (some σ)
                  else
                    match occursN σ fuel x (Term.atom v2) with
                    | none => none
                    | some true => some none
                    | some false => some (some (bindS σ x (Term.atom v2))))
                  = some (some σ2) := h
              exact unify_var_core hG (hub1 x (List.mem_singleton.mpr rfl))
                hub2 h'
            | var y2 =>
              have h' : (if Term.isVarNamed x (Term.var y2) then some (some σ)
                  else
                    match occursN σ fuel x (Term.var y2) with
                    | none => none
                    | some true => some none
                    | some false => some (some (bindS σ x (Term.var y2))))
                  = some (some σ2) := h
              exact unify_var_core hG (hub1 x (List.mem_singleton.mpr rfl))
                hub2 h'
            | comp g2 bs2 =>
              have h' : (if Term.isVarNamed x (Term.comp g2 bs2) then
                    some (some σ)
                  else
                    match occursN σ fuel x (Term.comp g2 bs2) with
                    | none => none
                    | some true => some none
                    | some false => some (some (bindS σ x (Term.comp g2 bs2))))
                  = some (some σ2) := h
              exact unify_var_core hG (hub1 x (List.mem_singleton.mpr rfl))
                hub2 h'
            | list es2 tl2 =>
              have h' : (if Term.isVarNamed x (Term.list es2 tl2) then
                    some (some σ)
                  else
                    match occursN σ fuel x (Term.list es2 tl2) with
                    | none => none
                    | some true => some none
                    | some false => some (some (bindS σ x (Term.list es2 tl2))))
                  = some (some σ2) := h
              exact unify_var_core hG (hub1 x (List.mem_singleton.mpr rfl))
                hub2 h'
          | atom v1 =>
            cases a2 with
            | atom v2 =>
              have h' : some (if PyVal.eqb v1 v2 then some σ else none)
                  = some (some σ2) := h
              cases heq : PyVal.eqb v1 v2 with
              | true =>
                rw [heq, if_pos rfl] at h'
                have hσ : σ = σ2 := Option.some.inj (Option.some.inj h')
                subst hσ
                refine ⟨hG, ⟨[], (List.append_nil σ).symm⟩, .atom v1, .atom v2,
                  ApplyR_atom σ v1, ApplyR_atom σ v2, ?_⟩
                show PyVal.eqb v1 v2 = true
                exact heq
              | false =>
                rw [heq, if_neg Bool.false_ne_true] at h'
                simp at h'
            | var y =>
              have h' : (match occursN σ fuel y (.atom v1) with
                  | none => none
                  | some true => some none
                  | some false => some (some (bindS σ y (.atom v1))))
                  = some (some σ2) := h
              exact unify_var_right_core hG (hub2 y (List.mem_singleton.mpr rfl))
                hub1 h'
            | comp g bs =>
              have h' : (some none : Option (Option Subst))
                  = some (some σ2) := h
              simp at h'
            | list fs tl2 =>
              have h' : (some none : Option (Option Subst))
                  = some (some σ2) := h
              simp at h'
          | comp f as1 =>
            cases a2 with
            | atom v2 =>
              have h' : (some none : Option (Option Subst))
                  = some (some σ2) := h
              simp at h'
            | var y =>
              have h' : (match occursN σ fuel y (.comp f as1) with
                  | none => none
                  | some true => some none
                  | some false => some (some (bindS σ y (.comp f as1))))
                  = some (some σ2) := h
              exact unify_var_right_core hG (hub2 y (List.mem_singleton.mpr rfl))
                hub1 h'
            | comp g bs2 =>
              have h' : (if f = g then
                    if as1.length = bs2.length then unifyArgsN fuel σ as1 bs2
                    else some none
                  else some none) = some (some σ2) := h
              by_cases hfg : f = g
              · rw [if_pos hfg] at h'
                by_cases hlen : as1.length = bs2.length
                · rw [if_pos hlen] at h'
                  obtain ⟨hG2, hΔ, us, vs, hFu, hFv, hpeq⟩ :=
                    ihA σ as1 bs2 σ2 hG h'
                  have hmin : min as1.length bs2.length = as1.length := by
                    rw [hlen]
                    exact Nat.min_self _
                  rw [hmin, List.take_length] at hFu
                  rw [hmin, hlen, List.take_length] at hFv
                  subst hfg
                  refine ⟨hG2, hΔ, .comp f us, .comp f vs,
                    ApplyR_comp_iff.mpr ⟨us, rfl, hFu⟩,
                    ApplyR_comp_iff.mpr ⟨vs, rfl, hFv⟩, ?_⟩
                  show (decide (f = f) &&
                    Term.peqList (Term.normList us) (Term.normList vs)) = true
                  rw [decide_eq_true rfl, hpeq]
                  rfl
                · rw [if_neg hlen] at h'
                  simp at h'
              · rw [if_neg hfg] at h'
                simp at h'
            | list fs tl2 =>
              have h' : (some none : Option (Option Subst))
                  = some (some σ2) := h
              simp at h'
          | list es1 tl1 =>
            cases a2 with
            | atom v2 =>
              have h' : (some none : Option (Option Subst))
                  = some (some σ2) := h
              simp at h'
            | var y =>
              have h' : (match occursN σ fuel y (.list es1 tl1) with
                  | none => none
                  | some true => some none
                  | some false => some (some (bindS σ y (.list es1 tl1))))
                  = some (some σ2) := h
              exact unify_var_right_core hG (hub2 y (List.mem_singleton.mpr rfl))
                hub1 h'
            | comp g bs2 =>
              have h' : (some none : Option (Option Subst))
                  = some (some σ2) := h
              simp at h'
            | list es2 tl2 =>
              have h' : (if es1.isEmpty && tl1.isNone && es2.isEmpty
                      && tl2.isNone then
                    some (some σ)
                  else if (es1.isEmpty && tl1.isNone)
                      || (es2.isEmpty && tl2.isNone) then
                    some none
                  else
                    match unifyArgsN fuel σ es1 es2 with
                    | none => none
                    | some none => some none
                    | some (some σ3) =>
                      let m := min es1.length es2.length
                      unifyN fuel σ3 (mkTail (es1.drop m) tl1)
                        (mkTail (es2.drop m) tl2)) = some (some σ2) := h
              cases hc1 : (es1.isEmpty && tl1.isNone && es2.isEmpty
                  && tl2.isNone) with
              | true =>
                rw [hc1, if_pos rfl] at h'
                have hσ : σ = σ2 := Option.some.inj (Option.some.inj h')
                subst hσ
                rw [Bool.and_eq_true, Bool.and_eq_true, Bool.and_eq_true] at hc1
                obtain ⟨⟨⟨he1, hn1⟩, he2⟩, hn2⟩ := hc1
                have he1' : es1 = [] := List.isEmpty_iff.mp he1
                have he2' : es2 = [] := List.isEmpty_iff.mp he2
                have hn1' : tl1 = none := Option.isNone_iff_eq_none.mp hn1
                have hn2' : tl2 = none := Option.isNone_iff_eq_none.mp hn2
                subst he1'
                subst he2'
                subst hn1'
                subst hn2'
                exact ⟨hG, ⟨[], (List.append_nil σ).symm⟩,
                  .list [] none, .list [] none, ⟨1, rfl⟩, ⟨1, rfl⟩,
                  eqv_refl (Term.list [] none)⟩
              | false =>
                rw [hc1, if_neg Bool.false_ne_true] at h'
                cases hc2 : ((es1.isEmpty && tl1.isNone)
                    || (es2.isEmpty && tl2.isNone)) with
                | true =>
                  rw [hc2, if_pos rfl] at h'
                  simp at h'
                | false =>
                  rw [hc2, if_neg Bool.false_ne_true] at h'
                  cases hargs : unifyArgsN fuel σ es1 es2 with
                  | none => rw [hargs] at h'; simp at h'
                  | some o =>
                    rw [hargs] at h'
                    cases o with
                    | none => simp at h'
                    | some σ3 =>
                      have h'' : unifyN fuel σ3
                          (mkTail (es1.drop (min es1.length es2.length)) tl1)
                          (mkTail (es2.drop (min es1.length es2.length)) tl2)
                          = some (some σ2) := h'
                      obtain ⟨hG3, ⟨Δ1, hΔ1⟩, us, vs, hFu, hFv, hpeq⟩ :=
                        ihA σ es1 es2 σ3 hG hargs
                      obtain ⟨hG2, ⟨Δ2, hΔ2⟩, w1, w2, hw1, hw2, hew⟩ :=
                        ihU σ3 _ _ σ2 hG3 h''
                      subst hΔ2
                      obtain ⟨us2, hus2a, hus2b⟩ := forall2_lift hG2 hFu
                      obtain ⟨vs2, hvs2a, hvs2b⟩ := forall2_lift hG2 hFv
                      have heqv : List.Forall₂
                          (fun a b => Term.eqv a b = true) us vs := by
                        have h1 := peqList_iff_forall2.mp hpeq
                        rw [normList_eq_map, normList_eq_map] at h1
                        exact List.forall₂_map_right_iff.mp
                          (List.forall₂_map_left_iff.mp h1)
                      have heqv2 : List.Forall₂
                          (fun a b => Term.eqv a b = true) us2 vs2 :=
                        forall2_zip3
                          (R := ApplyR (σ3 ++ Δ2))
                          (P := fun a b => Term.eqv a b = true)
                          (S := ApplyR (σ3 ++ Δ2))
                          (Q := fun a b => Term.eqv a b = true)
                          (fun u0 u02 v0 v02 hR hP hS =>
                            eqv_apply hG2 hP hR hS)
                          hus2b heqv hvs2b
                      obtain ⟨u, hu, _⟩ :=
                        applyR_total _ hG2 (Term.list es1 tl1)
                      obtain ⟨v, hv, _⟩ :=
                        applyR_total _ hG2 (Term.list es2 tl2)
                      have hnu : Term.norm u =
                          consSpine (Term.normList us2) (Term.norm w1) :=
                        list_recombine hu hus2a hw1
                      have hnv : Term.norm v =
                          consSpine (Term.normList vs2) (Term.norm w2) :=
                        list_recombine hv hvs2a hw2
                      refine ⟨hG2,
                        ⟨Δ1 ++ Δ2, by rw [hΔ1, List.append_assoc]⟩,
                        u, v, hu, hv, ?_⟩
                      show Term.peq u.norm v.norm = true
                      rw [hnu, hnv]
                      apply consSpine_peq
                      · apply peqList_iff_forall2.mpr
                        rw [normList_eq_map, normList_eq_map]
                        apply List.forall₂_map_left_iff.mpr
                        apply List.forall₂_map_right_iff.mpr
                        exact heqv2
                      · exact hew
    · intro σ as bs σ2 hG h
      cases as with
      | nil =>
        cases bs with
        | nil =>
          have h' : (some (some σ) : Option (Option Subst))
              = some (some σ2) := h
          have hσ : σ = σ2 := Option.some.inj (Option.some.inj h')
          subst hσ
          refine ⟨hG, ⟨[], (List.append_nil σ).symm⟩, [], [], ?_, ?_, rfl⟩
          · rw [List.take_nil]
            exact List.Forall₂.nil
          · rw [List.take_nil]
            exact List.Forall₂.nil
        | cons b bs2 =>
          have h' : (some (some σ) : Option (Option Subst))
              = some (some σ2) := h
          have hσ : σ = σ2 := Option.some.inj (Option.some.inj h')
          subst hσ
          refine ⟨hG, ⟨[], (List.append_nil σ).symm⟩, [], [], ?_, ?_, rfl⟩
          · rw [List.take_nil]
            exact List.Forall₂.nil
          · have hm0 : min (List.length ([] : List Term))
                (b :: bs2).length = 0 := by
              simp
            rw [hm0, List.take_zero]
            exact List.Forall₂.nil
      | cons a as2 =>
        cases bs with
        | nil =>
          have h' : (some (some σ) : Option (Option Subst))
              = some (some σ2) := h
          have hσ : σ = σ2 := Option.some.inj (Option.some.inj h')
          subst hσ
          refine ⟨hG, ⟨[], (List.append_nil σ).symm⟩, [], [], ?_, ?_, rfl⟩
          · have hm0 : min (a :: as2).length
                (List.length ([] : List Term)) = 0 := by
              simp
            rw [hm0, List.take_zero]
            exact List.Forall₂.nil
          · rw [List.take_nil]
            exact List.Forall₂.nil
        | cons b bs2 =>
          have h' : (match unifyN fuel σ a b with
              | none => none
              | some none => some none
              | some (some σ3) => unifyArgsN fuel σ3 as2 bs2)
              = some (some σ2) := h
          cases hab : unifyN fuel σ a b with
          | none => rw [hab] at h'; simp at h'
          | some o =>
            rw [hab] at h'
            cases o with
            | none => simp at h'
            | some σ3 =>
              obtain ⟨hG3, ⟨Δ1, hΔ1⟩, u, v, hu, hv, he⟩ :=
                ihU σ a b σ3 hG hab
              obtain ⟨hG2, ⟨Δ2, hΔ2⟩, us, vs, hFu, hFv, hpeq⟩ :=
                ihA σ3 as2 bs2 σ2 hG3 h'
              subst hΔ2
              obtain ⟨u2, hu2a, hu2b⟩ := applyR_lift hG2 hu
              obtain ⟨v2, hv2a, hv2b⟩ := applyR_lift hG2 hv
              have he2 : Term.eqv u2 v2 = true := eqv_apply hG2 he hu2b hv2b
              have hmin : min (a :: as2).length (b :: bs2).length =
                  min as2.length bs2.length + 1 := by
                simp [List.length_cons, Nat.succ_min_succ]
              refine ⟨hG2, ⟨Δ1 ++ Δ2, by rw [hΔ1, List.append_assoc]⟩,
                u2 :: us, v2 :: vs, ?_, ?_, ?_⟩
              · rw [hmin, List.take_succ_cons]
                exact List.Forall₂.cons hu2a hFu
              · rw [hmin, List.take_succ_cons]
                exact List.Forall₂.cons hv2a hFv
              · have he2' : Term.peq u2.norm v2.norm = true := he2
                show (Term.peq u2.norm v2.norm &&
                  Term.peqList (Term.normList us) (Term.normList vs)) = true
                rw [he2', hpeq]
                rfl

/-- On a fully-applied expression, the fueled arithmetic evaluator
computes the pure declarative evaluation (numeric atoms evaluate to
themselves, binary `+ - * /` apply the operation to recursively
evaluated children, division by zero and every other shape fail). -/
theorem evalArith_pure {σ : Subst} :
    ∀ {n : Nat} {expr : Term}, (∀ y ∈ Term.vars expr, find1 σ y = none) →
      ∀ {r : Option PyNum}, evalArithN σ n expr = some r →
        r = evalPure expr := by
  intro n
  induction n with
  | zero => intro expr _ r h; simp [evalArithN] at h
  | succ k ih =>
    intro expr hub r h
    rw [evalArithN] at h
    have hfix : ApplyR σ expr expr := applyR_fix σ expr hub
    cases ha : applyN σ k expr with
    | none => rw [ha] at h; simp at h
    | some e2 =>
      rw [ha] at h
      have he2 : e2 = expr := ApplyR_det ⟨k, ha⟩ hfix
      subst he2
      cases e2 with
      | atom v =>
        cases v with
        | int m => exact (Option.some.inj h).symm
        | float q => exact (Option.some.inj h).symm
        | str s => exact (Option.some.inj h).symm
      | var x => exact (Option.some.inj h).symm
      | list es tl => exact (Option.some.inj h).symm
      | comp f args =>
        cases args with
        | nil => exact (Option.some.inj h).symm
        | cons a args2 =>
          cases args2 with
          | nil => exact (Option.some.inj h).symm
          | cons b args3 =>
            cases args3 with
            | cons c args4 => exact (Option.some.inj h).symm
            | nil =>
              simp only [] at h
              have huba : ∀ y ∈ Term.vars a, find1 σ y = none := by
                intro y hy
                refine hub y ?_
                show y ∈ Term.vars a ++ (Term.vars b ++ [])
                exact List.mem_append.mpr (Or.inl hy)
              have hubb : ∀ y ∈ Term.vars b, find1 σ y = none := by
                intro y hy
                refine hub y ?_
                show y ∈ Term.vars a ++ (Term.vars b ++ [])
                exact List.mem_append.mpr (Or.inr (List.mem_append.mpr (Or.inl hy)))
              have hEP : evalPure (Term.comp f [a, b]) =
                  (if f = "+" then
                    match evalPure a, evalPure b with
                    | some va, some vb => some (va.add vb)
                    | _, _ => none
                  else if f = "-" then
                    match evalPure a, evalPure b with
                    | some va, some vb => some (va.sub vb)
                    | _, _ => none
                  else if f = "*" then
                    match evalPure a, evalPure b with
                    | some va, some vb => some (va.mul vb)
                    | _, _ => none
                  else if f = "/" then
                    match evalPure a, evalPure b with
                    | some va, some vb =>
                      if vb.isZero then none else some (va.divF vb)
                    | _, _ => none
                  else none) := rfl
              rw [hEP]
              by_cases hf1 : f = "+"
              · rw [if_pos hf1] at h ⊢
                cases hA : evalArithN σ k a with
                | none => rw [hA] at h; simp at h
                | some ra =>
                  rw [hA] at h
                  rw [← ih huba hA]
                  cases ra with
                  | none => exact (Option.some.inj h).symm
                  | some va =>
                    cases hB : evalArithN σ k b with
                    | none => rw [hB] at h; simp at h
                    | some rb =>
                      rw [hB] at h
                      rw [← ih hubb hB]
                      cases rb with
                      | none => exact (Option.some.inj h).symm
                      | some vb => exact (Option.some.inj h).symm
              · rw [if_neg hf1] at h ⊢
                by_cases hf2 : f = "-"
                · rw [if_pos hf2] at h ⊢
                  cases hA : evalArithN σ k a with
                  | none => rw [hA] at h; simp at h
                  | some ra =>
                    rw [hA] at h
                    rw [← ih huba hA]
                    cases ra with
                    | none => exact (Option.some.inj h).symm
                    | some va =>
                      cases hB : evalArithN σ k b with
                      | none => rw [hB] at h; simp at h
                      | some rb =>
                        rw [hB] at h
                        rw [← ih hubb hB]
                        cases rb with
                        | none => exact (Option.some.inj h).symm
                        | some vb => exact (Option.some.inj h).symm
                · rw [if_neg hf2] at h ⊢
                  by_cases hf3 : f = "*"
                  · rw [if_pos hf3] at h ⊢
                    cases hA : evalArithN σ k a with
                    | none => rw [hA] at h; simp at h
                    | some ra =>
                      rw [hA] at h
                      rw [← ih huba hA]
                      cases ra with
                      | none => exact (Option.some.inj h).symm
                      | some va =>
                        cases hB : evalArithN σ k b with
                        | none => rw [hB] at h; simp at h
                        | some rb =>
                          rw [hB] at h
                          rw [← ih hubb hB]
                          cases rb with
                          | none => exact (Option.some.inj h).symm
                          | some vb => exact (Option.some.inj h).symm
                  · rw [if_neg hf3] at h ⊢
                    by_cases hf4 : f = "/"
                    · rw [if_pos hf4] at h ⊢
                      cases hA : evalArithN σ k a with
                      | none => rw [hA] at h; simp at h
                      | some ra =>
                        rw [hA] at h
                        rw [← ih huba hA]
                        cases ra with
                        | none => exact (Option.some.inj h).symm
                        | some va =>
                          cases hB : evalArithN σ k b with
                          | none => rw [hB] at h; simp at h
                          | some rb =>
                            rw [hB] at h
                            rw [← ih hubb hB]
                            cases rb with
                            | none => exact (Option.some.inj h).symm
                            | some vb =>
                              simp only [] at h ⊢
                              cases hz : vb.isZero with
                              | true =>
                                rw [hz] at h
                                exact (Option.some.inj h).symm
                              | false =>
                                rw [hz] at h
                                exact (Option.some.inj h).symm
                    · rw [if_neg hf4] at h ⊢
                      exact (Option.some.inj h).symm

/-! ## Claims -/

/-- **C1 (counterexample)**: unifying the proper list `[1 2 3]` with the
head/tail pattern `[H | T]` succeeds with `{H ↦ 1, T ↦ [2 3]}`, but the
two applied results — `[1 2 3]` versus the nested `[1 | [2 3]]` — are
*not* structurally equal (neither as Lean values nor under Python `==`
on the frozen dataclasses, shown by `Term.peq` being `false`): the claim
that `σ.apply(s)` is structurally equal to `σ.apply(t)` fails. -/
theorem c1_structural_equality_counterexample :
    unifyN 20 [] (Term.list [atomI 1, atomI 2, atomI 3] none)
        (Term.list [Term.var "H"] (some (Term.var "T")))
      = some (some [("H", atomI 1),
          ("T", Term.list [atomI 2, atomI 3] none)]) ∧
    applyN [("H", atomI 1), ("T", Term.list [atomI 2, atomI 3] none)] 20
        (Term.list [atomI 1, atomI 2, atomI 3] none)
      = some (Term.list [atomI 1, atomI 2, atomI 3] none) ∧
    applyN [("H", atomI 1), ("T", Term.list [atomI 2, atomI 3] none)] 20
        (Term.list [Term.var "H"] (some (Term.var "T")))
      = some (Term.list [atomI 1]
          (some (Term.list [atomI 2, atomI 3] none))) ∧
    Term.list [atomI 1, atomI 2, atomI 3] none
      ≠ Term.list [atomI 1] (some (Term.list [atomI 2, atomI 3] none)) ∧
    Term.peq (Term.list [atomI 1, atomI 2, atomI 3] none)
      (Term.list [atomI 1] (some (Term.list [atomI 2, atomI 3] none)))
      = false := by
  refine ⟨by decide, by decide, by decide, by decide, by decide⟩

/-- **C1 (amended)**: if `unify(s, t, ∅)` succeeds with substitution
`σ₂`, then applying `σ₂` to `s` and to `t` terminates, and the two
results are equal up to list-spine normalization (flattening
`[a | [b c]]` to `[a b c]`) with Python `==` at the atoms. -/
theorem c1_unifier_correctness_amended (s t : Term) (n : Nat) (σ2 : Subst)
    (h : unifyN n [] s t = some (some σ2)) :
    ∃ u v, ApplyR σ2 s u ∧ ApplyR σ2 t v ∧ Term.eqv u v = true :=
  ((unify_sound_main n).1 [] s t σ2 Good_nil h).2.2

theorem c1_unifier_correctness_amended_witness :
    unifyN 20 [] (Term.list [atomI 1, atomI 2, atomI 3] none)
        (Term.list [Term.var "H"] (some (Term.var "T")))
      = some (some [("H", atomI 1),
          ("T", Term.list [atomI 2, atomI 3] none)]) ∧
    ∃ u v,
      ApplyR [("H", atomI 1), ("T", Term.list [atomI 2, atomI 3] none)]
        (Term.list [atomI 1, atomI 2, atomI 3] none) u ∧
      ApplyR [("H", atomI 1), ("T", Term.list [atomI 2, atomI 3] none)]
        (Term.list [Term.var "H"] (some (Term.var "T"))) v ∧
      Term.eqv u v = true :=
  ⟨by decide,
   c1_unifier_correctness_amended
     (Term.list [atomI 1, atomI 2, atomI 3] none)
     (Term.list [Term.var "H"] (some (Term.var "T"))) 20
     [("H", atomI 1), ("T", Term.list [atomI 2, atomI 3] none)]
     (by decide)⟩

/-- **C5 (counterexample)**: for the argument pair `(a, 2)` the
expression `2` evaluates arithmetically (to the number 2, both for the
declarative evaluation rules and for the source evaluator), yet the
`is` built-in yields *zero* solutions, because the unification of the
symbolic atom `a` with the numeric atom `2` fails: "yields exactly one
solution when e evaluates arithmetically" is wrong. -/
theorem c5_is_builtin_counterexample :
    evalPure (atomI 2) = some (.int 2) ∧
    evalArithN [] 9 (atomI 2) = some (some (.int 2)) ∧
    arithmeticEvalN 9 [atomS "a", atomI 2] [] = some [] := by
  refine ⟨by decide, by decide, by decide⟩

/-- **C5 (amended)**: whenever the `is` handler terminates on the
argument pair `(t, e)` under any substitution, the applied expression
either fails to evaluate under the declarative arithmetic rules
(numeric atoms evaluate to themselves; binary `+ - * /` evaluate both
children and apply the operation; division by zero and every other
shape fail) and the handler yields zero solutions with no error, or
it evaluates to a number `v` and the handler yields exactly the
solutions of `unify(t, Atom(v), σ)`: the updated substitution on
success, nothing on failure. -/
theorem c5_is_builtin_amended (t e : Term) (σ : Subst) (fuel : Nat)
    (res : List Subst)
    (h : arithmeticEvalN fuel [t, e] σ = some res) :
    ∃ expr, ApplyR σ e expr ∧
      ((evalPure expr = none ∧ res = []) ∨
       (∃ v, evalPure expr = some v ∧
         ((∃ σ2, UnifyR σ t (Term.atom v.toVal) (some σ2) ∧ res = [σ2]) ∨
          (UnifyR σ t (Term.atom v.toVal) none ∧ res = [])))) := by
  cases fuel with
  | zero => simp [arithmeticEvalN] at h
  | succ k =>
    have h' : (match applyN σ k e with
        | none => none
        | some expr =>
          match evalArithN σ k expr with
          | none => none
          | some none => some []
          | some (some v) =>
            match unifyN k σ t (Term.atom v.toVal) with
            | none => none
            | some none => some []
            | some (some σ2) => some [σ2]) = some res := h
    cases ha : applyN σ k e with
    | none => rw [ha] at h'; simp at h'
    | some expr =>
      rw [ha] at h'
      simp only [] at h'
      have hub : ∀ y ∈ Term.vars expr, find1 σ y = none :=
        fun y hy => applyN_unbound_any ha y hy
      cases hev : evalArithN σ k expr with
      | none => rw [hev] at h'; simp at h'
      | some r =>
        rw [hev] at h'
        have hre : r = evalPure expr := evalArith_pure hub hev
        refine ⟨expr, ⟨k, ha⟩, ?_⟩
        cases r with
        | none =>
          left
          have h2 : some ([] : List Subst) = some res := h'
          exact ⟨hre.symm, (Option.some.inj h2).symm⟩
        | some v =>
          right
          refine ⟨v, hre.symm, ?_⟩
          simp only [] at h'
          cases hun : unifyN k σ t (Term.atom v.toVal) with
          | none => rw [hun] at h'; simp at h'
          | some o =>
            rw [hun] at h'
            cases o with
            | none =>
              right
              have h2 : some ([] : List Subst) = some res := h'
              exact ⟨⟨k, hun⟩, (Option.some.inj h2).symm⟩
            | some σ2 =>
              left
              have h2 : some [σ2] = some res := h'
              exact ⟨σ2, ⟨k, hun⟩, (Option.some.inj h2).symm⟩

theorem c5_is_builtin_amended_witness :
    arithmeticEvalN 9
        [Term.var "X", Term.comp "+" [atomI 2, Term.comp "*" [atomI 3, atomI 4]]]
        [] = some [[("X", atomI 14)]] ∧
    ∃ expr, ApplyR []
        (Term.comp "+" [atomI 2, Term.comp "*" [atomI 3, atomI 4]]) expr ∧
      ((evalPure expr = none ∧ [[("X", atomI 14)]] = ([] : List Subst)) ∨
       (∃ v, evalPure expr = some v ∧
         ((∃ σ2, UnifyR [] (Term.var "X") (Term.atom v.toVal) (some σ2) ∧
            [[("X", atomI 14)]] = [σ2]) ∨
          (UnifyR [] (Term.var "X") (Term.atom v.toVal) none ∧
            [[("X", atomI 14)]] = ([] : List Subst))))) :=
  ⟨by decide,
   c5_is_builtin_amended (Term.var "X")
     (Term.comp "+" [atomI 2, Term.comp "*" [atomI 3, atomI 4]]) [] 9
     [[("X", atomI 14)]] (by decide)⟩

/-- On the self-referential substitution `{X ↦ f(X)}`, `apply` diverges
on both `X` and `f(X)`: no amount of fuel suffices. -/
theorem cyclic_apply : ∀ n : Nat,
    applyN [("X", Term.comp "f" [Term.var "X"])] n (Term.var "X") = none ∧
    applyN [("X", Term.comp "f" [Term.var "X"])] n
      (Term.comp "f" [Term.var "X"]) = none := by
  intro n
  induction n with
  | zero => exact ⟨rfl, rfl⟩
  | succ m ih =>
    constructor
    · cases m with
      | zero => rfl
      | succ k =>
        rw [applyN]
        have hw : walkChain [("X", Term.comp "f" [Term.var "X"])] (k + 1)
            (Term.comp "f" [Term.var "X"])
            = some (Term.comp "f" [Term.var "X"]) :=
          walkChain_nonvar (fun y => by simp)
        have hlk : lookupS [("X", Term.comp "f" [Term.var "X"])] (k + 1) "X"
            = some (some (Term.comp "f" [Term.var "X"])) := by
          show (walkChain [("X", Term.comp "f" [Term.var "X"])] (k + 1)
            (Term.comp "f" [Term.var "X"])).map some
            = some (some (Term.comp "f" [Term.var "X"]))
          rw [hw]
          rfl
        rw [hlk]
        exact ih.2
    · rw [applyN]
      have hm : ([Term.var "X"].mapM
          (applyN [("X", Term.comp "f" [Term.var "X"])] m)) = none := by
        rw [List.mapM_cons, ih.1]
        rfl
      rw [hm]
      rfl

/-- **C4 (counterexample)**: `solve` does *not* always terminate.  With
the empty database, the single goal `X` and the self-referential
substitution `{X ↦ f(X)}` at depth `0` (below the limit), the source
loops forever inside `Substitution.apply`: in the fuel model, the
computation returns "still running" at every fuel. -/
theorem c4_solve_divergence_counterexample :
    (fun fuel : Nat => solveN [] 1000 fuel [Term.var "X"]
      [("X", Term.comp "f" [Term.var "X"])] 0 0)
      = (fun _ : Nat => none) := by
  funext fuel
  cases fuel with
  | zero => rfl
  | succ k =>
    rw [solveN, if_neg (by decide)]
    rw [(cyclic_apply k).1]

/-- **C4 (amended)**: whenever the depth exceeds the limit, `solve`
returns at once with no solutions (this part of the claim holds for
every database, goal list and substitution, at any sufficient fuel —
i.e. the call terminates immediately); unconditional termination,
however, fails (see the counterexample). -/
theorem c4_depth_cutoff_amended (db : List Clause) (limit fuel : Nat)
    (goals : List Term) (σ : Subst) (depth ctr : Nat)
    (hd : limit < depth) (hf : 1 ≤ fuel) :
    solveN db limit fuel goals σ depth ctr = some ([], ctr) := by
  cases fuel with
  | zero => exact absurd hf (by omega)
  | succ k =>
    rw [solveN.eq_def]
    simp only []
    rw [if_pos hd]

theorem c4_depth_cutoff_amended_witness :
    1000 < 1001 ∧ 1 ≤ 5 ∧
    solveN dbS3 1000 5 [Term.comp "parent" [Term.var "X", Term.var "Y"]]
      [] 1001 7 = some ([], 7) :=
  ⟨by decide, by decide,
   c4_depth_cutoff_amended dbS3 1000 5
     [Term.comp "parent" [Term.var "X", Term.var "Y"]] [] 1001 7
     (by decide) (by decide)⟩

/-! ## Tokenizer lemmas -/

theorem identStart_class {c : Char} (h : (c.isAlpha || c = '_') = true) :
    c.isWhitespace = false ∧ c ≠ '%' ∧ c ≠ '(' ∧ c ≠ ')' ∧ c ≠ '[' ∧
    c ≠ ']' ∧ c ≠ '|' ∧ c.isDigit = false := by
  rcases (Bool.or_eq_true _ _).mp h with h1 | h1
  · simp [Char.isAlpha, Char.isUpper, Char.isLower, UInt32.le_def,
      BitVec.le_def] at h1
    refine ⟨?_, ?_, ?_, ?_, ?_, ?_, ?_, ?_⟩ <;>
      simp [Char.isWhitespace, Char.isDigit, Char.ext_iff, UInt32.ext_iff,
        BitVec.toNat_eq, UInt32.size, UInt32.toNat, UInt32.le_def,
        BitVec.le_def] <;> omega
  · have hc : c = '_' := by simpa using h1
    subst hc
    exact ⟨by decide, by decide, by decide, by decide, by decide, by decide,
      by decide, by decide⟩

theorem digit_class {c : Char} (h : c.isDigit = true) :
    c.isWhitespace = false ∧ c ≠ '%' ∧ c ≠ '(' ∧ c ≠ ')' ∧ c ≠ '[' ∧
    c ≠ ']' ∧ c ≠ '|' := by
  simp [Char.isDigit, UInt32.le_def, BitVec.le_def] at h
  refine ⟨?_, ?_, ?_, ?_, ?_, ?_, ?_⟩ <;>
    simp [Char.isWhitespace, Char.ext_iff, UInt32.ext_iff,
      BitVec.toNat_eq, UInt32.size, UInt32.toNat, UInt32.le_def,
      BitVec.le_def] <;> omega

theorem isLower_not_upper {c : Char} (h : c.isLower = true) :
    (c.isUpper || c = '_') = false := by
  simp [Char.isLower, UInt32.le_def, BitVec.le_def] at h
  simp [Char.isUpper, Char.ext_iff, UInt32.ext_iff, BitVec.toNat_eq,
    UInt32.size, UInt32.toNat, UInt32.le_def, BitVec.le_def]
  omega

theorem isLower_start {c : Char} (h : c.isLower = true) :
    (c.isAlpha || c = '_') = true := by
  simp [Char.isLower, UInt32.le_def, BitVec.le_def] at h
  simp [Char.isAlpha, Char.isUpper, Char.isLower, UInt32.le_def,
    BitVec.le_def]
  omega

theorem upperUnderscore_start {c : Char} (h : (c.isUpper || c = '_') = true) :
    (c.isAlpha || c = '_') = true := by
  rcases (Bool.or_eq_true _ _).mp h with h1 | h1
  · rw [Bool.or_eq_true]
    left
    rw [Char.isAlpha, h1]
    rfl
  · rw [Bool.or_eq_true]
    right
    exact h1

theorem isAlpha_not_upper_lower {c : Char} (h : c.isAlpha = true)
    (h2 : (c.isUpper || c = '_') = false) : c.isLower = true := by
  rw [Char.isAlpha, Bool.or_eq_true] at h
  rcases h with h1 | h1
  · rw [Bool.or_eq_false_iff] at h2
    rw [h1] at h2
    exact absurd h2.1 (by simp)
  · exact h1

theorem tokMain_space (cs : List Char) : tokMain (' ' :: cs) = tokMain cs := rfl

theorem tokMain_lparen (cs : List Char) :
    tokMain ('(' :: cs) = (tokMain cs).map (.lparen :: ·) := rfl

theorem tokMain_rparen (cs : List Char) :
    tokMain (')' :: cs) = (tokMain cs).map (.rparen :: ·) := rfl

theorem tokMain_lbracket (cs : List Char) :
    tokMain ('[' :: cs) = (tokMain cs).map (.lbracket :: ·) := rfl

theorem tokMain_rbracket (cs : List Char) :
    tokMain (']' :: cs) = (tokMain cs).map (.rbracket :: ·) := rfl

theorem tokMain_pipe (cs : List Char) :
    tokMain ('|' :: cs) = (tokMain cs).map (.pipe :: ·) := rfl

theorem tokMain_identStart {c : Char} (cs : List Char)
    (h : (c.isAlpha || c = '_') = true) :
    tokMain (c :: cs) = tokIdent [c] cs := by
  obtain ⟨h1, h2, h3, h4, h5, h6, h7, h8⟩ := identStart_class h
  rw [tokMain]
  rw [if_neg (by simp [h1]), if_neg h2, if_neg h3, if_neg h4, if_neg h5,
    if_neg h6, if_neg h7, if_neg (by simp [h8]), if_pos h]

theorem tokMain_digitStart {c : Char} (cs : List Char)
    (h : c.isDigit = true) :
    tokMain (c :: cs) = tokNum [c] false cs := by
  obtain ⟨h1, h2, h3, h4, h5, h6, h7⟩ := digit_class h
  rw [tokMain]
  rw [if_neg (by simp [h1]), if_neg h2, if_neg h3, if_neg h4, if_neg h5,
    if_neg h6, if_neg h7, if_pos h]

theorem tokIdent_run :
    ∀ (ds : List Char) (acc rest : List Char),
      (∀ d ∈ ds, (d.isAlphanum || d = '_') = true) →
      tokIdent acc (ds ++ rest) = tokIdent (acc ++ ds) rest := by
  intro ds
  induction ds with
  | nil =>
    intro acc rest _
    rw [List.nil_append, List.append_nil]
  | cons d ds ih =>
    intro acc rest hds
    rw [List.cons_append, tokIdent,
      if_pos (hds d (List.mem_cons_self d ds))]
    rw [ih (acc ++ [d]) rest (fun e he => hds e (List.mem_cons_of_mem d he)),
      List.append_assoc]
    rfl

theorem tokNum_run :
    ∀ (ds : List Char) (acc rest : List Char),
      (∀ d ∈ ds, d.isDigit = true) →
      tokNum acc false (ds ++ rest) = tokNum (acc ++ ds) false rest := by
  intro ds
  induction ds with
  | nil =>
    intro acc rest _
    rw [List.nil_append, List.append_nil]
  | cons d ds ih =>
    intro acc rest hds
    rw [List.cons_append, tokNum,
      if_pos (hds d (List.mem_cons_self d ds))]
    rw [ih (acc ++ [d]) rest (fun e he => hds e (List.mem_cons_of_mem d he)),
      List.append_assoc]
    rfl

theorem sepHead_elim {rest : List Char} (h : sepHead rest = true) :
    rest = [] ∨ ∃ rs, rest = ' ' :: rs ∨ rest = '(' :: rs ∨
      rest = ')' :: rs ∨ rest = '[' :: rs ∨ rest = ']' :: rs ∨
      rest = '|' :: rs := by
  cases rest with
  | nil => exact Or.inl rfl
  | cons c rs =>
    right
    refine ⟨rs, ?_⟩
    have h2 : ((((c = ' ' ∨ c = '(') ∨ c = ')') ∨ c = '[') ∨ c = ']')
        ∨ c = '|' := by
      simpa [sepHead] using h
    rcases h2 with ((((rfl | rfl) | rfl) | rfl) | rfl) | rfl
    · exact Or.inl rfl
    · exact Or.inr (Or.inl rfl)
    · exact Or.inr (Or.inr (Or.inl rfl))
    · exact Or.inr (Or.inr (Or.inr (Or.inl rfl)))
    · exact Or.inr (Or.inr (Or.inr (Or.inr (Or.inl rfl))))
    · exact Or.inr (Or.inr (Or.inr (Or.inr (Or.inr rfl))))

theorem tokIdent_sep (acc : List Char) {rest : List Char}
    (h : sepHead rest = true) :
    tokIdent acc rest = (tokMain rest).map (identTokOf acc :: ·) := by
  rcases sepHead_elim h with rfl | ⟨rs, hc | hc | hc | hc | hc | hc⟩ <;>
    try subst hc
  · rfl
  · show (tokMain rs).map (identTokOf acc :: ·)
      = (tokMain rs).map (identTokOf acc :: ·)
    rfl
  · show (tokMain rs).map (fun ts => identTokOf acc :: Token.lparen :: ts)
      = ((tokMain rs).map (Token.lparen :: ·)).map (identTokOf acc :: ·)
    cases tokMain rs <;> rfl
  · show (tokMain rs).map (fun ts => identTokOf acc :: Token.rparen :: ts)
      = ((tokMain rs).map (Token.rparen :: ·)).map (identTokOf acc :: ·)
    cases tokMain rs <;> rfl
  · show (tokMain rs).map (fun ts => identTokOf acc :: Token.lbracket :: ts)
      = ((tokMain rs).map (Token.lbracket :: ·)).map (identTokOf acc :: ·)
    cases tokMain rs <;> rfl
  · show (tokMain rs).map (fun ts => identTokOf acc :: Token.rbracket :: ts)
      = ((tokMain rs).map (Token.rbracket :: ·)).map (identTokOf acc :: ·)
    cases tokMain rs <;> rfl
  · show (tokMain rs).map (fun ts => identTokOf acc :: Token.pipe :: ts)
      = ((tokMain rs).map (Token.pipe :: ·)).map (identTokOf acc :: ·)
    cases tokMain rs <;> rfl

theorem tokNum_sep (acc : List Char) (hasDot : Bool) {rest : List Char}
    (h : sepHead rest = true) :
    tokNum acc hasDot rest = (tokMain rest).map (numTokOf acc :: ·) := by
  rcases sepHead_elim h with rfl | ⟨rs, hc | hc | hc | hc | hc | hc⟩ <;>
    try subst hc
  · rfl
  · show (tokMain rs).map (numTokOf acc :: ·)
      = (tokMain rs).map (numTokOf acc :: ·)
    rfl
  · show (tokMain rs).map (fun ts => numTokOf acc :: Token.lparen :: ts)
      = ((tokMain rs).map (Token.lparen :: ·)).map (numTokOf acc :: ·)
    cases tokMain rs <;> rfl
  · show (tokMain rs).map (fun ts => numTokOf acc :: Token.rparen :: ts)
      = ((tokMain rs).map (Token.rparen :: ·)).map (numTokOf acc :: ·)
    cases tokMain rs <;> rfl
  · show (tokMain rs).map (fun ts => numTokOf acc :: Token.lbracket :: ts)
      = ((tokMain rs).map (Token.lbracket :: ·)).map (numTokOf acc :: ·)
    cases tokMain rs <;> rfl
  · show (tokMain rs).map (fun ts => numTokOf acc :: Token.rbracket :: ts)
      = ((tokMain rs).map (Token.rbracket :: ·)).map (numTokOf acc :: ·)
    cases tokMain rs <;> rfl
  · show (tokMain rs).map (fun ts => numTokOf acc :: Token.pipe :: ts)
      = ((tokMain rs).map (Token.pipe :: ·)).map (numTokOf acc :: ·)
    cases tokMain rs <;> rfl

theorem validAtomName_elim {s : List Char} (h : validAtomName s = true) :
    ∃ c cs, s = c :: cs ∧ c.isLower = true ∧
      ∀ d ∈ cs, (d.isAlphanum || d = '_') = true := by
  cases s with
  | nil => simp [validAtomName] at h
  | cons c cs =>
    have h' : (c.isLower && cs.all (fun d => d.isAlphanum || d = '_'))
        = true := h
    rw [Bool.and_eq_true] at h'
    refine ⟨c, cs, rfl, h'.1, fun d hd => ?_⟩
    have h2 := h'.2
    rw [List.all_eq_true] at h2
    exact h2 d hd

theorem validVarName_elim {s : List Char} (h : validVarName s = true) :
    ∃ c cs, s = c :: cs ∧ (c.isUpper || c = '_') = true ∧
      ∀ d ∈ cs, (d.isAlphanum || d = '_') = true := by
  cases s with
  | nil => simp [validVarName] at h
  | cons c cs =>
    have h' : ((c.isUpper || c = '_')
        && cs.all (fun d => d.isAlphanum || d = '_')) = true := h
    rw [Bool.and_eq_true] at h'
    refine ⟨c, cs, rfl, h'.1, fun d hd => ?_⟩
    have h2 := h'.2
    rw [List.all_eq_true] at h2
    exact h2 d hd

theorem tokMain_readAtom {s : List Char} (hv : validAtomName s = true)
    {rest : List Char} (hsep : sepHead rest = true) :
    tokMain (s ++ rest) = (tokMain rest).map (Token.atomT s :: ·) := by
  obtain ⟨c, cs, rfl, hc, hcs⟩ := validAtomName_elim hv
  rw [List.cons_append, tokMain_identStart _ (isLower_start hc),
    tokIdent_run cs [c] rest hcs, tokIdent_sep _ hsep]
  have hid : identTokOf ([c] ++ cs) = Token.atomT (c :: cs) := by
    show identTokOf (c :: cs) = Token.atomT (c :: cs)
    rw [identTokOf, if_neg (by simp [isLower_not_upper hc])]
  rw [hid]

theorem tokMain_readVar {s : List Char} (hv : validVarName s = true)
    {rest : List Char} (hsep : sepHead rest = true) :
    tokMain (s ++ rest) = (tokMain rest).map (Token.varT s :: ·) := by
  obtain ⟨c, cs, rfl, hc, hcs⟩ := validVarName_elim hv
  rw [List.cons_append, tokMain_identStart _ (upperUnderscore_start hc),
    tokIdent_run cs [c] rest hcs, tokIdent_sep _ hsep]
  have hid : identTokOf ([c] ++ cs) = Token.varT (c :: cs) := by
    show identTokOf (c :: cs) = Token.varT (c :: cs)
    rw [identTokOf, if_pos hc]
  rw [hid]

theorem natDecAux_digits :
    ∀ fuel n, ∀ ch ∈ natDecAux fuel n, ch.isDigit = true := by
  intro fuel
  induction fuel with
  | zero => intro n ch hch; simp [natDecAux] at hch
  | succ k ih =>
    intro n ch hch
    rw [natDecAux] at hch
    by_cases hn : n < 10
    · rw [if_pos hn] at hch
      simp only [List.mem_singleton] at hch
      subst hch
      have hd : ∀ m, m < 10 → (Char.ofNat (48 + m)).isDigit = true := by decide
      exact hd n hn
    · rw [if_neg hn] at hch
      rcases List.mem_append.mp hch with h1 | h2
      · exact ih (n / 10) ch h1
      · simp only [List.mem_singleton] at h2
        subst h2
        have hd : ∀ m, m < 10 → (Char.ofNat (48 + m)).isDigit = true := by
          decide
        exact hd (n % 10) (Nat.mod_lt n (by omega))

theorem natDec_ne_nil (n : Nat) : natDec n ≠ [] := by
  rw [natDec, natDecAux]
  by_cases hn : n < 10
  · rw [if_pos hn]
    simp
  · rw [if_neg hn]
    simp

theorem numTokOf_digits {ds : List Char} (h : ∀ d ∈ ds, d.isDigit = true) :
    numTokOf ds = Token.numT (.int (digitsToNat ds)) := by
  have hmem : ¬ ('.' ∈ ds) := fun hm => absurd (h '.' hm) (by decide)
  rw [numTokOf, if_neg (by simpa using hmem)]

theorem tokMain_readInt (n : Nat) {rest : List Char}
    (hsep : sepHead rest = true) :
    tokMain (natDec n ++ rest)
      = (tokMain rest).map (Token.numT (.int n) :: ·) := by
  cases hnd : natDec n with
  | nil => exact absurd hnd (natDec_ne_nil n)
  | cons d ds =>
    have hall : ∀ ch ∈ natDec n, ch.isDigit = true :=
      natDecAux_digits (n + 1) n
    have hd : d.isDigit = true := hall d (by rw [hnd]; exact List.mem_cons_self d ds)
    have hds : ∀ e ∈ ds, e.isDigit = true :=
      fun e he => hall e (by rw [hnd]; exact List.mem_cons_of_mem d he)
    rw [List.cons_append, tokMain_digitStart _ hd, tokNum_run ds [d] rest hds,
      tokNum_sep _ _ hsep]
    have hnum : numTokOf ([d] ++ ds) = Token.numT (.int n) := by
      show numTokOf (d :: ds) = Token.numT (.int n)
      rw [← hnd, numTokOf_digits hall, natDec,
        natDecAux_val (n + 1) n (Nat.lt_succ_self n)]
    rw [hnum]

/-- Tokenizing the printed form of a well-formed, float-free term
prepended to any separator-headed remainder yields the term's token
sequence followed by the remainder's tokens. -/
theorem tokMain_print_aux :
    ∀ t : Term, wfTerm t = true → noFloat t = true →
      ∀ rest : List Char, sepHead rest = true →
        tokMain (printTerm t ++ rest)
          = (tokMain rest).map (tokensOf t ++ ·) := by
  refine @Term.rec
    (fun t => wfTerm t = true → noFloat t = true →
      ∀ rest : List Char, sepHead rest = true →
        tokMain (printTerm t ++ rest)
          = (tokMain rest).map (tokensOf t ++ ·))
    (fun ts => wfTermList ts = true → noFloatList ts = true →
      ∀ rest : List Char, sepHead rest = true →
        tokMain (printTermList ts ++ rest)
          = (tokMain rest).map (tokensList ts ++ ·))
    (fun otl => (match otl with
        | some t => wfTerm t
        | none => true) = true →
      (match otl with
        | some t => noFloat t
        | none => true) = true →
      ∀ rest : List Char, sepHead rest = true →
        (match otl with
         | some t => tokMain (printTerm t ++ rest)
             = (tokMain rest).map (tokensOf t ++ ·)
         | none => True))
    ?atomP ?varP ?compP ?listP ?nilP ?consP ?noneP ?someP
  case atomP =>
    intro v hw hf rest hsep
    cases v with
    | str s =>
      have hv : validAtomName s.data = true := hw
      show tokMain (s.data ++ rest)
        = (tokMain rest).map ([Token.atomT s.data] ++ ·)
      rw [tokMain_readAtom hv hsep]
      rfl
    | int n =>
      have h0 : (0 : Int) ≤ n := of_decide_eq_true hw
      have hn : ¬ (n < 0) := by omega
      show tokMain (printVal (.int n) ++ rest)
        = (tokMain rest).map ([Token.numT (.int n)] ++ ·)
      rw [printVal, if_neg hn, tokMain_readInt n.toNat hsep,
        Int.toNat_of_nonneg h0]
      rfl
    | float q => simp [noFloat] at hf
  case varP =>
    intro x hw hf rest hsep
    have hv : validVarName x.data = true := hw
    show tokMain (x.data ++ rest)
      = (tokMain rest).map ([Token.varT x.data] ++ ·)
    rw [tokMain_readVar hv hsep]
    rfl
  case compP =>
    intro f args ih hw hf rest hsep
    simp only [wfTerm] at hw
    rw [Bool.and_eq_true] at hw
    have hw' := hw
    have hfargs : noFloatList args = true := hf
    have hihs := ih hw'.2 hfargs
    by_cases hff : f = ""
    · rw [if_pos hff] at hw'
      cases args with
      | nil => simp at hw'
      | cons a args2 =>
        have hpr : printTerm (Term.comp f (a :: args2)) ++ rest
            = '(' :: (' ' :: (printTermList (a :: args2) ++ (')' :: rest))) := by
          show ('(' :: f.data ++ ' ' :: printTermList (a :: args2) ++ [')'])
              ++ rest
            = '(' :: (' ' :: (printTermList (a :: args2) ++ (')' :: rest)))
          rw [hff]
          simp
        rw [hpr, tokMain_lparen, tokMain_space,
          hihs (')' :: rest) (by rfl), tokMain_rparen]
        show _ = (tokMain rest).map
          ((Token.lparen :: (if f = "" then [] else [Token.atomT f.data]) ++
            tokensList (a :: args2) ++ [Token.rparen]) ++ ·)
        rw [if_pos hff]
        cases tokMain rest with
        | none => rfl
        | some ts => simp
    · rw [if_neg hff] at hw'
      have hvf : validAtomName f.data = true := hw'.1
      cases args with
      | nil =>
        have hpr : printTerm (Term.comp f []) ++ rest
            = '(' :: (f.data ++ (')' :: rest)) := by
          show ('(' :: f.data ++ [')']) ++ rest
            = '(' :: (f.data ++ (')' :: rest))
          simp
        rw [hpr, tokMain_lparen, tokMain_readAtom hvf (by rfl),
          tokMain_rparen]
        show _ = (tokMain rest).map
          ((Token.lparen :: (if f = "" then [] else [Token.atomT f.data]) ++
            tokensList ([] : List Term) ++ [Token.rparen]) ++ ·)
        rw [if_neg hff]
        cases tokMain rest with
        | none => rfl
        | some ts => simp [tokensList]
      | cons a args2 =>
        have hpr : printTerm (Term.comp f (a :: args2)) ++ rest
            = '(' :: (f.data ++ (' ' :: (printTermList (a :: args2)
                ++ (')' :: rest)))) := by
          show ('(' :: f.data ++ ' ' :: printTermList (a :: args2) ++ [')'])
              ++ rest
            = '(' :: (f.data ++ (' ' :: (printTermList (a :: args2)
                ++ (')' :: rest))))
          simp
        rw [hpr, tokMain_lparen, tokMain_readAtom hvf (by rfl),
          tokMain_space, hihs (')' :: rest) (by rfl), tokMain_rparen]
        show _ = (tokMain rest).map
          ((Token.lparen :: (if f = "" then [] else [Token.atomT f.data]) ++
            tokensList (a :: args2) ++ [Token.rparen]) ++ ·)
        rw [if_neg hff]
        cases tokMain rest with
        | none => rfl
        | some ts => simp
  case listP =>
    intro es tl ih1 ih2 hw hf rest hsep
    cases tl with
    | some t =>
      have hw' : (wfTermList es && wfTerm t) = true := hw
      rw [Bool.and_eq_true] at hw'
      have hf' : (noFloatList es && noFloat t) = true := hf
      rw [Bool.and_eq_true] at hf'
      have hihs := ih1 hw'.1 hf'.1
      have hih2 : ∀ rest : List Char, sepHead rest = true →
          tokMain (printTerm t ++ rest)
            = (tokMain rest).map (tokensOf t ++ ·) := ih2 hw'.2 hf'.2
      have hpr : printTerm (Term.list es (some t)) ++ rest
          = '[' :: (printTermList es ++ (' ' :: '|' :: ' ' ::
              (printTerm t ++ (']' :: rest)))) := by
        simp only [printTerm]
        simp
      rw [hpr, tokMain_lbracket, hihs _ (by rfl), tokMain_space,
        tokMain_pipe, tokMain_space, hih2 (']' :: rest) (by rfl),
        tokMain_rbracket]
      show _ = (tokMain rest).map
        ((Token.lbracket :: tokensList es ++
          (Token.pipe :: tokensOf t) ++ [Token.rbracket]) ++ ·)
      cases tokMain rest with
      | none => rfl
      | some ts => simp
    | none =>
      have hw' : (wfTermList es && true) = true := hw
      rw [Bool.and_eq_true] at hw'
      have hf' : (noFloatList es && true) = true := hf
      rw [Bool.and_eq_true] at hf'
      have hihs := ih1 hw'.1 hf'.1
      cases es with
      | nil =>
        have hpr : printTerm (Term.list [] none) ++ rest
            = '[' :: ']' :: rest := by
          show ['[', ']'] ++ rest = '[' :: ']' :: rest
          simp
        rw [hpr, tokMain_lbracket, tokMain_rbracket]
        show _ = (tokMain rest).map
          ((Token.lbracket :: tokensList ([] : List Term) ++ [] ++
            [Token.rbracket]) ++ ·)
        cases tokMain rest with
        | none => rfl
        | some ts => simp [tokensList]
      | cons e es2 =>
        have hpr : printTerm (Term.list (e :: es2) none) ++ rest
            = '[' :: (printTermList (e :: es2) ++ (']' :: rest)) := by
          show ('[' :: printTermList (e :: es2) ++ [']']) ++ rest
            = '[' :: (printTermList (e :: es2) ++ (']' :: rest))
          simp
        rw [hpr, tokMain_lbracket, hihs (']' :: rest) (by rfl),
          tokMain_rbracket]
        show _ = (tokMain rest).map
          ((Token.lbracket :: tokensList (e :: es2) ++ [] ++
            [Token.rbracket]) ++ ·)
        cases tokMain rest with
        | none => rfl
        | some ts => simp
  case nilP =>
    intro _ _ rest _
    show tokMain ([] ++ rest) = (tokMain rest).map (([] : List Token) ++ ·)
    rw [List.nil_append]
    cases tokMain rest with
    | none => rfl
    | some ts => rfl
  case consP =>
    intro t ts ih1 ih2 hw hf rest hsep
    have hw' : (wfTerm t && wfTermList ts) = true := hw
    rw [Bool.and_eq_true] at hw'
    have hf' : (noFloat t && noFloatList ts) = true := hf
    rw [Bool.and_eq_true] at hf'
    cases ts with
    | nil =>
      show tokMain (printTerm t ++ rest)
        = (tokMain rest).map ((tokensOf t ++ tokensList []) ++ ·)
      rw [ih1 hw'.1 hf'.1 rest hsep]
      cases tokMain rest with
      | none => rfl
      | some ts2 => simp [tokensList]
    | cons t2 ts2 =>
      have hpr : printTermList (t :: t2 :: ts2) ++ rest
          = printTerm t ++ (' ' :: (printTermList (t2 :: ts2) ++ rest)) := by
        show (printTerm t ++ ' ' :: printTermList (t2 :: ts2)) ++ rest
          = printTerm t ++ (' ' :: (printTermList (t2 :: ts2) ++ rest))
        simp
      rw [hpr, ih1 hw'.1 hf'.1 _ (by rfl), tokMain_space,
        ih2 hw'.2 hf'.2 rest hsep]
      show _ = (tokMain rest).map ((tokensOf t ++ tokensList (t2 :: ts2)) ++ ·)
      cases tokMain rest with
      | none => rfl
      | some ts3 => simp
  case noneP =>
    intro _ _ _ _
    trivial
  case someP =>
    intro t ih hw hf rest hsep
    exact ih hw hf rest hsep

/-- Tokenizing the printed form of a well-formed float-free term. -/
theorem tokMain_print (t : Term) (hw : wfTerm t = true)
    (hf : noFloat t = true) : tokMain (printTerm t) = some (tokensOf t) := by
  have h := tokMain_print_aux t hw hf [] (by rfl)
  rw [List.append_nil] at h
  rw [h]
  show some (tokensOf t ++ []) = some (tokensOf t)
  rw [List.append_nil]

/-- One continuation step of the argument loop, lifted by one unit of
fuel. -/
theorem parse_mono_args_step {k : Nat} (toks : List Token)
    {r : Option (List Term × List Token)}
    (ihT : ∀ {toks2 : List Token} {r2}, parseTermN k toks2 = some r2 →
      parseTermN (k + 1) toks2 = some r2)
    (ihA : ∀ {toks2 : List Token} {r2}, parseArgsN k toks2 = some r2 →
      parseArgsN (k + 1) toks2 = some r2)
    (h : (match parseTermN k toks with
          | none => none
          | some none => some none
          | some (some (t, rest)) =>
            match parseArgsN k rest with
            | none => none
            | some none => some none
            | some (some (ts, rest2)) => some (some (t :: ts, rest2)))
        = some r) :
    (match parseTermN (k + 1) toks with
      | none => none
      | some none => some none
      | some (some (t, rest)) =>
        match parseArgsN (k + 1) rest with
        | none => none
        | some none => some none
        | some (some (ts, rest2)) => some (some (t :: ts, rest2)))
      = some r := by
  cases hp : parseTermN k toks with
  | none => rw [hp] at h; simp at h
  | some o =>
    rw [hp] at h
    rw [ihT hp]
    cases o with
    | none => exact h
    | some pr =>
      obtain ⟨t1, rest2⟩ := pr
      simp only [] at h ⊢
      cases ha : parseArgsN k rest2 with
      | none => rw [ha] at h; simp at h
      | some o2 =>
        rw [ha] at h
        rw [ihA ha]
        exact h

theorem parse_mono_elems_step {k : Nat} (toks : List Token)
    {r : Option (List Term × Option Term × List Token)}
    (ihT : ∀ {toks2 : List Token} {r2}, parseTermN k toks2 = some r2 →
      parseTermN (k + 1) toks2 = some r2)
    (ihE : ∀ {toks2 : List Token} {r2}, parseElemsN k toks2 = some r2 →
      parseElemsN (k + 1) toks2 = some r2)
    (h : (match parseTermN k toks with
          | none => none
          | some none => some none
          | some (some (t, rest)) =>
            match parseElemsN k rest with
            | none => none
            | some none => some none
            | some (some (es, tl, rest2)) => some (some (t :: es, tl, rest2)))
        = some r) :
    (match parseTermN (k + 1) toks with
      | none => none
      | some none => some none
      | some (some (t, rest)) =>
        match parseElemsN (k + 1) rest with
        | none => none
        | some none => some none
        | some (some (es, tl, rest2)) => some (some (t :: es, tl, rest2)))
      = some r := by
  cases hp : parseTermN k toks with
  | none => rw [hp] at h; simp at h
  | some o =>
    rw [hp] at h
    rw [ihT hp]
    cases o with
    | none => exact h
    | some pr =>
      obtain ⟨t1, rest2⟩ := pr
      simp only [] at h ⊢
      cases he : parseElemsN k rest2 with
      | none => rw [he] at h; simp at h
      | some o2 =>
        rw [he] at h
        rw [ihE he]
        exact h

theorem parse_mono_special_step {k : Nat} (toks : List Token)
    {r : Option (Term × List Token)}
    (ihT : ∀ {toks2 : List Token} {r2}, parseTermN k toks2 = some r2 →
      parseTermN (k + 1) toks2 = some r2)
    (ihA : ∀ {toks2 : List Token} {r2}, parseArgsN k toks2 = some r2 →
      parseArgsN (k + 1) toks2 = some r2)
    (h : (match parseTermN k toks with
          | none => none
          | some none => some none
          | some (some (t1, rest2)) =>
            match parseArgsN k rest2 with
            | none => none
            | some none => some none
            | some (some (args, rest3)) =>
              some (some (Term.comp "" (t1 :: args), rest3)))
        = some r) :
    (match parseTermN (k + 1) toks with
      | none => none
      | some none => some none
      | some (some (t1, rest2)) =>
        match parseArgsN (k + 1) rest2 with
        | none => none
        | some none => some none
        | some (some (args, rest3)) =>
          some (some (Term.comp "" (t1 :: args), rest3)))
      = some r := by
  cases hp : parseTermN k toks with
  | none => rw [hp] at h; simp at h
  | some o =>
    rw [hp] at h
    rw [ihT hp]
    cases o with
    | none => exact h
    | some pr =>
      obtain ⟨t1, rest2⟩ := pr
      simp only [] at h ⊢
      cases ha : parseArgsN k rest2 with
      | none => rw [ha] at h; simp at h
      | some o2 =>
        rw [ha] at h
        rw [ihA ha]
        exact h

theorem parse_mono_functor_step {k : Nat} (f : List Char)
    (toks : List Token) {r : Option (Term × List Token)}
    (ihA : ∀ {toks2 : List Token} {r2}, parseArgsN k toks2 = some r2 →
      parseArgsN (k + 1) toks2 = some r2)
    (h : (match parseArgsN k toks with
          | none => none
          | some none => some none
          | some (some (args, rest3)) =>
            some (some (Term.comp (String.mk f) args, rest3)))
        = some r) :
    (match parseArgsN (k + 1) toks with
      | none => none
      | some none => some none
      | some (some (args, rest3)) =>
        some (some (Term.comp (String.mk f) args, rest3)))
      = some r := by
  cases ha : parseArgsN k toks with
  | none => rw [ha] at h; simp at h
  | some o2 =>
    rw [ha] at h
    rw [ihA ha]
    exact h

theorem parse_mono_listbody_step {k : Nat} (toks : List Token)
    {r : Option (Term × List Token)}
    (ihE : ∀ {toks2 : List Token} {r2}, parseElemsN k toks2 = some r2 →
      parseElemsN (k + 1) toks2 = some r2)
    (h : (match parseElemsN k toks with
          | none => none
          | some none => some none
          | some (some (es, tl, rest2)) => some (some (Term.list es tl, rest2)))
        = some r) :
    (match parseElemsN (k + 1) toks with
      | none => none
      | some none => some none
      | some (some (es, tl, rest2)) => some (some (Term.list es tl, rest2)))
      = some r := by
  cases he : parseElemsN k toks with
  | none => rw [he] at h; simp at h
  | some o2 =>
    rw [he] at h
    rw [ihE he]
    exact h

theorem parse_mono_pipe_step {k : Nat} (toks : List Token)
    {r : Option (List Term × Option Term × List Token)}
    (ihT : ∀ {toks2 : List Token} {r2}, parseTermN k toks2 = some r2 →
      parseTermN (k + 1) toks2 = some r2)
    (h : (match parseTermN k toks with
          | none => none
          | some none => some none
          | some (some (t, rest2)) =>
            match rest2 with
            | .rbracket :: rest3 => some (some ([], some t, rest3))
            | _ => some none)
        = some r) :
    (match parseTermN (k + 1) toks with
      | none => none
      | some none => some none
      | some (some (t, rest2)) =>
        match rest2 with
        | .rbracket :: rest3 => some (some ([], some t, rest3))
        | _ => some none)
      = some r := by
  cases hp : parseTermN k toks with
  | none => rw [hp] at h; simp at h
  | some o =>
    rw [hp] at h
    rw [ihT hp]
    exact h

/-- Fuel monotonicity for the three mutually recursive parser
functions. -/
theorem parse_mono (n : Nat) :
    (∀ {toks : List Token} {r}, parseTermN n toks = some r →
      parseTermN (n + 1) toks = some r) ∧
    (∀ {toks : List Token} {r}, parseArgsN n toks = some r →
      parseArgsN (n + 1) toks = some r) ∧
    (∀ {toks : List Token} {r}, parseElemsN n toks = some r →
      parseElemsN (n + 1) toks = some r) := by
  induction n with
  | zero =>
    refine ⟨?_, ?_, ?_⟩ <;> (intro toks r h; simp [parseTermN, parseArgsN,
      parseElemsN] at h)
  | succ k ih =>
    obtain ⟨ihT, ihA, ihE⟩ := ih
    refine ⟨?_, ?_, ?_⟩
    · intro toks r h
      cases toks with
      | nil => exact h
      | cons tk toks2 =>
        cases tk with
        | atomT s => exact h
        | varT s => exact h
        | numT v => exact h
        | rparen => exact h
        | rbracket => exact h
        | pipe => exact h
        | lparen =>
          cases toks2 with
          | nil => exact h
          | cons tk2 toks3 =>
            cases tk2 with
            | rparen => exact h
            | lparen => exact parse_mono_special_step _ ihT ihA h
            | atomT f => exact parse_mono_functor_step f _ ihA h
            | varT s => exact h
            | numT v => exact h
            | lbracket => exact h
            | rbracket => exact h
            | pipe => exact h
        | lbracket =>
          cases toks2 with
          | nil => exact parse_mono_listbody_step _ ihE h
          | cons tk2 toks3 =>
            cases tk2 with
            | rbracket => exact h
            | lparen => exact parse_mono_listbody_step _ ihE h
            | rparen => exact parse_mono_listbody_step _ ihE h
            | lbracket => exact parse_mono_listbody_step _ ihE h
            | pipe => exact parse_mono_listbody_step _ ihE h
            | atomT s => exact parse_mono_listbody_step _ ihE h
            | varT s => exact parse_mono_listbody_step _ ihE h
            | numT v => exact parse_mono_listbody_step _ ihE h
    · intro toks r h
      cases toks with
      | nil => exact h
      | cons tk toks2 =>
        cases tk with
        | rparen => exact h
        | lparen => exact parse_mono_args_step _ ihT ihA h
        | rbracket => exact parse_mono_args_step _ ihT ihA h
        | lbracket => exact parse_mono_args_step _ ihT ihA h
        | pipe => exact parse_mono_args_step _ ihT ihA h
        | atomT s => exact parse_mono_args_step _ ihT ihA h
        | varT s => exact parse_mono_args_step _ ihT ihA h
        | numT v => exact parse_mono_args_step _ ihT ihA h
    · intro toks r h
      cases toks with
      | nil => exact parse_mono_elems_step _ ihT ihE h
      | cons tk toks2 =>
        cases tk with
        | rbracket => exact h
        | pipe => exact parse_mono_pipe_step _ ihT h
        | lparen => exact parse_mono_elems_step _ ihT ihE h
        | rparen => exact parse_mono_elems_step _ ihT ihE h
        | lbracket => exact parse_mono_elems_step _ ihT ihE h
        | atomT s => exact parse_mono_elems_step _ ihT ihE h
        | varT s => exact parse_mono_elems_step _ ihT ihE h
        | numT v => exact parse_mono_elems_step _ ihT ihE h

theorem parseTermN_mono_le {n m : Nat} {toks : List Token} {r}
    (hnm : n ≤ m) (h : parseTermN n toks = some r) :
    parseTermN m toks = some r :=
  mono_le (f := fun n => parseTermN n toks)
    (fun k r hk => (parse_mono k).1 hk) hnm h

theorem parseArgsN_mono_le {n m : Nat} {toks : List Token} {r}
    (hnm : n ≤ m) (h : parseArgsN n toks = some r) :
    parseArgsN m toks = some r :=
  mono_le (f := fun n => parseArgsN n toks)
    (fun k r hk => (parse_mono k).2.1 hk) hnm h

theorem parseElemsN_mono_le {n m : Nat} {toks : List Token} {r}
    (hnm : n ≤ m) (h : parseElemsN n toks = some r) :
    parseElemsN m toks = some r :=
  mono_le (f := fun n => parseElemsN n toks)
    (fun k r hk => (parse_mono k).2.2 hk) hnm h

theorem tokensOf_head {t : Term} (hf : noFloat t = true) :
    ∃ tk rest, tokensOf t = tk :: rest ∧ tk ≠ Token.rparen ∧
      tk ≠ Token.rbracket ∧ tk ≠ Token.pipe := by
  cases t with
  | atom v =>
    cases v with
    | str s => exact ⟨_, _, rfl, by simp, by simp, by simp⟩
    | int n => exact ⟨_, _, rfl, by simp, by simp, by simp⟩
    | float q => simp [noFloat] at hf
  | var x => exact ⟨_, _, rfl, by simp, by simp, by simp⟩
  | comp f args => exact ⟨_, _, rfl, by simp, by simp, by simp⟩
  | list es tl =>
    cases tl with
    | none =>
      refine ⟨Token.lbracket, (tokensList es ++ []) ++ [Token.rbracket],
        ?_, by simp, by simp, by simp⟩
      exact rfl
    | some t =>
      refine ⟨Token.lbracket,
        (tokensList es ++ (Token.pipe :: tokensOf t)) ++ [Token.rbracket],
        ?_, by simp, by simp, by simp⟩
      exact rfl

theorem parseArgsN_cons_step {n : Nat} {tk : Token} {toks : List Token}
    (hne : tk ≠ Token.rparen) :
    parseArgsN (n + 1) (tk :: toks)
      = (match parseTermN n (tk :: toks) with
          | none => none
          | some none => some none
          | some (some (t, rest)) =>
            match parseArgsN n rest with
            | none => none
            | some none => some none
            | some (some (ts, rest2)) => some (some (t :: ts, rest2))) := by
  cases tk <;> first | exact absurd rfl hne | rfl

theorem parseElemsN_cons_step {n : Nat} {tk : Token} {toks : List Token}
    (h1 : tk ≠ Token.rbracket) (h2 : tk ≠ Token.pipe) :
    parseElemsN (n + 1) (tk :: toks)
      = (match parseTermN n (tk :: toks) with
          | none => none
          | some none => some none
          | some (some (t, rest)) =>
            match parseElemsN n rest with
            | none => none
            | some none => some none
            | some (some (es, tl, rest2)) => some (some (t :: es, tl, rest2)))
    := by
  cases tk <;> first | exact absurd rfl h1 | exact absurd rfl h2 | rfl

theorem parseTermN_lbracket_step {n : Nat} {tk : Token} {toks : List Token}
    (h1 : tk ≠ Token.rbracket) :
    parseTermN (n + 1) (Token.lbracket :: tk :: toks)
      = (match parseElemsN n (tk :: toks) with
          | none => none
          | some none => some none
          | some (some (es, tl, rest2)) => some (some (Term.list es tl, rest2)))
    := by
  cases tk <;> first | exact absurd rfl h1 | rfl

/-- The argument loop re-parses a concatenation of token sequences of
terms that each re-parse, and consumes the closing `RPAREN`. -/
theorem parseArgs_concat :
    ∀ ts : List Term,
      (∀ e ∈ ts, noFloat e = true ∧
        ∀ rest : List Token, ∃ n,
          parseTermN n (tokensOf e ++ rest) = some (some (e, rest))) →
      ∀ rest : List Token, ∃ n,
        parseArgsN n (tokensList ts ++ Token.rparen :: rest)
          = some (some (ts, rest)) := by
  intro ts
  induction ts with
  | nil =>
    intro _ rest
    exact ⟨1, rfl⟩
  | cons e ts ih =>
    intro hptw rest
    obtain ⟨hfe, hpe⟩ := hptw e (List.mem_cons_self e ts)
    obtain ⟨n1, h1⟩ := hpe (tokensList ts ++ Token.rparen :: rest)
    obtain ⟨n2, h2⟩ := ih (fun x hx => hptw x (List.mem_cons_of_mem e hx)) rest
    obtain ⟨tk, tks, htk, hne1, _, _⟩ := tokensOf_head hfe
    refine ⟨max n1 n2 + 1, ?_⟩
    have hshape : tokensList (e :: ts) ++ Token.rparen :: rest
        = tk :: (tks ++ (tokensList ts ++ Token.rparen :: rest)) := by
      show (tokensOf e ++ tokensList ts) ++ Token.rparen :: rest
        = tk :: (tks ++ (tokensList ts ++ Token.rparen :: rest))
      rw [htk]
      simp
    rw [hshape, parseArgsN_cons_step hne1]
    have hback : tk :: (tks ++ (tokensList ts ++ Token.rparen :: rest))
        = tokensOf e ++ (tokensList ts ++ Token.rparen :: rest) := by
      rw [htk]
      rfl
    rw [hback, parseTermN_mono_le (Nat.le_max_left n1 n2) h1]
    simp only []
    rw [parseArgsN_mono_le (Nat.le_max_right n1 n2) h2]

/-- The element loop re-parses concatenated element tokens, an optional
`PIPE`-marked tail, and the closing `RBRACKET`. -/
theorem parseElems_concat :
    ∀ es : List Term,
      (∀ e ∈ es, noFloat e = true ∧
        ∀ rest : List Token, ∃ n,
          parseTermN n (tokensOf e ++ rest) = some (some (e, rest))) →
      ∀ (tl : Option Term) (tailToks : List Token) (rest : List Token),
        ((tl = none ∧ tailToks = []) ∨
         (∃ t, tl = some t ∧ tailToks = Token.pipe :: tokensOf t ∧
           ∀ r2 : List Token, ∃ n,
             parseTermN n (tokensOf t ++ r2) = some (some (t, r2)))) →
        ∃ n, parseElemsN n (tokensList es ++ tailToks ++ Token.rbracket :: rest)
          = some (some (es, tl, rest)) := by
  intro es
  induction es with
  | nil =>
    intro _ tl tailToks rest htl
    rcases htl with ⟨rfl, rfl⟩ | ⟨t, rfl, rfl, hpt⟩
    · exact ⟨1, rfl⟩
    · obtain ⟨n1, h1⟩ := hpt (Token.rbracket :: rest)
      refine ⟨n1 + 1, ?_⟩
      have hsh : tokensList ([] : List Term) ++ (Token.pipe :: tokensOf t)
          ++ Token.rbracket :: rest
          = Token.pipe :: (tokensOf t ++ Token.rbracket :: rest) := by
        simp [tokensList]
      rw [hsh]
      show (match parseTermN n1 (tokensOf t ++ Token.rbracket :: rest) with
        | none => none
        | some none => some none
        | some (some (t2, rest2)) =>
          match rest2 with
          | Token.rbracket :: rest3 => some (some ([], some t2, rest3))
          | _ => some none) = some (some ([], some t, rest))
      rw [h1]
  | cons e es ih =>
    intro hptw tl tailToks rest htl
    obtain ⟨hfe, hpe⟩ := hptw e (List.mem_cons_self e es)
    obtain ⟨n1, h1⟩ := hpe (tokensList es ++ tailToks ++ Token.rbracket :: rest)
    obtain ⟨n2, h2⟩ := ih (fun x hx => hptw x (List.mem_cons_of_mem e hx))
      tl tailToks rest htl
    obtain ⟨tk, tks, htk, _, hne2, hne3⟩ := tokensOf_head hfe
    refine ⟨max n1 n2 + 1, ?_⟩
    have hshape : tokensList (e :: es) ++ tailToks ++ Token.rbracket :: rest
        = tk :: (tks ++ (tokensList es ++ tailToks ++ Token.rbracket :: rest))
        := by
      show (tokensOf e ++ tokensList es) ++ tailToks ++ Token.rbracket :: rest
        = tk :: (tks ++ (tokensList es ++ tailToks ++ Token.rbracket :: rest))
      rw [htk]
      simp
    rw [hshape, parseElemsN_cons_step hne2 hne3]
    have hback : tk :: (tks ++ (tokensList es ++ tailToks
        ++ Token.rbracket :: rest))
        = tokensOf e ++ (tokensList es ++ tailToks ++ Token.rbracket :: rest)
        := by
      rw [htk]
      rfl
    rw [hback]
    have h1' : parseTermN n1 (tokensOf e ++ (tokensList es ++ tailToks
        ++ Token.rbracket :: rest))
        = some (some (e, tokensList es ++ tailToks ++ Token.rbracket :: rest))
        := by
      have ha : tokensList es ++ tailToks ++ Token.rbracket :: rest
          = (tokensList es ++ tailToks) ++ Token.rbracket :: rest := by simp
      rw [ha] at h1 ⊢
      exact h1
    rw [parseTermN_mono_le (Nat.le_max_left n1 n2) h1']
    simp only []
    rw [parseElemsN_mono_le (Nat.le_max_right n1 n2) h2]

theorem parseTermN_special_step {n : Nat} {toks : List Token} :
    parseTermN (n + 1) (Token.lparen :: Token.lparen :: toks)
      = (match parseTermN n (Token.lparen :: toks) with
          | none => none
          | some none => some none
          | some (some (t1, rest2)) =>
            match parseArgsN n rest2 with
            | none => none
            | some none => some none
            | some (some (args, rest3)) =>
              some (some (Term.comp "" (t1 :: args), rest3))) := rfl

theorem parseTermN_functor_step {n : Nat} {f : List Char}
    {toks : List Token} :
    parseTermN (n + 1) (Token.lparen :: Token.atomT f :: toks)
      = (match parseArgsN n toks with
          | none => none
          | some none => some none
          | some (some (args, rest3)) =>
            some (some (Term.comp (String.mk f) args, rest3))) := rfl

/-- A well-formed, float-free term's token sequence re-parses to
exactly the term, leaving any remaining tokens untouched. -/
theorem parseTerm_tokens :
    ∀ t : Term, wfTerm t = true → noFloat t = true →
      ∀ rest : List Token, ∃ n,
        parseTermN n (tokensOf t ++ rest) = some (some (t, rest)) := by
  refine @Term.rec
    (fun t => wfTerm t = true → noFloat t = true →
      ∀ rest : List Token, ∃ n,
        parseTermN n (tokensOf t ++ rest) = some (some (t, rest)))
    (fun ts => wfTermList ts = true → noFloatList ts = true →
      ∀ e ∈ ts, noFloat e = true ∧
        ∀ rest : List Token, ∃ n,
          parseTermN n (tokensOf e ++ rest) = some (some (e, rest)))
    (fun otl => (match otl with
        | some t => wfTerm t
        | none => true) = true →
      (match otl with
        | some t => noFloat t
        | none => true) = true →
      (match otl with
       | some t => ∀ rest : List Token, ∃ n,
           parseTermN n (tokensOf t ++ rest) = some (some (t, rest))
       | none => True))
    ?atomR ?varR ?compR ?listR ?nilR ?consR ?noneR ?someR
  case atomR =>
    intro v hw hf rest
    cases v with
    | str s => exact ⟨1, rfl⟩
    | int n => exact ⟨1, rfl⟩
    | float q => simp [noFloat] at hf
  case varR =>
    intro x hw hf rest
    exact ⟨1, rfl⟩
  case compR =>
    intro f args ih hw hf rest
    simp only [wfTerm] at hw
    rw [Bool.and_eq_true] at hw
    have hfargs : noFloatList args = true := hf
    have hihs := ih hw.2 hfargs
    by_cases hff : f = ""
    · have hw1 := hw.1
      rw [if_pos hff] at hw1
      cases args with
      | nil => simp at hw1
      | cons a args2 =>
        cases a with
        | atom v => simp at hw1
        | var x => simp at hw1
        | list es2 tl2 => simp at hw1
        | comp g as2 =>
          subst hff
          have hA := hihs (Term.comp g as2) (List.mem_cons_self _ _)
          obtain ⟨n1, h1⟩ := hA.2 (tokensList args2 ++ Token.rparen :: rest)
          obtain ⟨n2, h2⟩ := parseArgs_concat args2
            (fun e he => hihs e (List.mem_cons_of_mem _ he)) rest
          refine ⟨max n1 n2 + 1, ?_⟩
          have hTA : tokensOf (Term.comp g as2)
              = Token.lparen :: ((if g = "" then [] else [Token.atomT g.data])
                  ++ tokensList as2 ++ [Token.rparen]) := rfl
          have hsh : tokensOf (Term.comp "" (Term.comp g as2 :: args2)) ++ rest
              = Token.lparen :: Token.lparen ::
                  (((if g = "" then [] else [Token.atomT g.data])
                    ++ tokensList as2 ++ [Token.rparen])
                   ++ (tokensList args2 ++ Token.rparen :: rest)) := by
            show (Token.lparen ::
                (if ("" : String) = "" then []
                 else [Token.atomT ("" : String).data])
                ++ tokensList (Term.comp g as2 :: args2) ++ [Token.rparen])
                ++ rest
              = Token.lparen :: Token.lparen ::
                  (((if g = "" then [] else [Token.atomT g.data])
                    ++ tokensList as2 ++ [Token.rparen])
                   ++ (tokensList args2 ++ Token.rparen :: rest))
            rw [if_pos rfl]
            show (Token.lparen ::
                ([] ++ (tokensOf (Term.comp g as2) ++ tokensList args2)
                  ++ [Token.rparen])) ++ rest
              = _
            rw [hTA]
            simp
          rw [hsh, parseTermN_special_step]
          have hfold : Token.lparen ::
              (((if g = "" then [] else [Token.atomT g.data])
                ++ tokensList as2 ++ [Token.rparen])
               ++ (tokensList args2 ++ Token.rparen :: rest))
              = tokensOf (Term.comp g as2)
                  ++ (tokensList args2 ++ Token.rparen :: rest) := by
            rw [hTA]
            rfl
          rw [hfold, parseTermN_mono_le (Nat.le_max_left n1 n2) h1]
          simp only []
          rw [parseArgsN_mono_le (Nat.le_max_right n1 n2) h2]
    · have hw1 := hw.1
      rw [if_neg hff] at hw1
      obtain ⟨n2, h2⟩ := parseArgs_concat args
        (fun e he => hihs e he) rest
      refine ⟨n2 + 1, ?_⟩
      have hsh : tokensOf (Term.comp f args) ++ rest
          = Token.lparen :: Token.atomT f.data ::
              (tokensList args ++ Token.rparen :: rest) := by
        show (Token.lparen :: (if f = "" then [] else [Token.atomT f.data])
            ++ tokensList args ++ [Token.rparen]) ++ rest
          = Token.lparen :: Token.atomT f.data ::
              (tokensList args ++ Token.rparen :: rest)
        rw [if_neg hff]
        simp
      rw [hsh, parseTermN_functor_step, h2]
  case listR =>
    intro es tl ih1 ih2 hw hf rest
    cases tl with
    | some t =>
      have hw' : (wfTermList es && wfTerm t) = true := hw
      rw [Bool.and_eq_true] at hw'
      have hf' : (noFloatList es && noFloat t) = true := hf
      rw [Bool.and_eq_true] at hf'
      have hihs := ih1 hw'.1 hf'.1
      have hih2 : ∀ r2 : List Token, ∃ n,
          parseTermN n (tokensOf t ++ r2) = some (some (t, r2)) :=
        ih2 hw'.2 hf'.2
      obtain ⟨n2, h2⟩ := parseElems_concat es hihs (some t)
        (Token.pipe :: tokensOf t) rest (Or.inr ⟨t, rfl, rfl, hih2⟩)
      cases es with
      | nil =>
        refine ⟨n2 + 1, ?_⟩
        have hsh : tokensOf (Term.list [] (some t)) ++ rest
            = Token.lbracket :: Token.pipe ::
                (tokensOf t ++ Token.rbracket :: rest) := by
          show (Token.lbracket :: ((tokensList ([] : List Term)
              ++ (Token.pipe :: tokensOf t)) ++ [Token.rbracket])) ++ rest
            = Token.lbracket :: Token.pipe ::
                (tokensOf t ++ Token.rbracket :: rest)
          simp [tokensList]
        rw [hsh, parseTermN_lbracket_step (by simp)]
        have hfold : Token.pipe :: (tokensOf t ++ Token.rbracket :: rest)
            = tokensList ([] : List Term) ++ (Token.pipe :: tokensOf t)
                ++ Token.rbracket :: rest := by
          simp [tokensList]
        rw [hfold, h2]
      | cons e es2 =>
        have hfe : noFloat e = true :=
          (hihs e (List.mem_cons_self e es2)).1
        obtain ⟨tk, tks, htk, _, hne2, _⟩ := tokensOf_head hfe
        refine ⟨n2 + 1, ?_⟩
        have hsh : tokensOf (Term.list (e :: es2) (some t)) ++ rest
            = Token.lbracket :: tk ::
                (tks ++ (tokensList es2 ++ (Token.pipe :: tokensOf t)
                  ++ Token.rbracket :: rest)) := by
          show (Token.lbracket :: ((tokensList (e :: es2)
              ++ (Token.pipe :: tokensOf t)) ++ [Token.rbracket])) ++ rest
            = Token.lbracket :: tk ::
                (tks ++ (tokensList es2 ++ (Token.pipe :: tokensOf t)
                  ++ Token.rbracket :: rest))
          show (Token.lbracket :: (((tokensOf e ++ tokensList es2)
              ++ (Token.pipe :: tokensOf t)) ++ [Token.rbracket])) ++ rest
            = _
          rw [htk]
          simp
        rw [hsh, parseTermN_lbracket_step hne2]
        have hfold : tk :: (tks ++ (tokensList es2
            ++ (Token.pipe :: tokensOf t) ++ Token.rbracket :: rest))
            = tokensList (e :: es2) ++ (Token.pipe :: tokensOf t)
                ++ Token.rbracket :: rest := by
          show _ = (tokensOf e ++ tokensList es2)
              ++ (Token.pipe :: tokensOf t) ++ Token.rbracket :: rest
          rw [htk]
          simp
        rw [hfold, h2]
    | none =>
      have hw' : (wfTermList es && true) = true := hw
      rw [Bool.and_eq_true] at hw'
      have hf' : (noFloatList es && true) = true := hf
      rw [Bool.and_eq_true] at hf'
      have hihs := ih1 hw'.1 hf'.1
      cases es with
      | nil => exact ⟨1, rfl⟩
      | cons e es2 =>
        obtain ⟨n2, h2⟩ := parseElems_concat (e :: es2) hihs none [] rest
          (Or.inl ⟨rfl, rfl⟩)
        have hfe : noFloat e = true :=
          (hihs e (List.mem_cons_self e es2)).1
        obtain ⟨tk, tks, htk, _, hne2, _⟩ := tokensOf_head hfe
        refine ⟨n2 + 1, ?_⟩
        have hsh : tokensOf (Term.list (e :: es2) none) ++ rest
            = Token.lbracket :: tk ::
                (tks ++ (tokensList es2 ++ [] ++ Token.rbracket :: rest)) := by
          show (Token.lbracket :: ((tokensList (e :: es2) ++ [])
              ++ [Token.rbracket])) ++ rest
            = Token.lbracket :: tk ::
                (tks ++ (tokensList es2 ++ [] ++ Token.rbracket :: rest))
          show (Token.lbracket :: (((tokensOf e ++ tokensList es2) ++ [])
              ++ [Token.rbracket])) ++ rest = _
          rw [htk]
          simp
        rw [hsh, parseTermN_lbracket_step hne2]
        have hfold : tk :: (tks ++ (tokensList es2 ++ []
            ++ Token.rbracket :: rest))
            = tokensList (e :: es2) ++ [] ++ Token.rbracket :: rest := by
          show _ = (tokensOf e ++ tokensList es2) ++ []
              ++ Token.rbracket :: rest
          rw [htk]
          simp
        rw [hfold, h2]
  case nilR =>
    intro _ _ e he
    simp at he
  case consR =>
    intro t ts ih1 ih2 hw hf e he
    have hw' : (wfTerm t && wfTermList ts) = true := hw
    rw [Bool.and_eq_true] at hw'
    have hf' : (noFloat t && noFloatList ts) = true := hf
    rw [Bool.and_eq_true] at hf'
    rcases List.mem_cons.mp he with rfl | he2
    · exact ⟨hf'.1, ih1 hw'.1 hf'.1⟩
    · exact ih2 hw'.2 hf'.2 e he2
  case noneR =>
    intro _ _
    trivial
  case someR =>
    intro t ih hw hf
    exact ih hw hf

theorem identAccOk_snoc {acc : List Char} {c : Char}
    (h : identAccOk acc = true) (hc : (c.isAlphanum || c = '_') = true) :
    identAccOk (acc ++ [c]) = true := by
  cases acc with
  | nil => simp [identAccOk] at h
  | cons a as =>
    have h' : ((a.isAlpha || a = '_')
        && as.all (fun d => d.isAlphanum || d = '_')) = true := h
    rw [Bool.and_eq_true] at h'
    show ((a.isAlpha || a = '_')
        && (as ++ [c]).all (fun d => d.isAlphanum || d = '_')) = true
    rw [Bool.and_eq_true, List.all_append]
    refine ⟨h'.1, ?_⟩
    rw [Bool.and_eq_true]
    refine ⟨h'.2, ?_⟩
    simp [hc]

theorem numTokOf_wf (acc : List Char) : tokWF (numTokOf acc) = true := by
  rw [numTokOf]
  by_cases hd : acc.contains '.'
  · rw [if_pos hd]
    rfl
  · rw [if_neg hd]
    show decide ((0 : Int) ≤ ((digitsToNat acc : Nat) : Int)) = true
    exact decide_eq_true (Int.natCast_nonneg _)

theorem identTokOf_wf {acc : List Char} (h : identAccOk acc = true) :
    tokWF (identTokOf acc) = true := by
  cases acc with
  | nil => simp [identAccOk] at h
  | cons c cs =>
    have h' : ((c.isAlpha || c = '_')
        && cs.all (fun d => d.isAlphanum || d = '_')) = true := h
    rw [Bool.and_eq_true] at h'
    show tokWF (if c.isUpper || c = '_' then Token.varT (c :: cs)
        else Token.atomT (c :: cs)) = true
    by_cases hu : (c.isUpper || c = '_') = true
    · rw [if_pos hu]
      show ((c.isUpper || c = '_')
          && cs.all (fun d => d.isAlphanum || d = '_')) = true
      rw [Bool.and_eq_true]
      exact ⟨hu, h'.2⟩
    · rw [if_neg hu]
      show (c.isLower && cs.all (fun d => d.isAlphanum || d = '_')) = true
      rw [Bool.and_eq_true]
      refine ⟨?_, h'.2⟩
      have hu' : (c.isUpper || c = '_') = false := Bool.eq_false_iff.mpr hu
      rw [Bool.or_eq_false_iff] at hu'
      have hne : ¬ (c = '_') := of_decide_eq_false hu'.2
      have hca : c.isAlpha = true := by
        rcases (Bool.or_eq_true _ _).mp h'.1 with h1 | h1
        · exact h1
        · exact absurd (of_decide_eq_true h1) hne
      exact isAlpha_not_upper_lower hca (by rw [hu'.1, hu'.2]; rfl)

/-- Every token produced by any of the four tokenizer loops is
well-formed: identifier tokens hold valid atom/variable names and
integer tokens are nonnegative. -/
theorem tok_wf :
    ∀ N : Nat, ∀ cs : List Char, cs.length ≤ N →
      (∀ toks, tokMain cs = some toks → ∀ tk ∈ toks, tokWF tk = true) ∧
      (∀ toks, tokComment cs = some toks → ∀ tk ∈ toks, tokWF tk = true) ∧
      (∀ acc hasDot toks, tokNum acc hasDot cs = some toks →
        ∀ tk ∈ toks, tokWF tk = true) ∧
      (∀ acc toks, identAccOk acc = true → tokIdent acc cs = some toks →
        ∀ tk ∈ toks, tokWF tk = true) := by
  intro N
  induction N with
  | zero =>
    intro cs hle
    have hnil : cs = [] := List.eq_nil_of_length_eq_zero (Nat.le_zero.mp hle)
    subst hnil
    refine ⟨?_, ?_, ?_, ?_⟩
    · intro toks h tk htk
      have h' : some ([] : List Token) = some toks := h
      rw [← Option.some.inj h'] at htk
      simp at htk
    · intro toks h tk htk
      have h' : some ([] : List Token) = some toks := h
      rw [← Option.some.inj h'] at htk
      simp at htk
    · intro acc hasDot toks h tk htk
      have h' : some [numTokOf acc] = some toks := h
      rw [← Option.some.inj h'] at htk
      rw [List.mem_singleton.mp htk]
      exact numTokOf_wf acc
    · intro acc toks hacc h tk htk
      have h' : some [identTokOf acc] = some toks := h
      rw [← Option.some.inj h'] at htk
      rw [List.mem_singleton.mp htk]
      exact identTokOf_wf hacc
  | succ N ih =>
    intro cs hle
    cases cs with
    | nil => exact ih [] (Nat.zero_le N)
    | cons c cs₂ =>
      have hle' : cs₂.length ≤ N := by
        simp [List.length_cons] at hle
        omega
      obtain ⟨ihM, ihC, ihN, ihI⟩ := ih cs₂ hle'
      refine ⟨?_, ?_, ?_, ?_⟩
      · intro toks h tk htk
        rw [tokMain] at h
        by_cases h1 : c.isWhitespace
        · rw [if_pos h1] at h
          exact ihM toks h tk htk
        · rw [if_neg h1] at h
          by_cases h2 : c = '%'
          · rw [if_pos h2] at h
            exact ihC toks h tk htk
          · rw [if_neg h2] at h
            by_cases h3 : c = '('
            · rw [if_pos h3] at h
              obtain ⟨ts, hts, rfl⟩ := Option.map_eq_some'.mp h
              rcases List.mem_cons.mp htk with rfl | htk2
              · rfl
              · exact ihM ts hts tk htk2
            · rw [if_neg h3] at h
              by_cases h4 : c = ')'
              · rw [if_pos h4] at h
                obtain ⟨ts, hts, rfl⟩ := Option.map_eq_some'.mp h
                rcases List.mem_cons.mp htk with rfl | htk2
                · rfl
                · exact ihM ts hts tk htk2
              · rw [if_neg h4] at h
                by_cases h5 : c = '['
                · rw [if_pos h5] at h
                  obtain ⟨ts, hts, rfl⟩ := Option.map_eq_some'.mp h
                  rcases List.mem_cons.mp htk with rfl | htk2
                  · rfl
                  · exact ihM ts hts tk htk2
                · rw [if_neg h5] at h
                  by_cases h6 : c = ']'
                  · rw [if_pos h6] at h
                    obtain ⟨ts, hts, rfl⟩ := Option.map_eq_some'.mp h
                    rcases List.mem_cons.mp htk with rfl | htk2
                    · rfl
                    · exact ihM ts hts tk htk2
                  · rw [if_neg h6] at h
                    by_cases h7 : c = '|'
                    · rw [if_pos h7] at h
                      obtain ⟨ts, hts, rfl⟩ := Option.map_eq_some'.mp h
                      rcases List.mem_cons.mp htk with rfl | htk2
                      · rfl
                      · exact ihM ts hts tk htk2
                    · rw [if_neg h7] at h
                      by_cases h8 : c.isDigit
                      · rw [if_pos h8] at h
                        exact ihN [c] false toks h tk htk
                      · rw [if_neg h8] at h
                        by_cases h9 : (c.isAlpha || c = '_') = true
                        · rw [if_pos h9] at h
                          refine ihI [c] toks ?_ h tk htk
                          show ((c.isAlpha || c = '_')
                            && List.all []
                              (fun d => d.isAlphanum || d = '_')) = true
                          rw [Bool.and_eq_true]
                          exact ⟨h9, rfl⟩
                        · rw [if_neg h9] at h
                          simp at h
      · intro toks h tk htk
        rw [tokComment] at h
        by_cases h1 : c = '\n'
        · rw [if_pos h1] at h
          exact ihM toks h tk htk
        · rw [if_neg h1] at h
          exact ihC toks h tk htk
      · intro acc hasDot toks h tk htk
        rw [tokNum] at h
        by_cases h1 : c.isDigit
        · rw [if_pos h1] at h
          exact ihN (acc ++ [c]) hasDot toks h tk htk
        · rw [if_neg h1] at h
          by_cases h2 : (c = '.' && !hasDot) = true
          · rw [if_pos h2] at h
            exact ihN (acc ++ ['.']) true toks h tk htk
          · rw [if_neg h2] at h
            by_cases h3 : c.isWhitespace
            · rw [if_pos h3] at h
              obtain ⟨ts, hts, rfl⟩ := Option.map_eq_some'.mp h
              rcases List.mem_cons.mp htk with rfl | htk2
              · exact numTokOf_wf acc
              · exact ihM ts hts tk htk2
            · rw [if_neg h3] at h
              by_cases h4 : c = '%'
              · rw [if_pos h4] at h
                obtain ⟨ts, hts, rfl⟩ := Option.map_eq_some'.mp h
                rcases List.mem_cons.mp htk with rfl | htk2
                · exact numTokOf_wf acc
                · exact ihC ts hts tk htk2
              · rw [if_neg h4] at h
                by_cases h5 : c = '('
                · rw [if_pos h5] at h
                  obtain ⟨ts, hts, rfl⟩ := Option.map_eq_some'.mp h
                  rcases List.mem_cons.mp htk with rfl | htk2
                  · exact numTokOf_wf acc
                  · rcases List.mem_cons.mp htk2 with rfl | htk3
                    · rfl
                    · exact ihM ts hts tk htk3
                · rw [if_neg h5] at h
                  by_cases h6 : c = ')'
                  · rw [if_pos h6] at h
                    obtain ⟨ts, hts, rfl⟩ := Option.map_eq_some'.mp h
                    rcases List.mem_cons.mp htk with rfl | htk2
                    · exact numTokOf_wf acc
                    · rcases List.mem_cons.mp htk2 with rfl | htk3
                      · rfl
                      · exact ihM ts hts tk htk3
                  · rw [if_neg h6] at h
                    by_cases h7 : c = '['
                    · rw [if_pos h7] at h
                      obtain ⟨ts, hts, rfl⟩ := Option.map_eq_some'.mp h
                      rcases List.mem_cons.mp htk with rfl | htk2
                      · exact numTokOf_wf acc
                      · rcases List.mem_cons.mp htk2 with rfl | htk3
                        · rfl
                        · exact ihM ts hts tk htk3
                    · rw [if_neg h7] at h
                      by_cases h8 : c = ']'
                      · rw [if_pos h8] at h
                        obtain ⟨ts, hts, rfl⟩ := Option.map_eq_some'.mp h
                        rcases List.mem_cons.mp htk with rfl | htk2
                        · exact numTokOf_wf acc
                        · rcases List.mem_cons.mp htk2 with rfl | htk3
                          · rfl
                          · exact ihM ts hts tk htk3
                      · rw [if_neg h8] at h
                        by_cases h9 : c = '|'
                        · rw [if_pos h9] at h
                          obtain ⟨ts, hts, rfl⟩ := Option.map_eq_some'.mp h
                          rcases List.mem_cons.mp htk with rfl | htk2
                          · exact numTokOf_wf acc
                          · rcases List.mem_cons.mp htk2 with rfl | htk3
                            · rfl
                            · exact ihM ts hts tk htk3
                        · rw [if_neg h9] at h
                          by_cases h10 : (c.isAlpha || c = '_') = true
                          · rw [if_pos h10] at h
                            obtain ⟨ts, hts, rfl⟩ :=
                              Option.map_eq_some'.mp h
                            rcases List.mem_cons.mp htk with rfl | htk2
                            · exact numTokOf_wf acc
                            · refine ihI [c] ts ?_ hts tk htk2
                              show ((c.isAlpha || c = '_')
                                && List.all []
                                  (fun d => d.isAlphanum || d = '_')) = true
                              rw [Bool.and_eq_true]
                              exact ⟨h10, rfl⟩
                          · rw [if_neg h10] at h
                            simp at h
      · intro acc toks hacc h tk htk
        rw [tokIdent] at h
        by_cases h1 : (c.isAlphanum || c = '_') = true
        · rw [if_pos h1] at h
          exact ihI (acc ++ [c]) toks (identAccOk_snoc hacc h1) h tk htk
        · rw [if_neg h1] at h
          by_cases h2 : c.isWhitespace
          · rw [if_pos h2] at h
            obtain ⟨ts, hts, rfl⟩ := Option.map_eq_some'.mp h
            rcases List.mem_cons.mp htk with rfl | htk2
            · exact identTokOf_wf hacc
            · exact ihM ts hts tk htk2
          · rw [if_neg h2] at h
            by_cases h3 : c = '%'
            · rw [if_pos h3] at h
              obtain ⟨ts, hts, rfl⟩ := Option.map_eq_some'.mp h
              rcases List.mem_cons.mp htk with rfl | htk2
              · exact identTokOf_wf hacc
              · exact ihC ts hts tk htk2
            · rw [if_neg h3] at h
              by_cases h4 : c = '('
              · rw [if_pos h4] at h
                obtain ⟨ts, hts, rfl⟩ := Option.map_eq_some'.mp h
                rcases List.mem_cons.mp htk with rfl | htk2
                · exact identTokOf_wf hacc
                · rcases List.mem_cons.mp htk2 with rfl | htk3
                  · rfl
                  · exact ihM ts hts tk htk3
              · rw [if_neg h4] at h
                by_cases h5 : c = ')'
                · rw [if_pos h5] at h
                  obtain ⟨ts, hts, rfl⟩ := Option.map_eq_some'.mp h
                  rcases List.mem_cons.mp htk with rfl | htk2
                  · exact identTokOf_wf hacc
                  · rcases List.mem_cons.mp htk2 with rfl | htk3
                    · rfl
                    · exact ihM ts hts tk htk3
                · rw [if_neg h5] at h
                  by_cases h6 : c = '['
                  · rw [if_pos h6] at h
                    obtain ⟨ts, hts, rfl⟩ := Option.map_eq_some'.mp h
                    rcases List.mem_cons.mp htk with rfl | htk2
                    · exact identTokOf_wf hacc
                    · rcases List.mem_cons.mp htk2 with rfl | htk3
                      · rfl
                      · exact ihM ts hts tk htk3
                  · rw [if_neg h6] at h
                    by_cases h7 : c = ']'
                    · rw [if_pos h7] at h
                      obtain ⟨ts, hts, rfl⟩ := Option.map_eq_some'.mp h
                      rcases List.mem_cons.mp htk with rfl | htk2
                      · exact identTokOf_wf hacc
                      · rcases List.mem_cons.mp htk2 with rfl | htk3
                        · rfl
                        · exact ihM ts hts tk htk3
                    · rw [if_neg h7] at h
                      by_cases h8 : c = '|'
                      · rw [if_pos h8] at h
                        obtain ⟨ts, hts, rfl⟩ := Option.map_eq_some'.mp h
                        rcases List.mem_cons.mp htk with rfl | htk2
                        · exact identTokOf_wf hacc
                        · rcases List.mem_cons.mp htk2 with rfl | htk3
                          · rfl
                          · exact ihM ts hts tk htk3
                      · rw [if_neg h8] at h
                        simp at h

/-- Corollary: every token of a successful tokenization is
well-formed. -/
theorem tokMain_wf {cs : List Char} {toks : List Token}
    (h : tokMain cs = some toks) : ∀ tk ∈ toks, tokWF tk = true :=
  (tok_wf cs.length cs (Nat.le_refl _)).1 toks h

theorem parseTermN_lparen_comp :
    ∀ {n : Nat} {s0 : List Token} {t : Term} {rest : List Token},
      parseTermN n (Token.lparen :: s0) = some (some (t, rest)) →
      isCompShape t = true := by
  intro n s0 t rest h
  cases n with
  | zero => exact Option.noConfusion h
  | succ k =>
    cases s0 with
    | nil => exact Option.noConfusion (Option.some.inj h)
    | cons tk2 s1 =>
      cases tk2 with
      | rparen => exact Option.noConfusion (Option.some.inj h)
      | lparen =>
        rw [parseTermN_special_step] at h
        cases h1 : parseTermN k (Token.lparen :: s1) with
        | none => rw [h1] at h; exact Option.noConfusion h
        | some o1 =>
          rw [h1] at h
          cases o1 with
          | none => exact Option.noConfusion (Option.some.inj h)
          | some p1 =>
            obtain ⟨t1, r2⟩ := p1
            simp only [] at h
            cases h2 : parseArgsN k r2 with
            | none => rw [h2] at h; exact Option.noConfusion h
            | some o2 =>
              rw [h2] at h
              cases o2 with
              | none => exact Option.noConfusion (Option.some.inj h)
              | some p2 =>
                obtain ⟨args, r3⟩ := p2
                simp only [] at h
                have h' := Option.some.inj (Option.some.inj h)
                rw [Prod.mk.injEq] at h'
                rw [← h'.1]
                rfl
      | atomT f =>
        rw [parseTermN_functor_step] at h
        cases h2 : parseArgsN k s1 with
        | none => rw [h2] at h; exact Option.noConfusion h
        | some o2 =>
          rw [h2] at h
          cases o2 with
          | none => exact Option.noConfusion (Option.some.inj h)
          | some p2 =>
            obtain ⟨args, r3⟩ := p2
            simp only [] at h
            have h' := Option.some.inj (Option.some.inj h)
            rw [Prod.mk.injEq] at h'
            rw [← h'.1]
            rfl
      | varT s => exact Option.noConfusion (Option.some.inj h)
      | numT v => exact Option.noConfusion (Option.some.inj h)
      | lbracket => exact Option.noConfusion (Option.some.inj h)
      | rbracket => exact Option.noConfusion (Option.some.inj h)
      | pipe => exact Option.noConfusion (Option.some.inj h)

theorem parseList_sound_step {k : Nat} {toks2 : List Token} {t : Term}
    {rest : List Token}
    (ihE : ∀ toks es tl rest, (∀ tk ∈ toks, tokWF tk = true) →
      parseElemsN k toks = some (some (es, tl, rest)) →
      wfTerm (Term.list es tl) = true ∧ (∀ tk ∈ rest, tokWF tk = true))
    (hwf : ∀ tk ∈ toks2, tokWF tk = true)
    (h : (match parseElemsN k toks2 with
          | none => none
          | some none => some none
          | some (some (es, tl, rest2)) =>
            some (some (Term.list es tl, rest2))) = some (some (t, rest))) :
    wfTerm t = true ∧ ∀ tk ∈ rest, tokWF tk = true := by
  cases h1 : parseElemsN k toks2 with
  | none => rw [h1] at h; exact Option.noConfusion h
  | some o1 =>
    rw [h1] at h
    cases o1 with
    | none => exact Option.noConfusion (Option.some.inj h)
    | some p1 =>
      obtain ⟨es, tl, r2⟩ := p1
      simp only [] at h
      have h' := Option.some.inj (Option.some.inj h)
      rw [Prod.mk.injEq] at h'
      obtain ⟨h3, h4⟩ := h'
      have hs := ihE toks2 es tl r2 hwf h1
      subst h3 h4
      exact ⟨hs.1, hs.2⟩

theorem parseArgs_sound_step {k : Nat} {toks : List Token}
    {ts : List Term} {rest : List Token}
    (ihT : ∀ toks t rest, (∀ tk ∈ toks, tokWF tk = true) →
      parseTermN k toks = some (some (t, rest)) →
      wfTerm t = true ∧ (∀ tk ∈ rest, tokWF tk = true))
    (ihA : ∀ toks ts rest, (∀ tk ∈ toks, tokWF tk = true) →
      parseArgsN k toks = some (some (ts, rest)) →
      wfTermList ts = true ∧ (∀ tk ∈ rest, tokWF tk = true))
    (hwf : ∀ tk ∈ toks, tokWF tk = true)
    (h : (match parseTermN k toks with
          | none => none
          | some none => some none
          | some (some (t, rest)) =>
            match parseArgsN k rest with
            | none => none
            | some none => some none
            | some (some (ts, rest2)) => some (some (t :: ts, rest2)))
        = some (some (ts, rest))) :
    wfTermList ts = true ∧ ∀ tk ∈ rest, tokWF tk = true := by
  cases h1 : parseTermN k toks with
  | none => rw [h1] at h; exact Option.noConfusion h
  | some o1 =>
    rw [h1] at h
    cases o1 with
    | none => exact Option.noConfusion (Option.some.inj h)
    | some p1 =>
      obtain ⟨t, r2⟩ := p1
      simp only [] at h
      have hs1 := ihT toks t r2 hwf h1
      cases h2 : parseArgsN k r2 with
      | none => rw [h2] at h; exact Option.noConfusion h
      | some o2 =>
        rw [h2] at h
        cases o2 with
        | none => exact Option.noConfusion (Option.some.inj h)
        | some p2 =>
          obtain ⟨ts2, r3⟩ := p2
          simp only [] at h
          have h' := Option.some.inj (Option.some.inj h)
          rw [Prod.mk.injEq] at h'
          obtain ⟨h3, h4⟩ := h'
          have hs2 := ihA r2 ts2 r3 hs1.2 h2
          subst h3 h4
          refine ⟨?_, hs2.2⟩
          show (wfTerm t && wfTermList ts2) = true
          rw [hs1.1, hs2.1]
          rfl

theorem parseElems_sound_step {k : Nat} {toks : List Token}
    {es : List Term} {tl : Option Term} {rest : List Token}
    (ihT : ∀ toks t rest, (∀ tk ∈ toks, tokWF tk = true) →
      parseTermN k toks = some (some (t, rest)) →
      wfTerm t = true ∧ (∀ tk ∈ rest, tokWF tk = true))
    (ihE : ∀ toks es tl rest, (∀ tk ∈ toks, tokWF tk = true) →
      parseElemsN k toks = some (some (es, tl, rest)) →
      wfTerm (Term.list es tl) = true ∧ (∀ tk ∈ rest, tokWF tk = true))
    (hwf : ∀ tk ∈ toks, tokWF tk = true)
    (h : (match parseTermN k toks with
          | none => none
          | some none => some none
          | some (some (t, rest)) =>
            match parseElemsN k rest with
            | none => none
            | some none => some none
            | some (some (es, tl, rest2)) =>
              some (some (t :: es, tl, rest2)))
        = some (some (es, tl, rest))) :
    wfTerm (Term.list es tl) = true ∧ ∀ tk ∈ rest, tokWF tk = true := by
  cases h1 : parseTermN k toks with
  | none => rw [h1] at h; exact Option.noConfusion h
  | some o1 =>
    rw [h1] at h
    cases o1 with
    | none => exact Option.noConfusion (Option.some.inj h)
    | some p1 =>
      obtain ⟨t, r2⟩ := p1
      simp only [] at h
      have hs1 := ihT toks t r2 hwf h1
      cases h2 : parseElemsN k r2 with
      | none => rw [h2] at h; exact Option.noConfusion h
      | some o2 =>
        rw [h2] at h
        cases o2 with
        | none => exact Option.noConfusion (Option.some.inj h)
        | some p2 =>
          obtain ⟨es2, tl2, r3⟩ := p2
          simp only [] at h
          have h' := Option.some.inj (Option.some.inj h)
          rw [Prod.mk.injEq] at h'
          obtain ⟨h3, h4⟩ := h'
          rw [Prod.mk.injEq] at h4
          obtain ⟨h5, h6⟩ := h4
          have hs2 := ihE r2 es2 tl2 r3 hs1.2 h2
          subst h3 h5 h6
          refine ⟨?_, hs2.2⟩
          cases tl2 with
          | some t2 =>
            have ha : (wfTermList es2 && wfTerm t2) = true := hs2.1
            rw [Bool.and_eq_true] at ha
            show (wfTermList (t :: es2) && wfTerm t2) = true
            rw [Bool.and_eq_true]
            refine ⟨?_, ha.2⟩
            show (wfTerm t && wfTermList es2) = true
            rw [hs1.1, ha.1]
            rfl
          | none =>
            have ha : (wfTermList es2 && true) = true := hs2.1
            rw [Bool.and_true] at ha
            show (wfTermList (t :: es2) && true) = true
            rw [Bool.and_true]
            show (wfTerm t && wfTermList es2) = true
            rw [hs1.1, ha]
            rfl

/-- Soundness of the three parsing loops over well-formed token
streams: every parsed term is well-formed, and the unconsumed tokens
remain well-formed. -/
theorem parse_sound : ∀ n : Nat,
    (∀ toks t rest, (∀ tk ∈ toks, tokWF tk = true) →
      parseTermN n toks = some (some (t, rest)) →
      wfTerm t = true ∧ (∀ tk ∈ rest, tokWF tk = true)) ∧
    (∀ toks ts rest, (∀ tk ∈ toks, tokWF tk = true) →
      parseArgsN n toks = some (some (ts, rest)) →
      wfTermList ts = true ∧ (∀ tk ∈ rest, tokWF tk = true)) ∧
    (∀ toks es tl rest, (∀ tk ∈ toks, tokWF tk = true) →
      parseElemsN n toks = some (some (es, tl, rest)) →
      wfTerm (Term.list es tl) = true ∧ (∀ tk ∈ rest, tokWF tk = true)) := by
  intro n
  induction n with
  | zero =>
    refine ⟨?_, ?_, ?_⟩
    · intro toks t rest hwf h
      exact Option.noConfusion h
    · intro toks ts rest hwf h
      exact Option.noConfusion h
    · intro toks es tl rest hwf h
      exact Option.noConfusion h
  | succ k ih =>
    obtain ⟨ihT, ihA, ihE⟩ := ih
    refine ⟨?_, ?_, ?_⟩
    · intro toks t rest hwf h
      cases toks with
      | nil => exact Option.noConfusion (Option.some.inj h)
      | cons tk toks2 =>
        have hwf2 : ∀ x ∈ toks2, tokWF x = true :=
          fun x hx => hwf x (List.mem_cons_of_mem _ hx)
        have hwf0 := hwf tk (List.mem_cons_self _ _)
        cases tk with
        | atomT s =>
          have h' := Option.some.inj (Option.some.inj h)
          rw [Prod.mk.injEq] at h'
          obtain ⟨h3, h4⟩ := h'
          subst h3 h4
          exact ⟨hwf0, hwf2⟩
        | varT s =>
          have h' := Option.some.inj (Option.some.inj h)
          rw [Prod.mk.injEq] at h'
          obtain ⟨h3, h4⟩ := h'
          subst h3 h4
          exact ⟨hwf0, hwf2⟩
        | numT v =>
          have h' := Option.some.inj (Option.some.inj h)
          rw [Prod.mk.injEq] at h'
          obtain ⟨h3, h4⟩ := h'
          subst h3 h4
          refine ⟨?_, hwf2⟩
          cases v with
          | int m => exact hwf0
          | float q => rfl
        | rparen => exact Option.noConfusion (Option.some.inj h)
        | rbracket => exact Option.noConfusion (Option.some.inj h)
        | pipe => exact Option.noConfusion (Option.some.inj h)
        | lparen =>
          cases toks2 with
          | nil => exact Option.noConfusion (Option.some.inj h)
          | cons tk2 toks3 =>
            have hwf3 : ∀ x ∈ toks3, tokWF x = true :=
              fun x hx => hwf2 x (List.mem_cons_of_mem _ hx)
            cases tk2 with
            | rparen => exact Option.noConfusion (Option.some.inj h)
            | varT s => exact Option.noConfusion (Option.some.inj h)
            | numT v => exact Option.noConfusion (Option.some.inj h)
            | lbracket => exact Option.noConfusion (Option.some.inj h)
            | rbracket => exact Option.noConfusion (Option.some.inj h)
            | pipe => exact Option.noConfusion (Option.some.inj h)
            | lparen =>
              rw [parseTermN_special_step] at h
              cases h1 : parseTermN k (Token.lparen :: toks3) with
              | none => rw [h1] at h; exact Option.noConfusion h
              | some o1 =>
                rw [h1] at h
                cases o1 with
                | none => exact Option.noConfusion (Option.some.inj h)
                | some p1 =>
                  obtain ⟨t1, r2⟩ := p1
                  simp only [] at h
                  have hs1 := ihT (Token.lparen :: toks3) t1 r2 hwf2 h1
                  have hcs := parseTermN_lparen_comp h1
                  cases h2 : parseArgsN k r2 with
                  | none => rw [h2] at h; exact Option.noConfusion h
                  | some o2 =>
                    rw [h2] at h
                    cases o2 with
                    | none => exact Option.noConfusion (Option.some.inj h)
                    | some p2 =>
                      obtain ⟨args, r3⟩ := p2
                      simp only [] at h
                      have h' := Option.some.inj (Option.some.inj h)
                      rw [Prod.mk.injEq] at h'
                      obtain ⟨h3, h4⟩ := h'
                      have hs2 := ihA r2 args r3 hs1.2 h2
                      subst h3 h4
                      refine ⟨?_, hs2.2⟩
                      cases t1 with
                      | atom v => exact Bool.noConfusion hcs
                      | var x => exact Bool.noConfusion hcs
                      | list es2 tl2 => exact Bool.noConfusion hcs
                      | comp g as2 =>
                        show (wfTerm (Term.comp g as2) && wfTermList args)
                          = true
                        rw [hs1.1, hs2.1]
                        rfl
            | atomT f =>
              rw [parseTermN_functor_step] at h
              cases h2 : parseArgsN k toks3 with
              | none => rw [h2] at h; exact Option.noConfusion h
              | some o2 =>
                rw [h2] at h
                cases o2 with
                | none => exact Option.noConfusion (Option.some.inj h)
                | some p2 =>
                  obtain ⟨args, r3⟩ := p2
                  simp only [] at h
                  have h' := Option.some.inj (Option.some.inj h)
                  rw [Prod.mk.injEq] at h'
                  obtain ⟨h3, h4⟩ := h'
                  have hs2 := ihA toks3 args r3 hwf3 h2
                  subst h3 h4
                  refine ⟨?_, hs2.2⟩
                  have hvf : validAtomName f = true :=
                    hwf2 (Token.atomT f) (List.mem_cons_self _ _)
                  have hfne : ¬ (String.mk f = "") := by
                    intro he
                    have hfd : f = [] := congrArg String.data he
                    rw [hfd] at hvf
                    exact Bool.noConfusion hvf
                  simp only [wfTerm]
                  rw [if_neg hfne, Bool.and_eq_true]
                  exact ⟨hvf, hs2.1⟩
        | lbracket =>
          cases toks2 with
          | nil =>
            have h' : (match parseElemsN k ([] : List Token) with
                | none => none
                | some none => some none
                | some (some (es, tl, rest2)) =>
                  some (some (Term.list es tl, rest2)))
                = some (some (t, rest)) := h
            exact parseList_sound_step ihE
              (fun x hx => absurd hx (List.not_mem_nil x)) h'
          | cons tk2 toks3 =>
            cases tk2
            case rbracket =>
              have h' := Option.some.inj (Option.some.inj h)
              rw [Prod.mk.injEq] at h'
              obtain ⟨h3, h4⟩ := h'
              subst h3 h4
              have hwf3 : ∀ x ∈ toks3, tokWF x = true :=
                fun x hx => hwf2 x (List.mem_cons_of_mem _ hx)
              exact ⟨rfl, hwf3⟩
            all_goals
              rw [parseTermN_lbracket_step (by simp)] at h
            all_goals
              exact parseList_sound_step ihE hwf2 h
    · intro toks ts rest hwf h
      cases toks with
      | nil => exact Option.noConfusion (Option.some.inj h)
      | cons tk toks2 =>
        have hwf2 : ∀ x ∈ toks2, tokWF x = true :=
          fun x hx => hwf x (List.mem_cons_of_mem _ hx)
        cases tk
        case rparen =>
          have h' := Option.some.inj (Option.some.inj h)
          rw [Prod.mk.injEq] at h'
          obtain ⟨h3, h4⟩ := h'
          subst h3 h4
          exact ⟨rfl, hwf2⟩
        all_goals
          rw [parseArgsN_cons_step (by simp)] at h
        all_goals
          exact parseArgs_sound_step ihT ihA hwf h
    · intro toks es tl rest hwf h
      cases toks with
      | nil =>
        have h' : (match parseTermN k ([] : List Token) with
            | none => none
            | some none => some none
            | some (some (t, rest2)) =>
              match parseElemsN k rest2 with
              | none => none
              | some none => some none
              | some (some (es2, tl2, rest3)) =>
                some (some (t :: es2, tl2, rest3)))
            = some (some (es, tl, rest)) := h
        exact parseElems_sound_step ihT ihE
          (fun x hx => absurd hx (List.not_mem_nil x)) h'
      | cons tk toks2 =>
        have hwf2 : ∀ x ∈ toks2, tokWF x = true :=
          fun x hx => hwf x (List.mem_cons_of_mem _ hx)
        cases tk
        case rbracket =>
          have h' := Option.some.inj (Option.some.inj h)
          rw [Prod.mk.injEq] at h'
          obtain ⟨h3, h4⟩ := h'
          rw [Prod.mk.injEq] at h4
          obtain ⟨h5, h6⟩ := h4
          subst h3 h5 h6
          exact ⟨rfl, hwf2⟩
        case pipe =>
          have h' : (match parseTermN k toks2 with
              | none => none
              | some none => some none
              | some (some (t, rest2)) =>
                (match rest2 with
                 | Token.rbracket :: rest3 =>
                   some (some (([] : List Term), some t, rest3))
                 | _ => some none))
              = some (some (es, tl, rest)) := h
          cases h1 : parseTermN k toks2 with
          | none => rw [h1] at h'; exact Option.noConfusion h'
          | some o1 =>
            rw [h1] at h'
            cases o1 with
            | none => exact Option.noConfusion (Option.some.inj h')
            | some p1 =>
              obtain ⟨t, r2⟩ := p1
              simp only [] at h'
              have hs1 := ihT toks2 t r2 hwf2 h1
              cases r2 with
              | nil => exact Option.noConfusion (Option.some.inj h')
              | cons tk3 r3 =>
                cases tk3
                case rbracket =>
                  have h2 := Option.some.inj (Option.some.inj h')
                  rw [Prod.mk.injEq] at h2
                  obtain ⟨h3, h4⟩ := h2
                  rw [Prod.mk.injEq] at h4
                  obtain ⟨h5, h6⟩ := h4
                  subst h3 h5 h6
                  refine ⟨?_, fun x hx =>
                    hs1.2 x (List.mem_cons_of_mem _ hx)⟩
                  show (true && wfTerm t) = true
                  rw [Bool.true_and]
                  exact hs1.1
                all_goals
                  exact Option.noConfusion (Option.some.inj h')
        all_goals
          rw [parseElemsN_cons_step (by simp) (by simp)] at h
        all_goals
          exact parseElems_sound_step ihT ihE hwf h

/-- Corollary: a term parsed from well-formed tokens is well-formed. -/
theorem parse_sound_term {n : Nat} {toks : List Token} {t : Term}
    {rest : List Token} (hwf : ∀ tk ∈ toks, tokWF tk = true)
    (h : parseTermN n toks = some (some (t, rest))) : wfTerm t = true :=
  ((parse_sound n).1 toks t rest hwf h).1

/-- **C9 (counterexample)**: the parser produces `Atom(1e-05)` from
the input `"0.00001"`, but `str` prints that float in scientific
notation as `"1e-05"`, which the tokenizer rejects (`SyntaxError` at
`'-'`): re-parsing the printed form of this parser-produced term fails
instead of yielding the term back. -/
theorem c9_round_trip_counterexample :
    parseTextN 3 "0.00001".data
      = some (some (.atom (.float (mkRat 1 100000)))) ∧
    printTerm (.atom (.float (mkRat 1 100000))) = "1e-05".data ∧
    tokMain "1e-05".data = none ∧
    ∀ n, parseTextN n (printTerm (.atom (.float (mkRat 1 100000))))
      = some none := by
  refine ⟨by decide, by decide, by decide, ?_⟩
  intro n
  rfl

/-- **C9 (amended)**: for every term `t` that `parse_text` produced
from some input and that contains no float atom, re-parsing the
printed form of `t` terminates and yields exactly `t`, variable names
preserved.  (Floats break the round trip, as the counterexample
shows: they can print in scientific notation, which the tokenizer
rejects.) -/
theorem c9_round_trip_amended {s : List Char} {t : Term}
    (hp : ParseTextR s t) (hf : noFloat t = true) :
    ParseTextR (printTerm t) t := by
  obtain ⟨n, hn⟩ := hp
  rw [parseTextN] at hn
  cases htoks : tokMain s with
  | none =>
    rw [htoks] at hn
    exact Option.noConfusion (Option.some.inj hn)
  | some toks =>
    rw [htoks] at hn
    simp only [] at hn
    cases hpar : parseTermN n toks with
    | none =>
      rw [hpar] at hn
      exact Option.noConfusion hn
    | some o =>
      rw [hpar] at hn
      cases o with
      | none => exact Option.noConfusion (Option.some.inj hn)
      | some p =>
        obtain ⟨t2, rest⟩ := p
        simp only [] at hn
        by_cases hr : rest = []
        · rw [if_pos hr] at hn
          have ht2 : t2 = t := Option.some.inj (Option.some.inj hn)
          subst ht2
          subst hr
          have hwfT : ∀ tk ∈ toks, tokWF tk = true := tokMain_wf htoks
          have hw : wfTerm t2 = true := parse_sound_term hwfT hpar
          obtain ⟨m, hm⟩ := parseTerm_tokens t2 hw hf []
          rw [List.append_nil] at hm
          refine ⟨m, ?_⟩
          show parseTextN m (printTerm t2) = some (some t2)
          rw [parseTextN, tokMain_print t2 hw hf]
          simp only []
          rw [hm]
          rfl
        · rw [if_neg hr] at hn
          exact Option.noConfusion (Option.some.inj hn)

/-- Witness for the amended C9 theorem at the parser-produced term
`(f X [2 3])`: it parses from its source text, holds no float, and
its printed form re-parses to exactly the same term. -/
theorem c9_round_trip_amended_witness :
    ParseTextR "(f X [2 3])".data
      (Term.comp "f" [Term.var "X",
        Term.list [Term.atom (.int 2), Term.atom (.int 3)] none]) ∧
    noFloat (Term.comp "f" [Term.var "X",
        Term.list [Term.atom (.int 2), Term.atom (.int 3)] none]) = true ∧
    ParseTextR
      (printTerm (Term.comp "f" [Term.var "X",
        Term.list [Term.atom (.int 2), Term.atom (.int 3)] none]))
      (Term.comp "f" [Term.var "X",
        Term.list [Term.atom (.int 2), Term.atom (.int 3)] none]) :=
  have hp : ParseTextR "(f X [2 3])".data
      (Term.comp "f" [Term.var "X",
        Term.list [Term.atom (.int 2), Term.atom (.int 3)] none]) :=
    ⟨12, by decide⟩
  ⟨hp, by decide, c9_round_trip_amended hp (by decide)⟩

/-- **C2**: for every variable `X` and every Compound functor `f`,
`unify(X, f(X), ∅)` fails, and likewise `unify(X, [X | X], ∅)` fails:
the occurs-check rejects binding a variable to a term containing it.
The last two conjuncts state that failure is the only possible outcome
(the source function is deterministic). -/
theorem c2_occurs_check_soundness (x f : String) :
    UnifyR [] (.var x) (.comp f [.var x]) none ∧
    UnifyR [] (.var x) (.list [.var x] (some (.var x))) none ∧
    (∀ res, UnifyR [] (.var x) (.comp f [.var x]) res → res = none) ∧
    (∀ res, UnifyR [] (.var x) (.list [.var x] (some (.var x))) res → res = none) := by
  have h1 : unifyN 9 [] (.var x) (.comp f [.var x]) = some none := by
    simp [unifyN, applyN, lookupS, find1, walkChain, occursN, occursAnyN,
          Term.isVarNamed, List.mapM_cons, List.mapM.loop]
  have h2 : unifyN 9 [] (.var x) (.list [.var x] (some (.var x))) = some none := by
    simp [unifyN, applyN, lookupS, find1, walkChain, occursN, occursAnyN,
          Term.isVarNamed, List.mapM_cons, List.mapM.loop]
  refine ⟨⟨9, h1⟩, ⟨9, h2⟩, ?_, ?_⟩
  · intro res hres
    exact UnifyR_det hres ⟨9, h1⟩
  · intro res hres
    exact UnifyR_det hres ⟨9, h2⟩

/-- **C3 (counterexample)**: `solve` does not emit every solution
exactly once for every database within the depth limit: it yields one
solution per successful derivation, so a database holding the same
fact twice emits the same binding twice.  With `(parent tom bob)`
inserted twice, the query `(parent tom X)` yields `X = bob` two
times. -/
theorem c3_solution_uniqueness_counterexample :
    (queryN dbDup 60 (.comp "parent" [atomS "tom", .var "X"])).map
      (fun r => r.1.map (fun s => applyN s 60 (.var "X"))) =
    some [some (atomS "bob"), some (atomS "bob")] := by decide

/-- **C3 (amended)**: with the facts `(parent tom bob)`,
`(parent bob ann)`, the rule `((grandparent X Z) (parent X Y)
(parent Y Z))`, then `(parent tom mary)` and `(parent bob jane)`
inserted in that order, the query `(grandparent tom X)` terminates and
yields exactly two solutions, in clause-insertion order: `X = ann`,
then `X = jane`.  (The universal exactly-once sentence fails — see the
counterexample.) -/
theorem c3_grandparent_solution_order :
    (queryN dbS3 60 (.comp "grandparent" [atomS "tom", .var "X"])).map
      (fun r => r.1.map (fun s => applyN s 60 (.var "X"))) =
    some [some (atomS "ann"), some (atomS "jane")] := by decide

/-- **C6**: the built-in `/=` yields exactly the unchanged input
substitution when unification of its two arguments fails, and yields
nothing when unification succeeds; concretely `(/= tom bob)` succeeds,
`(/= X X)` fails, and `(/= (f A) (g B))` succeeds. -/
theorem c6_not_unifiable_semantics (σ : Subst) (a b : Term) (n : Nat)
    (res : Option Subst) (h : unifyN n σ a b = some res) :
    notUnifiableN (n + 1) [a, b] σ = some (res.elim [σ] (fun _ => [])) ∧
    notUnifiableN 9 [atomS "tom", atomS "bob"] [] = some [[]] ∧
    notUnifiableN 9 [.var "X", .var "X"] [] = some [] ∧
    notUnifiableN 9 [.comp "f" [.var "A"], .comp "g" [.var "B"]] [] = some [[]] := by
  refine ⟨?_, by decide, by decide, by decide⟩
  rw [notUnifiableN]
  cases res with
  | none => rw [h]; rfl
  | some σ2 => rw [h]; rfl


/-- Witness for C6 at a concrete input: `X` and `Y` unify, so `/=`
yields no solution. -/
theorem c6_not_unifiable_semantics_witness :
    notUnifiableN 5 [.var "X", .var "Y"] [] =
      some ((some [("X", Term.var "Y")] : Option Subst).elim [([] : Subst)] (fun _ => [])) ∧
    notUnifiableN 9 [atomS "tom", atomS "bob"] [] = some [[]] ∧
    notUnifiableN 9 [.var "X", .var "X"] [] = some [] ∧
    notUnifiableN 9 [.comp "f" [.var "A"], .comp "g" [.var "B"]] [] = some [[]] :=
  c6_not_unifiable_semantics [] (.var "X") (.var "Y") 4
    (some [("X", Term.var "Y")]) (by decide)

/-- **C8, counterexample**: `Substitution.bind` has no failure path in
the source: called with the identical variable (`bind "X" (Variable "X")`),
it does not fail but returns the extended substitution containing the
self-binding — the claimed `InvalidBind` failure does not exist. -/
theorem c8_bind_counterexample :
    bindS [] "X" (.var "X") = [("X", Term.var "X")] ∧
    find1 (bindS [] "X" (.var "X")) "X" = some (Term.var "X") := by decide

/-- **C8, amended**: `bind` never fails — for every argument pair,
including binding a name to the identical variable, it returns a new
substitution in which the name maps to the given term and every other
name is bound exactly as before (the caller's substitution is
undisturbed; `bind` is functional update of a copied dictionary). -/
theorem c8_bind_total_extension (σ : Subst) (x : String) (t : Term) :
    find1 (bindS σ x t) x = some t ∧
    (∀ y, y ≠ x → find1 (bindS σ x t) y = find1 σ y) := by
  rw [bindS]
  by_cases hc : σ.any (fun p => decide (p.1 = x)) = true
  · rw [if_pos hc]
    exact ⟨find1_overwrite σ x t hc,
           fun y hy => find1_overwrite_ne σ x y t hy⟩
  · rw [if_neg hc]
    have hc2 : σ.any (fun p => decide (p.1 = x)) = false :=
      Bool.not_eq_true _ ▸ Bool.of_not_eq_true hc
    exact ⟨find1_append_one σ x t hc2,
           fun y hy => find1_append_one_ne σ x y t hy⟩

/-- Witness for the amended C8 at concrete inputs. -/
theorem c8_bind_total_extension_witness :
    find1 (bindS [("A", atomI 1)] "X" (atomI 2)) "X" = some (atomI 2) ∧
    find1 (bindS [("A", atomI 1)] "X" (atomI 2)) "A" = some (atomI 1) :=
  ⟨(c8_bind_total_extension [("A", atomI 1)] "X" (atomI 2)).1,
   by
     rw [(c8_bind_total_extension [("A", atomI 1)] "X" (atomI 2)).2 "A"
       (by decide)]
     decide⟩

/-- **C7, counterexample**: with the engine counter at 0 (so the fresh
suffix is `_1`), renaming the clause `(p X X_1)` produces the variable
name `X_1`, which already occurs in the argument clause — the claimed
unconditional freshness fails. -/
theorem c7_rename_counterexample :
    "X_1" ∈ Clause.vars ⟨.comp "p" [.var "X", .var "X_1"], []⟩ ∧
    "X_1" ∈ Clause.vars (renameClause ⟨.comp "p" [.var "X", .var "X_1"], []⟩ 0).1 := by
  decide

/-- **C7, amended**: renaming appends the fresh suffix `_k` (`k` = the
incremented counter) to every variable name, consistently (same
original name ↦ same fresh name, different original names stay
different), preserving atoms and compound structure; provided no
variable name of the clause equals another of its variable names with
this suffix appended, the renamed variables are disjoint from the
clause's variables; and names produced by two renames with different
counter values never collide. -/
theorem c7_rename_freshness_amended (c : Clause) (ctr : Nat)
    (hcond : ∀ v ∈ Clause.vars c, ∀ w ∈ Clause.vars c,
      v ≠ w ++ ("_" ++ String.mk (natDec (ctr + 1)))) :
    (∀ u ∈ Clause.vars (renameClause c ctr).1, u ∉ Clause.vars c) ∧
    Clause.vars (renameClause c ctr).1 =
      (Clause.vars c).map (fun x => x ++ ("_" ++ String.mk (natDec (ctr + 1)))) ∧
    (∀ (c2 : Clause) (ctr2 : Nat), ctr ≠ ctr2 →
      ∀ u ∈ Clause.vars (renameClause c ctr).1,
        u ∉ Clause.vars (renameClause c2 ctr2).1) ∧
    (∀ v w : String,
      renameTerm ("_" ++ String.mk (natDec (ctr + 1))) (.var v) =
        renameTerm ("_" ++ String.mk (natDec (ctr + 1))) (.var w) ↔ v = w) ∧
    (∀ a, renameTerm ("_" ++ String.mk (natDec (ctr + 1))) (.atom a) = .atom a) ∧
    (∀ f args, renameTerm ("_" ++ String.mk (natDec (ctr + 1))) (.comp f args) =
      .comp f (renameTermList ("_" ++ String.mk (natDec (ctr + 1))) args)) := by
  refine ⟨?_, vars_renameClause c ctr, ?_, ?_, fun a => rfl, fun f args => rfl⟩
  · intro u hu hmem
    rw [vars_renameClause] at hu
    obtain ⟨w, hw, hwe⟩ := List.mem_map.mp hu
    exact hcond u hmem w hw hwe.symm
  · intro c2 ctr2 hne u hu hu2
    rw [vars_renameClause] at hu hu2
    obtain ⟨w1, _, hw1⟩ := List.mem_map.mp hu
    obtain ⟨w2, _, hw2⟩ := List.mem_map.mp hu2
    have heq : w1 ++ ("_" ++ String.mk (natDec (ctr + 1))) =
        w2 ++ ("_" ++ String.mk (natDec (ctr2 + 1))) := by
      rw [hw1, hw2]
    obtain ⟨_, hk⟩ := rename_name_inj heq
    omega
  · intro v w
    constructor
    · intro h
      have hnames : v ++ ("_" ++ String.mk (natDec (ctr + 1))) =
          w ++ ("_" ++ String.mk (natDec (ctr + 1))) := by
        injection h
      exact (rename_name_inj hnames).1
    · intro h
      rw [h]

/-- Witness for the amended C7: renaming `(p X Y)` with the counter at 0
yields variables disjoint from `{X, Y}`. -/
theorem c7_rename_freshness_amended_witness :
    ("X" ++ ("_" ++ String.mk (natDec 1))) ∉
      Clause.vars (⟨.comp "p" [.var "X", .var "Y"], []⟩ : Clause) :=
  (c7_rename_freshness_amended ⟨.comp "p" [.var "X", .var "Y"], []⟩ 0
      (by decide)).1
    ("X" ++ ("_" ++ String.mk (natDec 1))) (by decide)

/-- **C10**: `unify(Atom i, Atom f, σ)` for an integer `i` and a float
`f` succeeds — returning `σ` unchanged — iff the two numbers are
numerically equal; concretely the goal `(= 2 2.0)` succeeds with no new
bindings. -/
theorem c10_numeric_atom_unification (i : Int) (q : Rat) (σ : Subst) (n : Nat) :
    unifyN (n + 2) σ (.atom (.int i)) (.atom (.float q)) =
      some (if (i : Rat) = q then some σ else none) ∧
    evalBuiltinN 9 (.comp "=" [.atom (.int 2), .atom (.float 2)]) [] =
      some [[]] := by
  constructor
  · rw [unifyN]
    have ha : applyN σ (n + 1) (Term.atom (PyVal.int i)) =
        some (Term.atom (PyVal.int i)) := by rw [applyN]
    have hb : applyN σ (n + 1) (Term.atom (PyVal.float q)) =
        some (Term.atom (PyVal.float q)) := by rw [applyN]
    rw [ha, hb]
    simp [PyVal.eqb]
  · decide

end MicroProlog
